import Mathlib

/-!
# vulndb: version comparison, CPE parsing, matching and ingestion

A shallow embedding of `scraper/vulndb/version_match.go`, of the CPE functions of
`scraper/vulndb/utils.go`, of the matching of products to advisories and the preparation of
names of `scraper/vulndb/match.go` (with the caches and the automatic commits of
`session.go`), and of the steps of `createdb.go` and `redhat_oval.go` that write product
items and platform vulnerabilities, with the properties proved about them.

Modelling conventions.

* A Go `string` holding text is the list of its Unicode code points (`Str`); this is exactly
  a well-formed UTF-8 string, and on such strings the byte-wise order of Go coincides with
  the code-point order used here.
* `url.PathUnescape` can produce arbitrary bytes, so `cpeDecode` and the fields of `CPEParts`
  are byte strings (`Bytes`).
* Go `int` is 64 bits wide; it is an `Int` here, with `strconv.Atoi` failing outside the
  64-bit range and the one subtraction of the code wrapped explicitly.
* Regular expressions are matched with the leftmost-first (backtracking priority) discipline
  of Go's `regexp` package.
* The Unicode case tables of Go are not reproduced: the functions take a `CaseTable`, any
  per-rune mapping that is the usual one on ASCII.
* The database is a record of the answers to the queries of `match.go` (`Database`), rows or
  an error; a function that changes the session returns the new session with its result.
* The ingestion steps act on the tables they write, given as lists of rows in the order of
  insertion; their inputs are the decoded feeds, and the storage is taken to work.
-/

namespace Vulndb

/-! ## Strings -/

/-- A Go string of well-formed UTF-8, as its code points. -/
abbrev Str := List Char

/-- A Go string as raw bytes. -/
abbrev Bytes := List UInt8

/-- Go's `unicode.IsSpace`: the code points with the White_Space property. -/
def isSpace (c : Char) : Bool :=
  let n := c.toNat
  (9 ≤ n && n ≤ 13) || n == 0x20 || n == 0x85 || n == 0xA0 || n == 0x1680 ||
  (0x2000 ≤ n && n ≤ 0x200A) || n == 0x2028 || n == 0x2029 || n == 0x202F ||
  n == 0x205F || n == 0x3000

/-- Go's `strings.TrimSpace`: leading and trailing white space removed. -/
def TrimSpace (s : Str) : Str :=
  ((s.dropWhile isSpace).reverse.dropWhile isSpace).reverse

/-- The per-rune case mappings `unicode.ToLower` and `unicode.ToUpper`. Only what the
development relies on is recorded: on ASCII they are the ASCII mappings, and upper-casing
twice is upper-casing once. -/
structure CaseTable where
  toLower : Char → Char
  toUpper : Char → Char
  toLower_ascii : ∀ c : Char, c.toNat < 128 → toLower c = c.toLower
  toUpper_ascii : ∀ c : Char, c.toNat < 128 → toUpper c = c.toUpper
  toUpper_idem : ∀ c : Char, toUpper (toUpper c) = toUpper c

/-- Go's `strings.ToLower`. -/
def ToLower (u : CaseTable) (s : Str) : Str := s.map u.toLower

/-- Go's `strings.ToUpper`. -/
def ToUpper (u : CaseTable) (s : Str) : Str := s.map u.toUpper

/-- Lexicographic order on strings of code units: Go's `<` on strings, which compares
bytes. -/
def codesLt : List Nat → List Nat → Bool
  | _, [] => false
  | [], _ :: _ => true
  | a :: as, b :: bs => decide (a < b) || (decide (a = b) && codesLt as bs)

/-- Go's `<` on text: the byte-wise order of well-formed UTF-8 is the order of the code
points. -/
def strLt (a b : Str) : Bool := codesLt (a.map Char.toNat) (b.map Char.toNat)

/-- The UTF-8 bytes of a text. -/
def utf8 (s : Str) : Bytes := s.flatMap String.utf8EncodeChar

/-- Go's `<` on byte strings. -/
def bytesLt (a b : Bytes) : Bool := codesLt (a.map UInt8.toNat) (b.map UInt8.toNat)

/-- Go's `strings.HasPrefix`. -/
def HasPrefix : Str → Str → Bool
  | _, [] => true
  | [], _ :: _ => false
  | a :: as, b :: bs => decide (a = b) && HasPrefix as bs

/-! ## Integers -/

/-- Largest Go `int` (64 bit). -/
def maxInt : Int := 9223372036854775807

/-- Two's complement wrap-around of 64-bit arithmetic. -/
def wrapInt (x : Int) : Int := (x + 9223372036854775808) % 18446744073709551616 - 9223372036854775808

/-- The class `\d` of Go regular expressions: the ASCII digits. -/
def isDigit (c : Char) : Bool := decide (48 ≤ c.toNat) && decide (c.toNat ≤ 57)

/-- Value of a string of decimal digits given by their codes, continuing from `acc`;
`none` if a code is not that of a digit. -/
def digitsVal : Nat → List Nat → Option Nat
  | acc, [] => some acc
  | acc, c :: cs =>
    if 48 ≤ c ∧ c ≤ 57 then digitsVal (acc * 10 + (c - 48)) cs else none

/-- The digits of `strconv.Atoi` after the optional sign: at least one, all decimal, and the
signed value within the range of `int`. -/
def atoiBody (neg : Bool) (ds : List Nat) : Option Int :=
  match ds with
  | [] => none
  | _ :: _ =>
    match digitsVal 0 ds with
    | none => none
    | some n =>
      if neg then (if (n : Int) ≤ maxInt + 1 then some (-(n : Int)) else none)
      else (if (n : Int) ≤ maxInt then some (n : Int) else none)

/-- Go's `strconv.Atoi` on the code units of its argument: an optional sign, then one or
more decimal digits, the value within the range of `int`. `none` stands for a returned
error. -/
def atoiCodes (s : List Nat) : Option Int :=
  match s with
  | [] => none
  | c :: cs =>
    if c = 43 then atoiBody false cs
    else if c = 45 then atoiBody true cs
    else atoiBody false (c :: cs)

/-- Go's `strconv.Atoi` on a text. -/
def Atoi (s : Str) : Option Int := atoiCodes (s.map Char.toNat)

/-- Go's `strconv.Atoi` on a byte string. -/
def AtoiBytes (s : Bytes) : Option Int := atoiCodes (s.map UInt8.toNat)

/-! ## Regular expressions -/

/-- The fragment of regular expressions used by the patterns of `version_match.go` and of
`match.go`. -/
inductive Re where
  /-- One character of a class. -/
  | cls (p : Char → Bool)
  /-- Greedy repetition of a class, `lo` to `hi` times (`none`: unbounded). -/
  | rep (p : Char → Bool) (lo : Nat) (hi : Option Nat)
  /-- Greedy option `r?`. -/
  | opt (r : Re)
  /-- Concatenation. -/
  | seq (a b : Re)
  /-- Alternation `a|b`, the first alternative preferred. -/
  | alt (a b : Re)
  /-- Capturing group number `i`. -/
  | cap (i : Nat) (r : Re)

/-- Values of the capture groups; a group that did not take part holds the empty string,
as in the result of `FindAllStringSubmatch`. -/
abbrev Caps := List Str

/-- The numbers `hi, hi-1, ..., lo`. -/
def countDown (lo hi : Nat) : List Nat :=
  ((List.range (hi + 1 - lo)).map (fun k => k + lo)).reverse

/-- The largest number of repetitions a greedy repetition of the class `p`, bounded by
`hi`, can take at the start of `s`. -/
def repMax (p : Char → Bool) (hi : Option Nat) (s : Str) : Nat :=
  match hi with
  | none => (s.takeWhile p).length
  | some h => min h (s.takeWhile p).length

/-- Backtracking match of `r` at the start of `s`, followed by the continuation `k` on the
unconsumed rest and the captures: the alternatives are tried in priority order (a greedy
repetition from the longest down, an option taken before it is skipped, the first branch of
an alternation before the second) and the first one on which the continuation succeeds is
returned. -/
def Re.exec {α : Type} : Re → (Str → Caps → Option α) → Str → Caps → Option α
  | .cls p, k, s, c =>
    match s with
    | [] => none
    | x :: xs => if p x then k xs c else none
  | .rep p lo hi, k, s, c =>
    (countDown lo (repMax p hi s)).findSome? (fun j => k (s.drop j) c)
  | .opt r, k, s, c =>
    match r.exec k s c with
    | some a => some a
    | none => k s c
  | .seq a b, k, s, c => a.exec (fun s1 c1 => b.exec k s1 c1) s c
  | .alt a b, k, s, c =>
    match a.exec k s c with
    | some x => some x
    | none => b.exec k s c
  | .cap i r, k, s, c =>
    r.exec (fun s1 c1 => k s1 (c1.set i (s.take (s.length - s1.length)))) s c

/-- The preferred match of `r` at the very start of `s`, with `n` capture groups: the
submatches (group 0 is the whole match) and the rest of the input. -/
def Re.matchAt (r : Re) (n : Nat) (s : Str) : Option (Caps × Str) :=
  (Re.cap 0 r).exec (fun s1 c1 => some (c1, s1)) s (List.replicate (n + 1) [])

/-- The loop of `FindAllStringSubmatch(s, -1)`. `skip` counts the characters still inside the
previous match; `atPrevEnd` tells that the position is the end of the previous match, where
an empty match is not reported. -/
def findAllAux (r : Re) (n : Nat) : Bool → Nat → Str → List Caps
  | _, _ + 1, [] => []
  | _, skip + 1, _ :: xs => findAllAux r n (decide (skip = 0)) skip xs
  | atPrevEnd, 0, s =>
    match r.matchAt n s with
    | none =>
      match s with
      | [] => []
      | _ :: xs => findAllAux r n false 0 xs
    | some (caps, rest) =>
      let len := s.length - rest.length
      if len = 0 then
        (if atPrevEnd then [] else [caps]) ++
          (match s with
           | [] => []
           | _ :: xs => findAllAux r n false 0 xs)
      else
        caps :: (match s with
          | [] => []
          | _ :: xs => findAllAux r n (decide (len = 1)) (len - 1) xs)

/-- Go's `re.FindAllStringSubmatch(s, -1)` for a pattern with `n` capture groups: the
successive non-overlapping matches, each as the list of its `n + 1` submatches. -/
def FindAllStringSubmatch (r : Re) (n : Nat) (s : Str) : List Caps :=
  findAllAux r n false 0 s

/-- The character `c` as a one-character class. -/
def lit (c : Char) : Char → Bool := fun x => decide (x = c)

/-- The class `[a-zA-Z]`. -/
def isAlpha (c : Char) : Bool :=
  (decide (97 ≤ c.toNat) && decide (c.toNat ≤ 122)) || (decide (65 ≤ c.toNat) && decide (c.toNat ≤ 90))

/-- The class `[a-z]`. -/
def isLowerAZ (c : Char) : Bool := decide (97 ≤ c.toNat) && decide (c.toNat ≤ 122)

/-- The class `[\d+]`: a digit or the plus sign. -/
def isDigitOrPlus (c : Char) : Bool := isDigit c || decide (c = '+')

/-- The class `[\d\.]`: a digit or the dot. -/
def isDigitOrDot (c : Char) : Bool := isDigit c || decide (c = '.')

/-- Concatenation of a list of expressions. -/
def Re.cat : List Re → Re
  | [] => .rep (fun _ => false) 0 (some 0)
  | [r] => r
  | r :: rs => .seq r (Re.cat rs)

/-- The expression `p+`. -/
def Re.plus (p : Char → Bool) : Re := .rep p 1 none

/-- The expression `p*`. -/
def Re.star (p : Char → Bool) : Re := .rep p 0 none

/-! ## Generic version comparison -/

/-- The pattern `reVersionParts`:
`([\d]+)\.?([\d]+)?\(?([\d]+)?\)?([a-zA-Z]+)?\.?([a-zA-Z]+)?([\d]+)?\.?([\d]+)?\.?([\d]+)?-?([a-z]?)([\d]+)?`. -/
def reVersionParts : Re :=
  Re.cat [
    .cap 1 (Re.plus isDigit),
    .opt (.cls (lit '.')),
    .opt (.cap 2 (Re.plus isDigit)),
    .opt (.cls (lit '(')),
    .opt (.cap 3 (Re.plus isDigit)),
    .opt (.cls (lit ')')),
    .opt (.cap 4 (Re.plus isAlpha)),
    .opt (.cls (lit '.')),
    .opt (.cap 5 (Re.plus isAlpha)),
    .opt (.cap 6 (Re.plus isDigit)),
    .opt (.cls (lit '.')),
    .opt (.cap 7 (Re.plus isDigit)),
    .opt (.cls (lit '.')),
    .opt (.cap 8 (Re.plus isDigit)),
    .opt (.cls (lit '-')),
    .cap 9 (.opt (.cls isLowerAZ)),
    .opt (.cap 10 (Re.plus isDigit))]

/-- The integer value the comparison loops give a part: 0 for an empty part, the parsed
value otherwise; `none` when `strconv.Atoi` fails. -/
def partVal (part : Str) : Option Int :=
  if part.length > 0 then Atoi part else some 0

/-- One round of the loop of `VersionCompare` on the parts with index `i`: `some r` when the
loop returns `r`, `none` when it goes on to the next index. -/
def versionStep (i : Nat) (tplPart tgtPart : Str) : Option Int :=
  if tplPart.length = 0 ∧ tgtPart.length = 0 then none
  else
    match partVal tplPart, partVal tgtPart with
    | some tplVal, some tgtVal =>
      if i = 1 ∧ |wrapInt (tgtVal - tplVal)| > 1000 then some 2
      else if tgtVal > tplVal then some 1
      else if tplVal > tgtVal then some (-1)
      else none
    | _, _ =>
      if strLt tplPart tgtPart then some 1
      else if strLt tgtPart tplPart then some (-1)
      else none

/-- The loop `for i := 1; i < len(templateVersionParts); i++` of `VersionCompare`, entered at
index `i` with the parts from `i` on. -/
def versionLoop : Nat → List Str → List Str → Int
  | i, tplPart :: tpls, tgtPart :: tgts =>
    match versionStep i tplPart tgtPart with
    | some r => r
    | none => versionLoop (i + 1) tpls tgts
  | _, _, _ => 0

/-- Go's `VersionCompare(templateVer, targetVer)`. -/
def VersionCompare (u : CaseTable) (templateVer targetVer : Str) : Int :=
  let templateVer := TrimSpace templateVer
  let targetVer := TrimSpace targetVer
  if ToLower u templateVer = ToLower u targetVer then 0
  else
    match FindAllStringSubmatch reVersionParts 10 templateVer with
    | [] => 1
    | templateVersionParts :: _ =>
      match FindAllStringSubmatch reVersionParts 10 targetVer with
      | [] => -1
      | targetVersionParts :: _ =>
        versionLoop 1 (templateVersionParts.drop 1) (targetVersionParts.drop 1)

/-- Go's `PatchCompare(templatePatch, targetPatch)`. -/
def PatchCompare (u : CaseTable) (templatePatch targetPatch : Str) : Int :=
  if templatePatch = targetPatch then 0
  else if templatePatch = [] then 1
  else VersionCompare u templatePatch targetPatch

/-! ## Cisco IOS -/

/-- The components of a Cisco IOS version (`ciscoIosVersion`). -/
structure ciscoIosVersion where
  CodeName : Str := []
  Major : Str := []
  Minor : Str := []
  Build : Str := []
  InterimBuild : Str := []
  Train : Str := []
  Rebuild : Str := []
  SubRebuild : Str := []
deriving DecidableEq

/-- One round of the loop of `ciscoIosVersion.Compare`; `nParts` is `len(vParts)`, which the
source tests in place of `len(vPart)`. `some r`: the loop returns `r`; `none`: next index. -/
def iosStep (nParts : Nat) (vPart anotherPart : Str) : Option Int :=
  if nParts = 0 ∧ anotherPart.length = 0 then none
  else
    match partVal vPart, partVal anotherPart with
    | some vVal, some anotherVal =>
      if vVal > anotherVal then some 1
      else if vVal < anotherVal then some (-1)
      else none
    | _, _ =>
      if strLt anotherPart vPart then some 1
      else if strLt vPart anotherPart then some (-1)
      else none

/-- The loop `for i := range vParts` of `ciscoIosVersion.Compare`. -/
def iosLoop (nParts : Nat) : List Str → List Str → Int
  | vPart :: vs, anotherPart :: as =>
    match iosStep nParts vPart anotherPart with
    | some r => r
    | none => iosLoop nParts vs as
  | _, _ => 0

/-- Go's `(v ciscoIosVersion) Compare(another)`. -/
def ciscoIosVersion.Compare (v another : ciscoIosVersion) : Int :=
  if v.CodeName ≠ another.CodeName ∨ v.Major ≠ another.Major ∨ v.Minor ≠ another.Minor ∨
      v.Train ≠ another.Train then 2
  else
    let vParts := [v.Major, v.Minor, v.Train, v.Build, v.InterimBuild, v.Rebuild, v.SubRebuild]
    let anotherParts := [another.Major, another.Minor, another.Train, another.Build,
      another.InterimBuild, another.Rebuild, another.SubRebuild]
    iosLoop vParts.length vParts anotherParts

/-- The pattern `reCiscoIOSVersion`:
`([\d]+)\.([\d]+)\(([\d]+)([a-zA-Z]+)?\)([a-zA-Z]+)?([\d]+)?([a-z])?`. -/
def reCiscoIOSVersion : Re :=
  Re.cat [
    .cap 1 (Re.plus isDigit),
    .cls (lit '.'),
    .cap 2 (Re.plus isDigit),
    .cls (lit '('),
    .cap 3 (Re.plus isDigit),
    .opt (.cap 4 (Re.plus isAlpha)),
    .cls (lit ')'),
    .opt (.cap 5 (Re.plus isAlpha)),
    .opt (.cap 6 (Re.plus isDigit)),
    .opt (.cap 7 (.cls isLowerAZ))]

/-- The pattern `reCiscoIOSCodenamedVersion`: `([a-z]+)?-?([\d]+)\.([\d]+)\.([\d]+)`. -/
def reCiscoIOSCodenamedVersion : Re :=
  Re.cat [
    .opt (.cap 1 (Re.plus isLowerAZ)),
    .opt (.cls (lit '-')),
    .cap 2 (Re.plus isDigit),
    .cls (lit '.'),
    .cap 3 (Re.plus isDigit),
    .cls (lit '.'),
    .cap 4 (Re.plus isDigit)]

/-- Submatch `j` of match `i` of a result of `FindAllStringSubmatch`. -/
def sub (parts : List Caps) (i j : Nat) : Str := (parts.getD i []).getD j []

/-- Go's `VersionCompareCiscoIOS(templateVer, targetVer)`. -/
def VersionCompareCiscoIOS (templateVer targetVer : Str) : Int :=
  let verPartsTpl := FindAllStringSubmatch reCiscoIOSVersion 7 templateVer
  let verPartsTgt := FindAllStringSubmatch reCiscoIOSVersion 7 targetVer
  if verPartsTpl.length = 1 ∧ (verPartsTpl.getD 0 []).length = 8 ∧
      verPartsTgt.length = 1 ∧ (verPartsTgt.getD 0 []).length = 8 then
    let verTpl : ciscoIosVersion :=
      { Major := sub verPartsTpl 0 1, Minor := sub verPartsTpl 0 2, Build := sub verPartsTpl 0 3,
        InterimBuild := sub verPartsTpl 0 4, Train := sub verPartsTpl 0 5,
        Rebuild := sub verPartsTpl 0 6, SubRebuild := sub verPartsTpl 0 7 }
    let verTgt : ciscoIosVersion :=
      { Major := sub verPartsTgt 0 1, Minor := sub verPartsTgt 0 2, Build := sub verPartsTgt 0 3,
        InterimBuild := sub verPartsTgt 0 4, Train := sub verPartsTgt 0 5,
        Rebuild := sub verPartsTgt 0 6, SubRebuild := sub verPartsTgt 0 7 }
    verTgt.Compare verTpl
  else
    let verPartsTpl := FindAllStringSubmatch reCiscoIOSCodenamedVersion 4 templateVer
    let verPartsTgt := FindAllStringSubmatch reCiscoIOSCodenamedVersion 4 targetVer
    if verPartsTpl.length = 1 ∧ (verPartsTpl.getD 0 []).length = 5 ∧
        verPartsTgt.length = 1 ∧ (verPartsTgt.getD 0 []).length = 5 then
      let verTpl : ciscoIosVersion :=
        { CodeName := sub verPartsTpl 0 1, Major := sub verPartsTpl 0 2,
          Minor := sub verPartsTpl 0 3, Build := sub verPartsTpl 0 4 }
      let verTgt : ciscoIosVersion :=
        { CodeName := if verTpl.CodeName = [] then [] else sub verPartsTgt 0 1,
          Major := sub verPartsTgt 0 2, Minor := sub verPartsTgt 0 3,
          Build := sub verPartsTgt 0 4 }
      verTgt.Compare verTpl
    else 2

/-! ## Cisco ASA -/

/-- The pattern `reCiscoASAVersionFmt1`: `([\d\.]+)\(([\d\.]+)\)([\d]+)?`. -/
def reCiscoASAVersionFmt1 : Re :=
  Re.cat [
    .cap 1 (Re.plus isDigitOrDot),
    .cls (lit '('),
    .cap 2 (Re.plus isDigitOrDot),
    .cls (lit ')'),
    .opt (.cap 3 (Re.plus isDigit))]

/-- The pattern `reCiscoASAVersionFmt2`: `([\d]+\.[\d]+)\.([\d]+\.?[\d]*)`. -/
def reCiscoASAVersionFmt2 : Re :=
  Re.cat [
    .cap 1 (Re.cat [Re.plus isDigit, .cls (lit '.'), Re.plus isDigit]),
    .cls (lit '.'),
    .cap 2 (Re.cat [Re.plus isDigit, .opt (.cls (lit '.')), Re.star isDigit])]

/-- The components of a Cisco ASA version (`ciscoASAVersion`). -/
structure ciscoASAVersion where
  Major : Str := []
  Minor : Str := []
  Build : Str := []
deriving DecidableEq

/-- The loop `for i := range vParts` of `ciscoASAVersion.Compare`. -/
def asaLoop (u : CaseTable) : List Str → List Str → Int
  | vPart :: vs, anotherPart :: as =>
    if vPart.length = 0 ∧ anotherPart.length = 0 then asaLoop u vs as
    else
      let cmpVal := VersionCompare u anotherPart vPart
      if cmpVal ≠ 0 then cmpVal else asaLoop u vs as
  | _, _ => 0

/-- Go's `(v *ciscoASAVersion) Compare(another)`. -/
def ciscoASAVersion.Compare (u : CaseTable) (v another : ciscoASAVersion) : Int :=
  asaLoop u [v.Major, v.Minor, v.Build] [another.Major, another.Minor, another.Build]

/-- Go's `parseCiscoASAVersion(verstr)`; `none` is the result `(nil, false)`. -/
def parseCiscoASAVersion (verstr : Str) : Option ciscoASAVersion :=
  let parts := FindAllStringSubmatch reCiscoASAVersionFmt1 3 verstr
  if parts.length > 0 ∧ (parts.getD 0 []).length = 4 then
    some { Major := sub parts 0 1, Minor := sub parts 0 2, Build := sub parts 0 3 }
  else
    let parts := FindAllStringSubmatch reCiscoASAVersionFmt2 2 verstr
    if parts.length > 0 ∧ (parts.getD 0 []).length = 3 then
      some { Major := sub parts 0 1, Minor := sub parts 0 2 }
    else none

/-- Go's `VersionCompareCiscoASA(templateVer, targetVer)`. -/
def VersionCompareCiscoASA (u : CaseTable) (templateVer targetVer : Str) : Int :=
  match parseCiscoASAVersion templateVer with
  | none => VersionCompare u templateVer targetVer
  | some verTpl =>
    match parseCiscoASAVersion targetVer with
    | none => VersionCompare u templateVer targetVer
    | some verTgt => verTgt.Compare u verTpl

/-- Go's `VersionCompareCisco(product, templateVer, targetVer)`. -/
def VersionCompareCisco (u : CaseTable) (product templateVer targetVer : Str) : Int :=
  if product = "ios".toList then VersionCompareCiscoIOS templateVer targetVer
  else if product = "adaptive_security_appliance_software".toList then
    VersionCompareCiscoASA u templateVer targetVer
  else VersionCompare u templateVer targetVer

/-! ## Adobe -/

/-- The pattern `reAdobeVersion`: `(\d{1,4})\.(\d{1,3})\.(\d{2,5})`. -/
def reAdobeVersion : Re :=
  Re.cat [
    .cap 1 (.rep isDigit 1 (some 4)),
    .cls (lit '.'),
    .cap 2 (.rep isDigit 1 (some 3)),
    .cls (lit '.'),
    .cap 3 (.rep isDigit 2 (some 5))]

/-- Go's `VersionCompareAdobe(product, templateVer, targetVer)`. The lengths tested are those
of strings of digits and dots, whose bytes are their characters. -/
def VersionCompareAdobe (u : CaseTable) (product templateVer targetVer : Str) : Int :=
  if ¬ HasPrefix product "acrobat".toList then VersionCompare u templateVer targetVer
  else
    let partsTpl := FindAllStringSubmatch reAdobeVersion 3 templateVer
    let partsTgt := FindAllStringSubmatch reAdobeVersion 3 targetVer
    if partsTpl.length = 0 ∨ (partsTpl.getD 0 []).length ≠ 4 ∨
        partsTgt.length = 0 ∨ (partsTgt.getD 0 []).length ≠ 4 then
      VersionCompare u templateVer targetVer
    else
      let verPartsTpl := (partsTpl.getD 0 []).drop 1
      let verPartsTgt := (partsTgt.getD 0 []).drop 1
      match Atoi (verPartsTpl.getD 0 []) with
      | none => VersionCompare u templateVer targetVer
      | some majorTpl =>
        match Atoi (verPartsTgt.getD 0 []) with
        | none => VersionCompare u templateVer targetVer
        | some majorTgt =>
          let verTpl := verPartsTpl.getD 0 [] ++ ['.'] ++ verPartsTpl.getD 1 [] ++
            ['.'] ++ verPartsTpl.getD 2 []
          let verTgt := verPartsTgt.getD 0 [] ++ ['.'] ++ verPartsTgt.getD 1 [] ++
            ['.'] ++ verPartsTgt.getD 2 []
          let verTpl := if verTpl.length = 12 ∧ majorTpl ≥ 15 ∧ majorTpl < 100
            then "20".toList ++ verTpl else verTpl
          let verTgt := if verTgt.length = 12 ∧ majorTgt ≥ 15 ∧ majorTgt < 100
            then "20".toList ++ verTgt else verTgt
          if (verTpl.length = 14 ∨ verTgt.length = 14) ∧ verTpl.length ≠ verTgt.length then 2
          else VersionCompare u verTpl verTgt

/-! ## Juniper Junos -/

/-- The components of a Junos version (`junosVersion`); `Type_` is the field `Type`. -/
structure junosVersion where
  Major : Str := []
  Minor : Str := []
  Type_ : Str := []
  Build : Str := []
  MaintenanceRelease : Str := []
  Spin : Str := []
deriving DecidableEq

/-- The pattern `reJunosVersion`:
`([\d]+)\.([\d+])([a-zA-Z]+)([\d]+)\-?([a-zA-Z][\d]+)?\.?([\d+])?`. -/
def reJunosVersion : Re :=
  Re.cat [
    .cap 1 (Re.plus isDigit),
    .cls (lit '.'),
    .cap 2 (.cls isDigitOrPlus),
    .cap 3 (Re.plus isAlpha),
    .cap 4 (Re.plus isDigit),
    .opt (.cls (lit '-')),
    .opt (.cap 5 (.seq (.cls isAlpha) (Re.plus isDigit))),
    .opt (.cls (lit '.')),
    .opt (.cap 6 (.cls isDigitOrPlus))]

/-- Go's `ParseJunosVersion(raw)`: the version and the flag `found`. -/
def ParseJunosVersion (u : CaseTable) (raw : Str) : junosVersion × Bool :=
  let raw := ToUpper u raw
  let parts := FindAllStringSubmatch reJunosVersion 6 raw
  if parts.length ≠ 1 ∨ (parts.getD 0 []).length ≠ 7 then ({}, false)
  else
    ({ Major := sub parts 0 1, Minor := sub parts 0 2, Type_ := sub parts 0 3,
       Build := sub parts 0 4, MaintenanceRelease := sub parts 0 5, Spin := sub parts 0 6 },
     true)

/-- The integer value of a part given as bytes: 0 for an empty part, `none` when
`strconv.Atoi` fails. -/
def partValBytes (part : Bytes) : Option Int :=
  if part.length > 0 then AtoiBytes part else some 0

/-- One round of the loop of `junosVersion.Compare`; `nParts` is `len(vParts)`, which the
source tests in place of `len(vPart)`. `some r`: the loop returns `r`; `none`: next index. -/
def junosStep (nParts : Nat) (vPart anotherPart : Bytes) : Option Int :=
  if nParts = 0 ∧ anotherPart.length = 0 then none
  else
    match partValBytes vPart, partValBytes anotherPart with
    | some vVal, some anotherVal =>
      if vVal > anotherVal then some 1
      else if vVal < anotherVal then some (-1)
      else none
    | _, _ =>
      if bytesLt anotherPart vPart then some 1
      else if bytesLt vPart anotherPart then some (-1)
      else none

/-- The loop `for i := range vParts` of `junosVersion.Compare`. -/
def junosLoop (nParts : Nat) : List Bytes → List Bytes → Int
  | vPart :: vs, anotherPart :: as =>
    match junosStep nParts vPart anotherPart with
    | some r => r
    | none => junosLoop nParts vs as
  | _, _ => 0

/-- The split of a maintenance release into `string(m[0])` and `m[1:]`. The index and the
slice count bytes, and `string` of a byte is the code point of that value, so the parts of
the loop are kept as bytes. -/
def splitPatch (m : Str) : Bytes × Bytes :=
  match utf8 m with
  | [] => ([], [])
  | b :: rest => (String.utf8EncodeChar (Char.ofNat b.toNat), rest)

/-- Go's `(v junosVersion) Compare(another)`. -/
def junosVersion.Compare (v another : junosVersion) : Int :=
  if v.Major ≠ another.Major ∨ v.Minor ≠ another.Minor ∨ v.Type_ ≠ another.Type_ ∨
      v.Build ≠ another.Build then 2
  else
    let vPatch := splitPatch v.MaintenanceRelease
    let anotherPatch := splitPatch another.MaintenanceRelease
    let vParts := [utf8 v.Major, utf8 v.Minor, utf8 v.Type_, utf8 v.Build, vPatch.1, vPatch.2,
      utf8 v.Spin]
    let anotherParts := [utf8 another.Major, utf8 another.Minor, utf8 another.Type_,
      utf8 another.Build, anotherPatch.1, anotherPatch.2, utf8 another.Spin]
    junosLoop vParts.length vParts anotherParts

/-- Go's `VersionCompareJuniperJunos(templateVer, targetVer, templatePatch, targetPatch)`. -/
def VersionCompareJuniperJunos (u : CaseTable)
    (templateVer targetVer templatePatch targetPatch : Str) : Int :=
  let templateVer := ToUpper u templateVer
  let templatePatch := ToUpper u templatePatch
  let targetVer := ToUpper u targetVer
  let targetPatch := ToUpper u targetPatch
  let tpl := ParseJunosVersion u templateVer
  let tgt := ParseJunosVersion u targetVer
  let tplVer : junosVersion :=
    if tpl.1.MaintenanceRelease.length = 0 then
      { tpl.1 with MaintenanceRelease := templatePatch } else tpl.1
  let tgtVer : junosVersion :=
    if tgt.1.MaintenanceRelease.length = 0 then
      { tgt.1 with MaintenanceRelease := targetPatch } else tgt.1
  let compatible := tpl.2 && tgt.2
  if ¬ compatible then 2
  else tgtVer.Compare tplVer

/-! ## Dispatch on the vendor -/

/-- Go's `VersionCompareProduct(vendor, product, templateVer, targetVer, templatePatch,
targetPatch)`. -/
def VersionCompareProduct (u : CaseTable)
    (vendor product templateVer targetVer templatePatch targetPatch : Str) : Int :=
  if vendor = "cisco".toList then VersionCompareCisco u product templateVer targetVer
  else if vendor = "adobe".toList then VersionCompareAdobe u product templateVer targetVer
  else if vendor = "juniper".toList then
    VersionCompareJuniperJunos u templateVer targetVer templatePatch targetPatch
  else
    let cmpVal := VersionCompare u templateVer targetVer
    if cmpVal = 0 then PatchCompare u templatePatch targetPatch
    else cmpVal

/-! ## CPE parsing (`utils.go`) -/

/-- The fields of a parsed CPE (`CPEParts`). -/
structure CPEParts where
  CPEVersion : Int := 0
  Systype : Bytes := []
  Vendor : Bytes := []
  Product : Bytes := []
  Version : Bytes := []
  Patch : Bytes := []
  Edition : Bytes := []
  Language : Bytes := []
  SWEdition : Bytes := []
  TargetSW : Bytes := []
  TargetHW : Bytes := []
  Other : Bytes := []
deriving DecidableEq

/-- The loop of `tokenizeString` over the runes still to read, with the tokens finished so
far, the runes of the current token and the flag `inEscape`; at the end of the input the
last token is appended and the flag tells the error. -/
def tokenizeLoop (sep escape : Char) : List Str → Str → Bool → Str → List Str × Bool
  | tokens, runes, inEscape, [] => (tokens ++ [runes], inEscape)
  | tokens, runes, inEscape, r :: rest =>
    if inEscape then tokenizeLoop sep escape tokens (runes ++ [r]) false rest
    else if r = escape then tokenizeLoop sep escape tokens runes true rest
    else if r = sep then tokenizeLoop sep escape (tokens ++ [runes]) [] false rest
    else tokenizeLoop sep escape tokens (runes ++ [r]) false rest

/-- Go's `tokenizeString(s, sep, escape)`: the tokens, and whether the error
"invalid terminal escape" is returned with them. -/
def tokenizeString (s : Str) (sep escape : Char) : List Str × Bool :=
  tokenizeLoop sep escape [] [] false s

/-- Go's `strings.Replace(s, old, new, -1)` on bytes, for a non-empty `old`: the
non-overlapping occurrences of `old`, found from the left, are replaced. `skip` counts the
bytes of an occurrence still to pass over. -/
def replaceAux (old new : Bytes) : Nat → Bytes → Bytes
  | _, [] => []
  | skip + 1, _ :: xs => replaceAux old new skip xs
  | 0, x :: xs =>
    if old.isPrefixOf (x :: xs) then new ++ replaceAux old new (old.length - 1) xs
    else x :: replaceAux old new 0 xs

/-- Go's `strings.Replace(s, old, new, -1)` for a non-empty `old`. -/
def Replace (s old new : Bytes) : Bytes := replaceAux old new 0 s

/-- Go's `ishex` of `net/url`. -/
def ishex (c : UInt8) : Bool :=
  (48 ≤ c && c ≤ 57) || (97 ≤ c && c ≤ 102) || (65 ≤ c && c ≤ 70)

/-- Go's `unhex` of `net/url`. -/
def unhex (c : UInt8) : UInt8 :=
  if 48 ≤ c ∧ c ≤ 57 then c - 48
  else if 97 ≤ c ∧ c ≤ 102 then c - 97 + 10
  else if 65 ≤ c ∧ c ≤ 70 then c - 65 + 10
  else 0

/-- First pass of `unescape` of `net/url`: every `%` is followed by two hex digits. -/
def escapesOk : Bytes → Bool
  | [] => true
  | b :: rest =>
    if b = 37 then
      match rest with
      | h1 :: h2 :: rest2 => ishex h1 && ishex h2 && escapesOk rest2
      | _ => false
    else escapesOk rest

/-- Second pass of `unescape` of `net/url` in the mode of `PathUnescape`: every `%hh`
becomes the byte `hh`, every other byte is kept. -/
def unescapeBytes : Bytes → Bytes
  | [] => []
  | b :: rest =>
    if b = 37 then
      match rest with
      | h1 :: h2 :: rest2 => (unhex h1 <<< 4 ||| unhex h2) :: unescapeBytes rest2
      | _ => []
    else b :: unescapeBytes rest

/-- Go's `url.PathUnescape(s)`; `none` stands for a returned error (with the empty
string). -/
def PathUnescape (s : Bytes) : Option Bytes :=
  if escapesOk s then some (unescapeBytes s) else none

/-- Go's `cpeDecode(cpe)`. -/
def cpeDecode (cpe : Bytes) : Bytes :=
  if cpe.length = 0 then []
  else
    let cpe := Replace cpe (utf8 "%5c%28".toList) (utf8 "%28".toList)
    let cpe := Replace cpe (utf8 "%5c%29".toList) (utf8 "%29".toList)
    let cpe := Replace cpe (utf8 "\\(".toList) (utf8 "(".toList)
    let cpe := Replace cpe (utf8 "\\)".toList) (utf8 ")".toList)
    match PathUnescape cpe with
    | some s => s
    | none => []

/-- Token `i` of a tokenized CPE, as bytes. -/
def part (parts : List Str) (i : Nat) : Bytes := utf8 (parts.getD i [])

/-- Go's `parseCPE23(cpe23str)`. -/
def parseCPE23 (cpe23str : Str) : Except String CPEParts :=
  let (parts, err) := tokenizeString cpe23str ':' '\\'
  if err then .error "invalid terminal escape"
  else if parts.length ≠ 13 then .error "invalid cpe23"
  else if parts.getD 0 [] ≠ "cpe".toList ∧ parts.getD 1 [] ≠ "2.3".toList then
    .error "invalid cpe23"
  else
    .ok { CPEVersion := 23, Systype := part parts 2,
          Vendor := cpeDecode (part parts 3), Product := cpeDecode (part parts 4),
          Version := cpeDecode (part parts 5), Patch := cpeDecode (part parts 6),
          Edition := cpeDecode (part parts 7), Language := cpeDecode (part parts 8),
          SWEdition := cpeDecode (part parts 9), TargetSW := cpeDecode (part parts 10),
          TargetHW := cpeDecode (part parts 11), Other := cpeDecode (part parts 12) }

/-- Go's `ParseCPE(cpe)`. -/
def ParseCPE (cpe : Str) : Except String CPEParts :=
  let (parts, err) := tokenizeString cpe ':' '\\'
  if err then .error "invalid terminal escape"
  else if parts.length < 4 then .error "invalid length"
  else if parts.getD 1 [] = "2.3".toList then parseCPE23 cpe
  else
    let systype : Option Bytes :=
      if parts.getD 1 [] = "/a".toList then some (utf8 "a".toList)
      else if parts.getD 1 [] = "/o".toList then some (utf8 "o".toList)
      else if parts.getD 1 [] = "/h".toList then some (utf8 "h".toList)
      else none
    match systype with
    | none => .error "invalid type"
    | some st =>
      .ok { CPEVersion := 22, Systype := st,
            Vendor := cpeDecode (part parts 2), Product := cpeDecode (part parts 3),
            Version := if parts.length > 4 then cpeDecode (part parts 4) else [],
            Patch := if parts.length > 5 then cpeDecode (part parts 5) else [],
            Edition := if parts.length > 6 then cpeDecode (part parts 6) else [],
            Language := if parts.length > 7 then cpeDecode (part parts 7) else [] }

/-! ## Target software (`match.go`) -/

/-- Go's `normalizeSWTarget(swTarget)`. -/
def normalizeSWTarget (u : CaseTable) (swTarget : Str) : Str :=
  let swTarget := ToLower u swTarget
  if swTarget = "mac".toList ∨ swTarget = "mac_os".toList ∨ swTarget = "mac_os_x".toList then
    "mac_os_x".toList
  else if swTarget = "ios".toList ∨ swTarget = "ipad".toList ∨ swTarget = "iphone_os".toList ∨
      swTarget = "ipod_touch".toList then
    "ios".toList
  else swTarget

/-- Go's `matchSWTarget(tplTarget, target)`; `len` counts the bytes of the string. -/
def matchSWTarget (u : CaseTable) (tplTarget target : Str) : Bool :=
  if (utf8 tplTarget).length < 2 then true
  else
    let tplTarget := normalizeSWTarget u tplTarget
    let target := normalizeSWTarget u target
    decide (ToLower u tplTarget = ToLower u target)

/-! ## Tables (`schema.go`) -/

/-- A row of `vulndb_vendors` (`VulndbVendor`). -/
structure VulndbVendor where
  ID : Int := 0
  Name : Str := []
deriving DecidableEq

/-- A row of `vulndb_vendor_aliases` (`VulndbVendorAlias`). -/
structure VulndbVendorAlias where
  VendorID : Int := 0
  Alias : Str := []
deriving DecidableEq

/-- A row of `vulndb_products` (`vulndbProduct`). -/
structure vulndbProduct where
  ID : Int := 0
  ProductName : Str := []
  VendorID : Int := 0
deriving DecidableEq

/-- A row of `vulndb_product_items` (`vulndbProductItem`); a `*string` column is an optional
string, `none` for `nil`. -/
structure vulndbProductItem where
  ID : Int := 0
  ProductID : Int := 0
  Systype : Str := []
  Version : Option Str := none
  VersionStartExcluding : Option Str := none
  VersionStartIncluding : Option Str := none
  VersionEndExcluding : Option Str := none
  VersionEndIncluding : Option Str := none
  Patch : Str := []
  SWTarget : Option Str := none
deriving DecidableEq

/-- A row of `vulndb_product_aliases` (`vulndbProductAlias`). -/
structure vulndbProductAlias where
  ProductID : Int := 0
  VendorAlias : Str := []
  ProductAlias : Str := []
deriving DecidableEq

/-- A row of `vulndb_ignore_list` (`vulndbIgnoreListItem`). -/
structure vulndbIgnoreListItem where
  VendorName : Str := []
  ProductNameGlob : Str := []
deriving DecidableEq

/-- A row of `vulndb_vulnerabilities` (`vulndbVulnerability`). -/
structure vulndbVulnerability where
  AdvisoryID : Int := 0
  ProductItemID : Int := 0
deriving DecidableEq

/-- A row of `nvd_cve_advisories` (`NVDCVEAdvisory`), with the columns `MatchCVEs` reads: the
key, the CVE identifier and the CVSS3 base score (`none` for `nil`; a stored score is a
finite number). The other columns are carried along unread and are left out. -/
structure NVDCVEAdvisory where
  Id : Int := 0
  CVEID : Str := []
  CVSS3BaseScore : Option Rat := none
deriving DecidableEq

/-! ## The version decision of `MatchCVEs` (`match.go`) -/

/-- The range branch of the version decision of `MatchCVEs` (lines 239 to 272 of `match.go`):
the value `(!hasStartRange || startRangeMatch) && hasEndRange && endRangeMatch`. -/
def rangeMatches (u : CaseTable) (vendorName productName : Str) (item : vulndbProductItem)
    (version patch : Str) : Bool :=
  let cmp := fun (bound : Str) =>
    VersionCompareProduct u vendorName productName bound version item.Patch patch
  let start : Bool × Bool :=
    match item.VersionStartIncluding with
    | some b => (true, !(decide (cmp b = -1) || decide (cmp b = 2)))
    | none =>
      match item.VersionStartExcluding with
      | some b => (true, !(decide (cmp b = 0) || decide (cmp b = -1) || decide (cmp b = 2)))
      | none => (false, true)
  let stop : Bool × Bool :=
    match item.VersionEndIncluding with
    | some b => (true, !(decide (cmp b = 1) || decide (cmp b = 2)))
    | none =>
      match item.VersionEndExcluding with
      | some b => (true, !(decide (cmp b = 0) || decide (cmp b = 1) || decide (cmp b = 2)))
      | none => (false, true)
  (!start.1 || start.2) && stop.1 && stop.2

/-- The version decision of `MatchCVEs` for one product item (the value of `matches` after
lines 233 to 273 of `match.go`), for the vendor and product names of the item and the
version and patch of the installation. -/
def itemMatches (u : CaseTable) (vendorName productName : Str) (item : vulndbProductItem)
    (version patch : Str) : Bool :=
  match item.Version with
  | some v =>
    if v.length > 0 ∧ v ≠ "*".toList then
      decide (VersionCompareProduct u vendorName productName v version item.Patch patch = 0)
    else rangeMatches u vendorName productName item version patch
  | none => rangeMatches u vendorName productName item version patch

/-! ## Sessions (`session.go`) and the database -/

/-- A result of `MatchCVEs` (`CVEMatch`). -/
structure CVEMatch where
  Advisory : NVDCVEAdvisory := {}
  TargetedSW : Bool := false
deriving DecidableEq

/-- The part of a `VulnDBSession` that `MatchCVEs` reads and writes: the cached results and
the products and vendors cached by id. A Go map is the function of its entries, undefined elsewhere. -/
structure VulnDBSession where
  cached : Str → Option (List CVEMatch)
  productCache : Int → Option vulndbProduct
  vendorCache : Int → Option VulndbVendor

/-- Go's `NewSessionWrapper(orm)`: the three maps are empty. -/
def NewSessionWrapper : VulnDBSession :=
  { cached := fun _ => none, productCache := fun _ => none, vendorCache := fun _ => none }

/-- The database as `match.go` and `session.go` see it: the answer to each of their queries,
rows or an error. Nothing is assumed of the answers. -/
structure Database where
  /-- Query `vendor_alias = ? AND ? GLOB product_alias` on the product aliases (`Get`). -/
  productAlias : Str → Str → Except String (Option vulndbProductAlias)
  /-- Query `name = ?` on the vendors (`Get`). -/
  vendorByName : Str → Except String (Option VulndbVendor)
  /-- Query `alias = ?` on the vendor aliases (`Get`). -/
  vendorAlias : Str → Except String (Option VulndbVendorAlias)
  /-- Query `id = ?` on the vendors (`Get`). -/
  vendorById : Int → Except String (Option VulndbVendor)
  /-- Query `id = ?` on the products (`Get`). -/
  productById : Int → Except String (Option vulndbProduct)
  /-- Query `vendor_id = ? AND product_name IN (...)` on the products (`Find`). -/
  products : Int → List Str → Except String (List vulndbProduct)
  /-- Query `product_id IN (...) AND LOWER(systype) = LOWER(?)` on the product items
  (`Find`). -/
  productItems : List Int → Str → Except String (List vulndbProductItem)
  /-- Query `vendor_name = ? AND ? GLOB product_name_glob` on the ignore list (`Find`). -/
  ignoreList : Str → Str → Except String (List vulndbIgnoreListItem)
  /-- Query `product_item_id IN (...)` on the vulnerabilities (`Find`). -/
  vulnerabilities : List Int → Except String (List vulndbVulnerability)
  /-- Query `id IN (...)` on the advisories, ordered by `cvss3_base_score DESC` (`Find`). -/
  advisories : List Int → Except String (List NVDCVEAdvisory)

/-- Go's `(sw *VulnDBSession) GetProductById(productId)`, with the session after the call. -/
def VulnDBSession.GetProductById (db : Database) (sw : VulnDBSession) (productId : Int) :
    Except String (Option vulndbProduct) × VulnDBSession :=
  match sw.productCache productId with
  | some product => (.ok (some product), sw)
  | none =>
    match db.productById productId with
    | .error e => (.error e, sw)
    | .ok none => (.ok none, sw)
    | .ok (some p) =>
      (.ok (some p),
        { sw with productCache := fun i => if i = productId then some p else sw.productCache i })

/-- Go's `(sw *VulnDBSession) GetVendorById(vendorId)`, with the session after the call. -/
def VulnDBSession.GetVendorById (db : Database) (sw : VulnDBSession) (vendorId : Int) :
    Except String (Option VulndbVendor) × VulnDBSession :=
  match sw.vendorCache vendorId with
  | some vendor => (.ok (some vendor), sw)
  | none =>
    match db.vendorById vendorId with
    | .error e => (.error e, sw)
    | .ok none => (.ok none, sw)
    | .ok (some v) =>
      (.ok (some v),
        { sw with vendorCache := fun i => if i = vendorId then some v else sw.vendorCache i })

/-! ## Matching products to advisories (`match.go`) -/

/-- The functions of `match.go` that prepare names (`prepVendorName`, `prepProductName`,
`alternativeNames`). Their results are only parameters of queries, and the matching is
defined for any such functions. -/
structure NameRules where
  prepVendorName : Str → Str
  prepProductName : Str → Str → Str
  alternativeNames : Str → List Str

/-- Go's `sort.SliceStable` on advisories. Of the library function only this is recorded: it
rearranges the elements of the slice. -/
structure StableSort where
  SliceStable : (NVDCVEAdvisory → NVDCVEAdvisory → Bool) → List NVDCVEAdvisory →
    List NVDCVEAdvisory
  perm : ∀ less l, (SliceStable less l).Perm l

/-- The result of `MatchVendor` (`VendorMatchResult`). -/
structure VendorMatchResult where
  Vendor : VulndbVendor := {}
  FromAlias : Bool := false
  VendorAlias : Str := []
  CPEFriendlyMatch : Bool := false
  CPEFriendlyName : Str := []
deriving DecidableEq

/-- Go's `MatchVendor(session, vendorName)`; `.ok none` is the result `nil, nil`. In step 4 the
vendor stays the zero value when the row of the alias is not found. -/
def MatchVendor (names : NameRules) (db : Database) (vendorName : Str) :
    Except String (Option VendorMatchResult) :=
  match db.vendorByName vendorName with
  | .error e => .error e
  | .ok (some vendor) => .ok (some { Vendor := vendor })
  | .ok none =>
    match db.vendorAlias vendorName with
    | .error e => .error e
    | .ok (some vendorAlias) =>
      match db.vendorById vendorAlias.VendorID with
      | .error e => .error e
      | .ok found =>
        .ok (some { Vendor := found.getD {}, FromAlias := true,
                    VendorAlias := vendorAlias.Alias })
    | .ok none =>
      let cpeFriendly := names.prepVendorName vendorName
      match db.vendorByName cpeFriendly with
      | .error e => .error e
      | .ok (some vendor) =>
        .ok (some { Vendor := vendor, CPEFriendlyMatch := true, CPEFriendlyName := cpeFriendly })
      | .ok none => .ok none

/-- Go's `GetVendor(session, vendorName)`. -/
def GetVendor (names : NameRules) (db : Database) (vendorName : Str) :
    Except String (Option VulndbVendor) :=
  match MatchVendor names db vendorName with
  | .error e => .error e
  | .ok none => .ok none
  | .ok (some m) => .ok (some m.Vendor)

/-- Number of hits per CVE match for a product (`maxNumHits`). -/
def maxNumHits : Nat := 5

/-- Steps 1 to 3 of `MatchCVEs` (lines 127 to 170 of `match.go`): the value of `productIDs`.
When no vendor is found (step 2b) the function returns `nil` at once; here the list is empty,
which makes step 3b return `nil`. -/
def lookupProductIDs (names : NameRules) (db : Database) (publisher title : Str) :
    Except String (List Int) :=
  match db.productAlias publisher title with
  | .error e => .error e
  | .ok prodalias =>
    let productIDs : List Int :=
      match prodalias with
      | some a => [a.ProductID]
      | none => []
    if productIDs.length < 1 then
      match GetVendor names db publisher with
      | .error e => .error e
      | .ok none => .ok []
      | .ok (some vendor) =>
        let cpeFriendly := names.prepProductName title vendor.Name
        let candidates := [title] ++ names.alternativeNames cpeFriendly
        match db.products vendor.ID candidates with
        | .error e => .error e
        | .ok products => .ok (productIDs ++ products.map (fun product => product.ID))
    else .ok productIDs

/-- The loop `for _, item := range productItems` of `MatchCVEs` (lines 193 to 281 of
`match.go`), with the values of `productItemIDs` and of the keys of `specificMatches` so far:
the two values at the end of the loop, or the error returned from inside it, and the session
after it. -/
def filterItems (u : CaseTable) (db : Database) (version patch target_sw : Str) :
    List vulndbProductItem → VulnDBSession → List Int → List Int →
      Except String (List Int × List Int) × VulnDBSession
  | [], sw, productItemIDs, specificMatches => (.ok (productItemIDs, specificMatches), sw)
  | item :: rest, sw, productItemIDs, specificMatches =>
    let specific : Option Bool :=
      match item.SWTarget with
      | some t =>
        if t.length > 0 then
          (if matchSWTarget u t target_sw then some true else none)
        else some false
      | none => some false
    match specific with
    | none => filterItems u db version patch target_sw rest sw productItemIDs specificMatches
    | some specific =>
      match sw.GetProductById db item.ProductID with
      | (.error e, sw) => (.error e, sw)
      | (.ok none, sw) =>
        filterItems u db version patch target_sw rest sw productItemIDs specificMatches
      | (.ok (some product), sw) =>
        match sw.GetVendorById db product.VendorID with
        | (.error e, sw) => (.error e, sw)
        | (.ok none, sw) =>
          filterItems u db version patch target_sw rest sw productItemIDs specificMatches
        | (.ok (some vendor), sw) =>
          match db.ignoreList vendor.Name product.ProductName with
          | .error e => (.error e, sw)
          | .ok ignoreItem =>
            if ignoreItem.length > 0 then
              filterItems u db version patch target_sw rest sw productItemIDs specificMatches
            else if itemMatches u vendor.Name product.ProductName item version patch then
              filterItems u db version patch target_sw rest sw (productItemIDs ++ [item.ID])
                (if specific then specificMatches ++ [item.ID] else specificMatches)
            else
              filterItems u db version patch target_sw rest sw productItemIDs specificMatches

/-- The bounds `(start, end)` of the successive chunks of at most `chunkSize` elements of a
slice of `n` elements, from `start` on; `fuel` bounds the number of chunks. -/
def chunkBounds (chunkSize n : Nat) : Nat → Nat → List (Nat × Nat)
  | 0, _ => []
  | fuel + 1, start =>
    if start < n then
      (start, min (start + chunkSize) n) ::
        chunkBounds chunkSize n fuel (min (start + chunkSize) n)
    else []

/-- Modelled from the spec: `common.ProcessChunks(slice, chunkSize, fn)` calls `fn(start, end)`
on the successive chunks of at most `chunkSize` elements of a slice of `n` elements, in
order, and stops at the first error, which it returns. The function `fn` acts on a state. -/
def ProcessChunks {σ : Type} (n chunkSize : Nat) (fn : Nat → Nat → σ → Except String σ)
    (init : σ) : Except String σ :=
  (chunkBounds chunkSize n n 0).foldl
    (fun acc bounds =>
      match acc with
      | .error e => .error e
      | .ok st => fn bounds.1 bounds.2 st)
    (.ok init)

/-- The function given to `ProcessChunks` in `MatchCVEs` (lines 310 to 329 of `match.go`): the
advisories of a chunk of identifiers, at most `maxNumHits` of them, are appended to
`advisories`. -/
def fetchChunk (db : Database) (advisoryIDs : List Int) (start stop : Nat)
    (advisories : List NVDCVEAdvisory) : Except String (List NVDCVEAdvisory) :=
  let advisoryIDs := (advisoryIDs.drop start).take (stop - start)
  match db.advisories advisoryIDs with
  | .error e => .error e
  | .ok advisoriesChunk =>
    let advisoriesChunk :=
      if advisoriesChunk.length > maxNumHits then advisoriesChunk.take maxNumHits
      else advisoriesChunk
    .ok (advisories ++ advisoriesChunk)

/-- The function `less` given to `sort.SliceStable` in `MatchCVEs`: the score of the first
advisory, 0.0 when it has none, is at least that of the second. -/
def lessScore (a b : NVDCVEAdvisory) : Bool :=
  let cvss3i : Rat := match a.CVSS3BaseScore with
    | some x => x
    | none => 0
  let cvss3j : Rat := match b.CVSS3BaseScore with
    | some x => x
    | none => 0
  decide (cvss3i ≥ cvss3j)

/-- One round of the insertion sort of Go's package `sort`: the element `x` moves down the
sorted part, given last element first, past the elements it is `less` than. -/
def insertionStep {α : Type} (less : α → α → Bool) (x : α) : List α → List α
  | [] => [x]
  | y :: ys => if less x y then y :: insertionStep less x ys else x :: y :: ys

/-- Go's `sort.Slice(x, less)` on a slice of at most 6 elements, which the library sorts by
insertion alone: each element in turn is moved down into the part before it. `MatchCVEs`
sorts at most `maxNumHits` elements with it. -/
def sortSlice {α : Type} (less : α → α → Bool) (l : List α) : List α :=
  (l.foldl (fun sortedRev x => insertionStep less x sortedRev) []).reverse

/-- Go's `MatchCVEs(session, systype, publisher, title, version, patch, target_sw)`: the
result, `.ok []` for `nil`, and the session after the call. -/
def MatchCVEs (u : CaseTable) (names : NameRules) (sorts : StableSort) (db : Database)
    (session : VulnDBSession) (systype publisher title version patch target_sw : Str) :
    Except String (List CVEMatch) × VulnDBSession :=
  let cacheKey := systype ++ publisher ++ title ++ version ++ patch ++ target_sw
  match session.cached cacheKey with
  | some cachedResult => (.ok cachedResult, session)
  | none =>
    match lookupProductIDs names db publisher title with
    | .error e => (.error e, session)
    | .ok productIDs =>
      if productIDs.length < 1 then (.ok [], session)
      else
        match db.productItems productIDs systype with
        | .error e => (.error e, session)
        | .ok productItems =>
          match filterItems u db version patch target_sw productItems session [] [] with
          | (.error e, session) => (.error e, session)
          | (.ok (productItemIDs, specificMatches), session) =>
            if productItemIDs.length = 0 then (.ok [], session)
            else
              match db.vulnerabilities productItemIDs with
              | .error e => (.error e, session)
              | .ok vulns =>
                if vulns.length = 0 then (.ok [], session)
                else
                  let advisoryIDs := vulns.map (fun vuln => vuln.AdvisoryID)
                  let specificCVEMatches :=
                    (vulns.filter (fun vuln => decide (vuln.ProductItemID ∈ specificMatches))).map
                      (fun vuln => vuln.AdvisoryID)
                  match ProcessChunks advisoryIDs.length 900 (fetchChunk db advisoryIDs) [] with
                  | .error e => (.error e, session)
                  | .ok advisories =>
                    let advisories :=
                      if advisories.length > maxNumHits then
                        (sorts.SliceStable lessScore advisories).take maxNumHits
                      else advisories
                    let advisories :=
                      sortSlice (fun a b => strLt a.CVEID b.CVEID) advisories
                    let result : List CVEMatch := advisories.map (fun advisory =>
                      { Advisory := advisory,
                        TargetedSW := decide (advisory.Id ∈ specificCVEMatches) })
                    (.ok result,
                      { session with
                        cached := fun k => if k = cacheKey then some result else session.cached k })

/-! ## Product items of the NVD entries (`nvdcve.go`, `createdb.go`) -/

/-- An entry of the CVE directory (`cveDirEntry`): a vulnerable CPE of an advisory. -/
structure cveDirEntry where
  CVEID : Str := []
  Version : Option Str := none
  VersionStartExcluding : Option Str := none
  VersionStartIncluding : Option Str := none
  VersionEndExcluding : Option Str := none
  VersionEndIncluding : Option Str := none
  Update : Str := []
  Arch : Str := []
  SWTarget : Str := []
  RawCPE23 : Str := []
deriving DecidableEq

/-- The condition of the query for a stored product item in `processNVDCVE` (lines 273 to 298
of `createdb.go`) on a row of `vulndb_product_items`: `product_id = ? AND systype = ?`, and
one more equality for each field the entry has. An equality of SQL fails on a column that is
`NULL`. -/
def productItemQuery (prodID : Int) (systype : Str) (entry : cveDirEntry)
    (item : vulndbProductItem) : Bool :=
  decide (item.ProductID = prodID) && decide (item.Systype = systype) &&
  (match entry.Version with
    | some v => if v ≠ "*".toList then decide (item.Version = some v) else true
    | none => true) &&
  (match entry.VersionStartExcluding with
    | some b => decide (item.VersionStartExcluding = some b)
    | none => true) &&
  (match entry.VersionStartIncluding with
    | some b => decide (item.VersionStartIncluding = some b)
    | none => true) &&
  (match entry.VersionEndExcluding with
    | some b => decide (item.VersionEndExcluding = some b)
    | none => true) &&
  (match entry.VersionEndIncluding with
    | some b => decide (item.VersionEndIncluding = some b)
    | none => true) &&
  (if entry.Update.length > 0 ∧ entry.Update ≠ "*".toList then
    decide (item.Patch = entry.Update) else true)

/-- The key the database gives an inserted product item: one more than the largest key of
the table. -/
def nextProductItemID (items : List vulndbProductItem) : Int :=
  items.foldl (fun m item => max m item.ID) 0 + 1

/-- The answers of the database to the queries for one row (`Where(...).Get`, a query with
`LIMIT 1` and no `ORDER BY`) on a table given as the list of its rows: a row of the table
that satisfies the condition, and none only when no row satisfies it. Which row is answered
when several satisfy the condition is left to the database. -/
structure RowChoice (α : Type) where
  get : (α → Bool) → List α → Option α
  get_some : ∀ cond rows r, get cond rows = some r → r ∈ rows ∧ cond r = true
  get_none : ∀ cond rows, get cond rows = none → ∀ r ∈ rows, cond r = false

/-- The step "get or create product item" of `processNVDCVE` (lines 272 to 325 of
`createdb.go`) for an entry of the product `prodID` under `systype`, the storage working:
the product item to which the vulnerability of the entry is then attached, and the table
after the step. The table is the list of its rows; the row the query answers is chosen by
`db`, and the place of an inserted row in the list has no meaning. -/
def getOrCreateProductItem (db : RowChoice vulndbProductItem) (items : List vulndbProductItem)
    (prodID : Int) (systype : Str) (entry : cveDirEntry) :
    vulndbProductItem × List vulndbProductItem :=
  match db.get (productItemQuery prodID systype entry) items with
  | some prodItem => (prodItem, items)
  | none =>
    let prodItem : vulndbProductItem :=
      { ID := nextProductItemID items,
        ProductID := prodID,
        Systype := systype,
        Version :=
          match entry.Version with
          | some v => if v ≠ "*".toList then some v else none
          | none => none,
        VersionStartExcluding := entry.VersionStartExcluding,
        VersionStartIncluding := entry.VersionStartIncluding,
        VersionEndExcluding := entry.VersionEndExcluding,
        VersionEndIncluding := entry.VersionEndIncluding,
        Patch :=
          if entry.Update.length > 0 ∧ entry.Update ≠ "*".toList then entry.Update else [],
        SWTarget :=
          if entry.SWTarget.length > 0 ∧ entry.SWTarget ≠ "*".toList then some entry.SWTarget
          else none }
    (prodItem, items ++ [prodItem])

/-! ## Names of vendors and products (`match.go`) -/

/-- The class `\s` of Go's `regexp`: `[\t\n\f\r ]`. -/
def isReSpace (c : Char) : Bool :=
  let n := c.toNat
  n == 9 || n == 10 || n == 12 || n == 13 || n == 32

/-- The loop of `ReplaceAllString`. `skip` counts the characters still inside the previous
match, which are left out; `atPrevEnd` tells that the position is the end of the previous
match, where an empty match is not replaced. -/
def replaceAllAux (r : Re) (n : Nat) (repl : Str) : Bool → Nat → Str → Str
  | _, _ + 1, [] => []
  | _, skip + 1, _ :: xs => replaceAllAux r n repl (decide (skip = 0)) skip xs
  | atPrevEnd, 0, s =>
    match r.matchAt n s with
    | none =>
      match s with
      | [] => []
      | x :: xs => x :: replaceAllAux r n repl false 0 xs
    | some (_, rest) =>
      let len := s.length - rest.length
      if len = 0 then
        (if atPrevEnd then [] else repl) ++
          (match s with
           | [] => []
           | x :: xs => x :: replaceAllAux r n repl false 0 xs)
      else
        repl ++ (match s with
          | [] => []
          | _ :: xs => replaceAllAux r n repl (decide (len = 1)) (len - 1) xs)

/-- Go's `re.ReplaceAllString(src, repl)` for a pattern with `n` capture groups and a
replacement text without `$`: the successive non-overlapping matches are replaced by
`repl`. -/
def ReplaceAllString (r : Re) (n : Nat) (src repl : Str) : Str :=
  replaceAllAux r n repl false 0 src

/-- Go's `re.MatchString(s)` for a pattern `^r$`: the whole of `s` matches `r`. -/
def MatchWhole (r : Re) (s : Str) : Bool :=
  (r.exec (fun s1 _ => if s1.isEmpty then some () else none) s []).isSome

/-- The loop of `strings.Replace`: `budget` is the number of replacements still allowed
(`none` when unlimited), `skip` counts the characters of an occurrence still to pass over. -/
def replaceStrAux (old new : Str) : Option Nat → Nat → Str → Str
  | _, _, [] => []
  | budget, skip + 1, _ :: xs => replaceStrAux old new budget skip xs
  | budget, 0, x :: xs =>
    if budget ≠ some 0 ∧ HasPrefix (x :: xs) old = true then
      new ++ replaceStrAux old new (budget.map (fun b => b - 1)) (old.length - 1) xs
    else x :: replaceStrAux old new budget 0 xs

/-- Go's `strings.Replace(s, old, new, n)` on text, for a non-empty `old`: the first `n`
non-overlapping occurrences of `old`, found from the left, are replaced, all of them when
`n < 0`. -/
def ReplaceStr (s old new : Str) (n : Int) : Str :=
  replaceStrAux old new (if n < 0 then none else some n.toNat) 0 s

/-- Go's `strings.Contains(s, substr)`. -/
def Contains : Str → Str → Bool
  | [], substr => substr.isEmpty
  | x :: xs, substr => HasPrefix (x :: xs) substr || Contains xs substr

/-- Go's `prepVendorName(vendorTitle)`. -/
def prepVendorName (u : CaseTable) (vendorTitle : Str) : Str :=
  let target := ToLower u vendorTitle
  let target := ReplaceStr target " corporation".toList [] 1
  let target := ReplaceStr target " incorporated".toList [] 1
  let target := ReplaceStr target " systems".toList [] 1
  let target := ReplaceStr target " inc.".toList [] 1
  let target := ReplaceStr target " corp.".toList [] 1
  let target := ReplaceStr target " s.r.o.".toList [] 1
  let target := ReplaceStr target " s.a.r.l.".toList [] 1
  let target := ReplaceStr target " e.h.f.".toList [] 1
  let target := ReplaceStr target ".com".toList [] 1
  let target := ReplaceStr target ".org".toList [] 1
  let target := ReplaceStr target "http://".toList [] 1
  let target := ReplaceStr target "https://".toList [] 1
  let target := ReplaceStr target ",".toList [] (-1)
  let target := ReplaceStr target ".".toList [] (-1)
  let target := ReplaceStr target " ".toList "_".toList (-1)
  TrimSpace target

/-- The pattern `reVersion`:
`(\s|version\s|v)?\s?([\d]+\.[\d]+(\.[\d]+)?(\.[\d]+)?)(-[^\s]+)?`. -/
def reVersion : Re :=
  Re.cat [
    .opt (.cap 1 (.alt (.cls isReSpace)
      (.alt (Re.cat [.cls (lit 'v'), .cls (lit 'e'), .cls (lit 'r'), .cls (lit 's'),
          .cls (lit 'i'), .cls (lit 'o'), .cls (lit 'n'), .cls isReSpace])
        (.cls (lit 'v'))))),
    .opt (.cls isReSpace),
    .cap 2 (Re.cat [
      Re.plus isDigit,
      .cls (lit '.'),
      Re.plus isDigit,
      .opt (.cap 3 (.seq (.cls (lit '.')) (Re.plus isDigit))),
      .opt (.cap 4 (.seq (.cls (lit '.')) (Re.plus isDigit)))]),
    .opt (.cap 5 (.seq (.cls (lit '-')) (Re.plus (fun c => !isReSpace c))))]

/-- The pattern `reBracketed`: `\([^\)]+\)`. -/
def reBracketed : Re :=
  Re.cat [.cls (lit '('), Re.plus (fun c => !decide (c = ')')), .cls (lit ')')]

/-- The pattern `reMultispaces`: `\s\s+`. -/
def reMultispaces : Re := .seq (.cls isReSpace) (Re.plus isReSpace)

/-- The pattern `reIsNumeric`, `^\d+$`, without its anchors: it is used with `MatchWhole`. -/
def reIsNumeric : Re := Re.plus isDigit

/-- Go's `prepProductName(title, vendor)`. -/
def prepProductName (u : CaseTable) (title vendor : Str) : Str :=
  let title := ToLower u title
  let vendor := ToLower u vendor
  let title := ReplaceAllString reMultispaces 0 title " ".toList
  let title := ReplaceAllString reVersion 5 title []
  let title := ReplaceStr title "-".toList " ".toList (-1)
  let title := ReplaceStr title "–".toList " ".toList (-1)
  let title :=
    if Contains title vendor then
      let bak := TrimSpace title
      let title := ReplaceStr title (' ' :: vendor ++ [' ']) [] 1
      let title := ReplaceStr title (vendor ++ [' ']) [] 1
      let title := if (utf8 vendor).length > 3 then ReplaceStr title vendor [] 1 else title
      let title := TrimSpace title
      if title.length = 0 ∨ MatchWhole reIsNumeric title = true then bak else title
    else title
  let title := ReplaceAllString reBracketed 0 title []
  let title := ReplaceStr title "  ".toList " ".toList (-1)
  let title := TrimSpace title
  ReplaceStr title " ".toList "_".toList (-1)

/-- The pattern `reYear`: `[-_]*[1-2]\d\d\d[-_]*`. -/
def reYear : Re :=
  Re.cat [
    Re.star (fun c => decide (c = '-') || decide (c = '_')),
    .cls (fun c => decide (c = '1') || decide (c = '2')),
    .cls isDigit,
    .cls isDigit,
    .cls isDigit,
    Re.star (fun c => decide (c = '-') || decide (c = '_'))]

/-- The first loop of `alternativeNames`: `done` is the part of `nameb` already passed, with
the changes made to it, `rest` the part still to visit. Each `-` or `_` met is flipped in
place and the buffer as it then stands is recorded. The loop visits bytes; the bytes `-`
and `_` of a text are its characters `-` and `_`. -/
def flipLoop : Str → Str → List Str
  | _, [] => []
  | done, b :: rest =>
    if b = '-' then (done ++ '_' :: rest) :: flipLoop (done ++ ['_']) rest
    else if b = '_' then (done ++ '-' :: rest) :: flipLoop (done ++ ['-']) rest
    else flipLoop (done ++ [b]) rest

/-- Go's `alternativeNames(name)`. The second loop ranges over the names present when it
starts. -/
def alternativeNames (name : Str) : List Str :=
  let names := name :: flipLoop [] name
  names ++ names.filterMap (fun n =>
    let n2 := ReplaceAllString reYear 0 n []
    if n ≠ n2 then some (TrimSpace n2) else none)

/-! ## Automatic commits of the session (`session.go`) -/

/-- The part of a `VulnDBSession` that `session()` and `Insert` read and write, with two
facts about the transaction of the database. `curSession` tells that `sw.curSession` is not
nil; `insertCount` and `insertCommitThreshold` are the `int64` fields. `pending` is the
number of successful calls of `Insert` since the last successful commit, or since the
creation of the session; `pendingRows` is the number of rows inserted since then, by the
calls of `Insert` and by the statements of `Exec`. The two last fields are not fields of the
Go structure. The statistics (`totalInsertCount`, `printSpeed`) are left out. -/
structure SessionTx where
  curSession : Bool
  insertCount : Int
  insertCommitThreshold : Int
  pending : Nat
  pendingRows : Nat
deriving DecidableEq

/-- The state after `NewSessionWrapper(orm)`. -/
def newSessionTx : SessionTx :=
  { curSession := false, insertCount := 0, insertCommitThreshold := 50000, pending := 0,
    pendingRows := 0 }

/-- The results of the calls of the library during one operation of the session: whether
`Commit` and `Begin` return a nil error, whether the call the operation is made for
(`session.Insert`, `session.Exec`, `session.Get`, `session.Find`) does, and the number of
rows that this call inserts when it succeeds (the rows of the beans of an `Insert`, the rows
that the statements of an `Exec` insert). -/
structure Outcomes where
  commitOk : Bool
  beginOk : Bool
  callOk : Bool
  rows : Nat
deriving DecidableEq

/-- Go's `sw.CommitAndRestart()`; the Boolean tells that the error returned is nil. -/
def SessionTx.CommitAndRestart (o : Outcomes) (sw : SessionTx) : Bool × SessionTx :=
  if sw.curSession then
    if !o.commitOk then (false, sw)
    else
      let sw := { sw with curSession := false, pending := 0, pendingRows := 0 }
      if !o.beginOk then (false, sw) else (true, { sw with curSession := true })
  else
    if !o.beginOk then (false, sw) else (true, { sw with curSession := true })

/-- Go's `sw.session()`; the Boolean tells that the error returned is nil, in which case the
session returned is `sw.curSession`. -/
def SessionTx.session (o : Outcomes) (sw : SessionTx) : Bool × SessionTx :=
  if sw.curSession = false ∨ sw.insertCount = sw.insertCommitThreshold then
    SessionTx.CommitAndRestart o { sw with insertCount := 0 }
  else (true, sw)

/-- Go's `sw.Insert(beans...)`; the Boolean tells that the error returned is nil. The count is
raised by one for the call, whatever the number of rows. -/
def SessionTx.Insert (o : Outcomes) (sw : SessionTx) : Bool × SessionTx :=
  let r := sw.session o
  if r.1 = false then (false, r.2)
  else if o.callOk = false then (false, r.2)
  else (true, { r.2 with insertCount := wrapInt (r.2.insertCount + 1),
                         pending := r.2.pending + 1,
                         pendingRows := r.2.pendingRows + o.rows })

/-- Go's `sw.Exec(sqlStr, args...)`: the statements run on the session that `session()`
returns, and the count is not touched. -/
def SessionTx.Exec (o : Outcomes) (sw : SessionTx) : Bool × SessionTx :=
  let r := sw.session o
  if r.1 = false then (false, r.2)
  else if o.callOk = false then (false, r.2)
  else (true, { r.2 with pendingRows := r.2.pendingRows + o.rows })

/-- Go's `sw.Get` and `sw.Find`: the query is made on the session that `session()` returns. -/
def SessionTx.call (o : Outcomes) (sw : SessionTx) : Bool × SessionTx :=
  let r := sw.session o
  if r.1 = false then (false, r.2) else (o.callOk, r.2)

/-- Go's `sw.Where`, `sw.Sql` and `sw.OrderBy`: the error of `session()` is dropped and the
result of the call on the session, which is this session, is stored in `sw.curSession`. The
Boolean is false when the session is nil and the call panics. -/
def SessionTx.chain (o : Outcomes) (sw : SessionTx) : Bool × SessionTx :=
  sw.session o

/-- The operations of a `VulnDBSession` that go through `session()`. -/
inductive SessionOp where
  | Insert | Exec | Where | Sql | OrderBy | Get | Find
deriving DecidableEq

/-- The state after an operation with the given results of the library. -/
def SessionTx.step (sw : SessionTx) (x : SessionOp × Outcomes) : SessionTx :=
  match x.1 with
  | .Insert => (sw.Insert x.2).2
  | .Exec => (sw.Exec x.2).2
  | .Get => (sw.call x.2).2
  | .Find => (sw.call x.2).2
  | .Where => (sw.chain x.2).2
  | .Sql => (sw.chain x.2).2
  | .OrderBy => (sw.chain x.2).2

/-- The state after a sequence of operations. -/
def SessionTx.run (sw : SessionTx) (steps : List (SessionOp × Outcomes)) : SessionTx :=
  steps.foldl SessionTx.step sw

/-! ## Platform vulnerabilities (`createdb.go`, `redhat_oval.go`, `schema.go`) -/

/-- A row of `platforms`. -/
structure platforms where
  ID : Int := 0
  Rule : Str := []
  DisplayName : Str := []
deriving DecidableEq

/-- A row of `platform_vulnerabilities` (`platformVulnerabilities`). -/
structure platformVulnerabilities where
  PlatformID : Int := 0
  VulnerabilityId : Int := 0
  Source : Str := []
deriving DecidableEq

/-- The constant `SourceCPE`. -/
def SourceCPE : Str := "cpe".toList

/-- The constant `SourceMSRC`. -/
def SourceMSRC : Str := "msrcAPI".toList

/-- The constant `SourceRedhatOVAL`. -/
def SourceRedhatOVAL : Str := "redhat_oval".toList

/-- The rows that `createVulnDBSchema` inserts into `platforms`. -/
def schemaPlatforms : List platforms :=
  [{ ID := 1, Rule := ":o:centos:centos:6.0:".toList, DisplayName := "CentOS Linux 6".toList },
   { ID := 2, Rule := ":o:centos:centos:6.0:".toList, DisplayName := "CentOS Linux 7".toList },
   { ID := 3, Rule := ":o:centos:centos:6.0:".toList, DisplayName := "CentOS Linux 8".toList },
   { ID := 4, Rule := ":o:cisco:ios:".toList, DisplayName := "Cisco IOS".toList },
   { ID := 5, Rule := ":o:debian:debian_linux:10.0:".toList,
     DisplayName := "Debian Linux Buster 10".toList },
   { ID := 6, Rule := ":o:debian:debian_linux:9.0:".toList,
     DisplayName := "Debian Linux Stretch 9".toList },
   { ID := 7, Rule := ":o:microsoft:windows_10:,Microsoft Windows 10".toList,
     DisplayName := "Microsoft Windows 10".toList },
   { ID := 8, Rule := ":o:microsoft:windows_server_2008:r2,Windows Server 2008 R2".toList,
     DisplayName := "Microsoft Windows Server 2008 R2".toList },
   { ID := 9, Rule := ":o:microsoft:windows_server_2012:-:,Windows Server 2012".toList,
     DisplayName := "Microsoft Windows Server 2012".toList },
   { ID := 10, Rule := ":o:microsoft:windows_server_2012:r2:,Windows Server 2012 R2".toList,
     DisplayName := "Microsoft Windows Server 2012 R2".toList },
   { ID := 11, Rule := ":o:microsoft:windows_server_2016:,Windows Server 2016".toList,
     DisplayName := "Microsoft Windows Server 2016".toList },
   { ID := 12, Rule := ":o:microsoft:windows_server_2019:,Windows Server 2019".toList,
     DisplayName := "Microsoft Windows Server 2019".toList },
   { ID := 13, Rule := ":o:redhat:enterprise_linux:4.0:".toList,
     DisplayName := "Redhat Linux 4".toList },
   { ID := 14, Rule := ":o:redhat:enterprise_linux:5.0:".toList,
     DisplayName := "Redhat Linux 5".toList },
   { ID := 15, Rule := ":o:redhat:enterprise_linux:6.0:".toList,
     DisplayName := "Redhat Linux 6".toList },
   { ID := 16, Rule := ":o:redhat:enterprise_linux:7.0:".toList,
     DisplayName := "Redhat Linux 7".toList },
   { ID := 17, Rule := ":o:redhat:enterprise_linux:8.0:".toList,
     DisplayName := "Redhat Linux 8".toList },
   { ID := 18, Rule := ":o:oracle:solaris:".toList, DisplayName := "Solaris".toList },
   { ID := 19, Rule := ":o:canonical:ubuntu_linux:18.04:".toList,
     DisplayName := "Ubuntu Linux Bionic 1804".toList },
   { ID := 20, Rule := ":o:canonical:ubuntu_linux:16.04:".toList,
     DisplayName := "Ubuntu Linux Xenial 1604".toList },
   { ID := 21, Rule := ":o:canonical:ubuntu_linux:20.04:".toList,
     DisplayName := "Ubuntu Linux Focal 2004".toList }]

/-- Go's `strings.Split(s, sep)` for a separator of one character. -/
def Split (sep : Char) : Str → List Str
  | [] => [[]]
  | c :: rest =>
    if c = sep then [] :: Split sep rest
    else
      match Split sep rest with
      | [] => [[c]]
      | t :: ts => (c :: t) :: ts

/-- The expression `regexp.MustCompile(exp)` for a rule of the table `platforms`. The rules
are made of letters, digits, spaces and the characters `:`, `_` and `-`, which stand for
themselves, and of `.`, which stands for any character but the line feed. -/
def compileRule (exp : Str) : Re :=
  Re.cat (exp.map (fun c =>
    if c = '.' then Re.cls (fun x => !decide (x.toNat = 10)) else Re.cls (lit c)))

/-- Go's `re.MatchString(s)`: the expression has a match somewhere in `s`. -/
def MatchString (r : Re) (s : Str) : Bool :=
  s.tails.any (fun t => (r.matchAt 0 t).isSome)

/-- Go's `isPlatformMatchRulePassed(rules, value)`. -/
def isPlatformMatchRulePassed (rules : List Re) (value : Str) : Bool :=
  rules.any (fun rule => MatchString rule value)

/-- The map from the key of a platform to its compiled rules (`platformMapping`,
`platformMappingRules`), as the list of its entries. The loops over the map visit the entries
in an order that is not fixed; it is here the order of the table, and another order only
changes the order in which rows are inserted. -/
def platformRules (ps : List platforms) : List (Int × List Re) :=
  ps.map (fun p => (p.ID, (Split ',' p.Rule).map compileRule))

/-- The tables that the three steps write or read for the platform vulnerabilities:
`nvd_cve_advisories`, `platforms` and `platform_vulnerabilities`, each in the order of
insertion. -/
structure ingestTables where
  advisories : List NVDCVEAdvisory := []
  platforms : List platforms := []
  platformVulns : List platformVulnerabilities := []
deriving DecidableEq

/-- The key the database gives an inserted advisory: one more than the largest key of the
table. -/
def nextAdvisoryID (advisories : List NVDCVEAdvisory) : Int :=
  advisories.foldl (fun m a => max m a.Id) 0 + 1

/-- The tables with a dedup map of the pairs already written (`platformVulnExist`,
`uniquePlatformVuln`, `uniqueMapping`). The key `fmt.Sprintf("%v:%v", platformID, id)` of the
map stands for the pair of the two numbers. -/
abbrev Dedup := ingestTables × List (Int × Int)

/-- The guarded insertion of the three steps: the row is inserted unless its pair is in the
map, and the pair is then put into the map. The storage is taken to work. -/
def insertPlatformVuln (st : Dedup) (platformID vulnerabilityId : Int) (source : Str) : Dedup :=
  if (platformID, vulnerabilityId) ∈ st.2 then st
  else
    ({ st.1 with platformVulns := st.1.platformVulns ++
        [{ PlatformID := platformID, VulnerabilityId := vulnerabilityId, Source := source }] },
     (platformID, vulnerabilityId) :: st.2)

/-- An advisory of a feed (`CVEAdvisory`), with the identifier and the CVSS3 base score. -/
structure CVEAdvisory where
  CVEID : Str := []
  CVSS3 : Option Rat := none
deriving DecidableEq

/-- A loaded file of the feed (`CVEDirectory`): the advisories, and the entries of `Map` with
the system type under which each stands, in the order in which the loops visit them. -/
structure CVEDirectory where
  Advisories : List CVEAdvisory := []
  Map : List (Str × cveDirEntry) := []
deriving DecidableEq

/-- The value `m[key]` of a Go map given by its assignments, latest first; 0 for a key that
is absent. -/
def mapGet (m : List (Str × Int)) (key : Str) : Int :=
  match m.find? (fun kv => decide (kv.1 = key)) with
  | some kv => kv.2
  | none => 0

/-- The part of `processNVDCVE` that writes advisories and platform vulnerabilities (lines 138
to 256 of `createdb.go`), on the loaded files. -/
def processNVDCVE (t : ingestTables) (cveDirs : List CVEDirectory) : ingestTables :=
  let platformMapping := platformRules t.platforms
  (cveDirs.foldl (fun (st : Dedup) cveDir =>
    let loaded : ingestTables × List (Str × Int) :=
      cveDir.Advisories.foldl (fun acc cve =>
        let id := nextAdvisoryID acc.1.advisories
        ({ acc.1 with advisories := acc.1.advisories ++
            [{ Id := id, CVEID := cve.CVEID, CVSS3BaseScore := cve.CVSS3 }] },
         (cve.CVEID, id) :: acc.2)) (st.1, [])
    let advisoryIDs := loaded.2
    cveDir.Map.foldl (fun (st : Dedup) x =>
      if x.1 = "o".toList then
        platformMapping.foldl (fun (st : Dedup) pr =>
          pr.2.foldl (fun (st : Dedup) r =>
            if MatchString r x.2.RawCPE23 then
              insertPlatformVuln st pr.1 (mapGet advisoryIDs x.2.CVEID) SourceCPE
            else st) st) st
      else st) (loaded.1, st.2)) (t, [])).1

/-- Go's `processMSRCData` on the loaded data: `vulnerabilities` are the entries of
`data.Vulnerabilities`, each an identifier with the `Product` fields of its patch
information. The advisory found for an identifier is the first of the table. -/
def processMSRCData (t : ingestTables) (vulnerabilities : List (Str × List Str)) :
    ingestTables :=
  let platformMappingRules := platformRules t.platforms
  (vulnerabilities.foldl (fun (st : Dedup) x =>
    let found : ingestTables × Int :=
      match st.1.advisories.find? (fun a => decide (a.CVEID = x.1)) with
      | some advisory => (st.1, advisory.Id)
      | none =>
        let id := nextAdvisoryID st.1.advisories
        ({ st.1 with advisories := st.1.advisories ++ [{ Id := id, CVEID := x.1 }] }, id)
    x.2.foldl (fun (st : Dedup) product =>
      platformMappingRules.foldl (fun (st : Dedup) pr =>
        if isPlatformMatchRulePassed pr.2 product then
          insertPlatformVuln st pr.1 found.2 SourceMSRC
        else st) st) (found.1, st.2)) (t, [])).1

/-- A definition of an OVAL document with what `update` reads of it: the identifiers of its
CVEs, and whether its two dates parse. -/
structure ovalDefinition where
  Cves : List Str := []
  IssuedOk : Bool := true
  UpdatedOk : Bool := true
deriving DecidableEq

/-- The state of the loop of `update`: the tables, the map `advisoryIDs` and the map
`uniqueMapping`. -/
structure updateState where
  tables : ingestTables
  advisoryIDs : List (Str × Int)
  uniqueMapping : List (Int × Int)

/-- Go's `update(sessionw, release)` of `redhat_oval.go` on the definitions of the fetched
document. -/
def update (t : ingestTables) (release : Str) (definitions : List ovalDefinition) :
    Except String ingestTables :=
  let advisoryIDs : List (Str × Int) :=
    t.advisories.foldl (fun m advisory => (advisory.CVEID, advisory.Id) :: m) []
  match t.platforms.find? (fun p => decide (p.DisplayName = "Redhat Linux ".toList ++ release)) with
  | none => .error "invalid Redhat release"
  | some platform =>
    let uniqueMapping := t.platformVulns.map (fun p => (p.PlatformID, p.VulnerabilityId))
    .ok (definitions.foldl (fun (st : updateState) d =>
      d.Cves.foldl (fun (st : updateState) cve =>
        match st.advisoryIDs.find? (fun kv => decide (kv.1 = cve)) with
        | some kv =>
          let r := insertPlatformVuln (st.tables, st.uniqueMapping) platform.ID kv.2
            SourceRedhatOVAL
          { st with tables := r.1, uniqueMapping := r.2 }
        | none =>
          if d.IssuedOk = false then st
          else if d.UpdatedOk = false then st
          else
            let id := nextAdvisoryID st.tables.advisories
            { tables :=
                { st.tables with
                  advisories := st.tables.advisories ++ [{ Id := id, CVEID := cve }],
                  platformVulns := st.tables.platformVulns ++
                    [{ PlatformID := platform.ID, VulnerabilityId := id,
                       Source := SourceRedhatOVAL }] },
              advisoryIDs := (cve, id) :: st.advisoryIDs,
              uniqueMapping := (platform.ID, id) :: st.uniqueMapping }) st)
      { tables := t, advisoryIDs := advisoryIDs, uniqueMapping := uniqueMapping }).tables

/-- Go's `processRedhatOvalData`: `update` for the releases 6, 7 and 8; `oval` gives the
definitions of the document of a release. -/
def processRedhatOvalData (t : ingestTables) (oval : Str → List ovalDefinition) :
    Except String ingestTables :=
  ["6".toList, "7".toList, "8".toList].foldl (fun acc release =>
    match acc with
    | .error e => .error e
    | .ok t => update t release (oval release)) (.ok t)

/-- The steps of `CreateDB` that write advisories and platform vulnerabilities, in their
order, after the schema has been created: the NVD step over all the files, the MSRC step and
the Red Hat OVAL step. -/
def CreateDB (cveDirs : List CVEDirectory) (msrc : List (Str × List Str))
    (oval : Str → List ovalDefinition) : Except String ingestTables :=
  let t : ingestTables := { platforms := schemaPlatforms }
  let t := processNVDCVE t cveDirs
  let t := processMSRCData t msrc
  processRedhatOvalData t oval

/-- The ASCII case mappings, the restriction of the Unicode ones to ASCII text. -/
def asciiCase : CaseTable where
  toLower := Char.toLower
  toUpper := Char.toUpper
  toLower_ascii := fun _ _ => rfl
  toUpper_ascii := fun _ _ => rfl
  toUpper_idem := by
    intro c
    simp only [Char.toUpper]
    split
    · rename_i h
      split
      · rename_i h2
        exfalso
        have hv : (c.toNat - 32).isValidChar := by
          left
          have := h.2
          omega
        have h3 : (Char.ofNat (c.toNat - 32)).toNat = c.toNat - 32 := by
          unfold Char.ofNat
          rw [dif_pos hv]
          simp [Char.ofNatAux, Char.toNat, UInt32.toNat]
        have h1b := h.2
        have h2a := h2.1
        omega
      · rfl
    · rfl

/-! ## Auxiliary notions for the proofs -/

/-- Whether `r` matches the empty string at every position (syntactically). -/
def Re.nullable : Re → Bool
  | .cls _ => false
  | .rep _ lo _ => decide (lo = 0)
  | .opt _ => true
  | .seq a b => a.nullable && b.nullable
  | .alt a b => a.nullable || b.nullable
  | .cap _ r => r.nullable

/-- Expressions without alternation in which whatever follows a factor of a concatenation
can match the empty string: a backtracking search never has to revise a choice. -/
def Re.linear : Re → Bool
  | .cls _ => true
  | .rep _ _ _ => true
  | .opt r => r.linear
  | .seq a b => a.linear && b.linear && b.nullable
  | .alt _ _ => false
  | .cap _ r => r.linear

/-- The outcome of the highest priority of `r` on `s`, each choice taken greedily. -/
def Re.first : Re → Str → Caps → Option (Str × Caps)
  | .cls p, s, c =>
    match s with
    | [] => none
    | x :: xs => if p x then some (xs, c) else none
  | .rep p lo hi, s, c =>
    if lo ≤ repMax p hi s then some (s.drop (repMax p hi s), c) else none
  | .opt r, s, c =>
    match r.first s c with
    | some o => some o
    | none => some (s, c)
  | .seq a b, s, c =>
    match a.first s c with
    | some o => b.first o.1 o.2
    | none => none
  | .alt a b, s, c =>
    match a.first s c with
    | some o => some o
    | none => b.first s c
  | .cap i r, s, c =>
    (r.first s c).map (fun o => (o.1, o.2.set i (s.take (s.length - o.1.length))))

/-- The capture groups of an expression. -/
def Re.groups : Re → List Nat
  | .cls _ => []
  | .rep _ _ _ => []
  | .opt r => r.groups
  | .seq a b => a.groups ++ b.groups
  | .alt a b => a.groups ++ b.groups
  | .cap i r => i :: r.groups

/-- The result of a comparison with the two arguments exchanged: the order is reversed,
the incompatible result 2 stays. -/
def flipCmp (r : Int) : Int := if r = 2 then 2 else -r

/-- The first maximal run of ASCII digits of a string (empty if it has no digit). -/
def firstDigitRun (s : Str) : Str := (s.dropWhile (fun c => !isDigit c)).takeWhile isDigit

/-- A token with a backslash written before each `:` and each backslash. -/
def escapeToken (t : Str) : Str :=
  t.flatMap (fun c => if c = ':' ∨ c = '\\' then ['\\', c] else [c])

/-- The strings of a list joined with `sep` between them (`strings.Join`). -/
def joinWith (sep : Char) : List Str → Str
  | [] => []
  | [t] => t
  | t :: t2 :: ts => t ++ sep :: joinWith sep (t2 :: ts)

/-- The strings of a list joined with `:` between them. -/
def joinColon (ts : List Str) : Str := joinWith ':' ts

/-- A decimal number as written: one or more ASCII digits. -/
def isNumeral (d : Str) : Bool := !d.isEmpty && d.all isDigit

/-- The value of a decimal number as written. -/
def decVal (d : Str) : Nat := d.foldl (fun acc c => acc * 10 + (c.toNat - 48)) 0

/-- A version written as dot-separated numbers. -/
def dotted (ns : List Str) : Str := joinWith '.' ns

/-- The first four numbers of a sequence, a missing one counting as 0. -/
def pad4 (vs : List Int) : List Int := (vs ++ [0, 0, 0, 0]).take 4

/-- Sign of the lexicographic comparison of the target's numbers against the template's:
1 if the target is larger, -1 if it is smaller, 0 if they are equal. -/
def lexSign : List Int → List Int → Int
  | tpl :: tpls, tgt :: tgts =>
    if tgt > tpl then 1 else if tgt < tpl then -1 else lexSign tpls tgts
  | _, _ => 0

/-- The names `normalizeSWTarget` replaces by "mac_os_x". -/
def macTargets : List Str := ["mac".toList, "mac_os".toList, "mac_os_x".toList]

/-- The names `normalizeSWTarget` replaces by "ios". -/
def iosTargets : List Str :=
  ["ios".toList, "ipad".toList, "iphone_os".toList, "ipod_touch".toList]

/-- The result `r(bound)` of the version decision: the comparison of a bound of the item,
as template, with the version and patch of the installation. -/
def boundCmp (u : CaseTable) (vendorName productName : Str) (item : vulndbProductItem)
    (version patch bound : Str) : Int :=
  VersionCompareProduct u vendorName productName bound version item.Patch patch

/-- An example of a range item: from 1.0 included to 2.0 excluded. -/
def exampleRangeItem : vulndbProductItem :=
  { ID := 1, ProductID := 1, Systype := "a".toList,
    VersionStartIncluding := some "1.0".toList, VersionEndExcluding := some "2.0".toList }

/-- An example of a range item with a start bound only. -/
def exampleOpenItem : vulndbProductItem :=
  { ID := 2, ProductID := 1, Systype := "a".toList, Version := some "*".toList,
    VersionStartIncluding := some "1.0".toList }

/-- A list of results in ascending order of `cve_id`: no entry has an identifier smaller than
that of an entry before it. -/
def ascendingCVE (l : List CVEMatch) : Prop :=
  l.Pairwise (fun a b => strLt b.Advisory.CVEID a.Advisory.CVEID = false)

/-- The property of the lists returned by `MatchCVEs`: at most `maxNumHits` entries, in
ascending order of `cve_id`. -/
def resultOk (l : List CVEMatch) : Prop := l.length ≤ maxNumHits ∧ ascendingCVE l

/-- Every list in the cache of results of the session has the property `resultOk`. -/
def CacheOk (s : VulnDBSession) : Prop := ∀ k l, s.cached k = some l → resultOk l

/-- The six arguments of a call of `MatchCVEs`. -/
structure CVEQuery where
  systype : Str := []
  publisher : Str := []
  title : Str := []
  version : Str := []
  patch : Str := []
  target_sw : Str := []
deriving DecidableEq

/-- The results of successive calls of `MatchCVEs` on one session, each call with its
arguments and with the database as it is at the time of the call. -/
def runMatchCVEs (u : CaseTable) (names : NameRules) (sorts : StableSort) :
    List (Database × CVEQuery) → VulnDBSession → List (Except String (List CVEMatch))
  | [], _ => []
  | (db, q) :: rest, session =>
    let r := MatchCVEs u names sorts db session q.systype q.publisher q.title q.version
      q.patch q.target_sw
    r.1 :: runMatchCVEs u names sorts rest r.2

/-- Name rules that leave the names as they are. -/
def plainNames : NameRules :=
  { prepVendorName := fun vendorTitle => vendorTitle,
    prepProductName := fun title _ => title,
    alternativeNames := fun name => [name] }

/-- The insertion sort: Go's `sort.SliceStable` on a slice of at most 20 elements. -/
def insertionStable : StableSort where
  SliceStable := fun less l => sortSlice less l
  perm := by
    intro less l
    have hstep : ∀ (x : NVDCVEAdvisory) (acc : List NVDCVEAdvisory),
        (insertionStep less x acc).Perm (x :: acc) := by
      intro x acc
      induction acc with
      | nil => exact List.Perm.refl _
      | cons y ys ih =>
        unfold insertionStep
        split
        · exact (List.Perm.cons y ih).trans (List.Perm.swap x y ys)
        · exact List.Perm.refl _
    have hfold : ∀ (xs acc : List NVDCVEAdvisory),
        (xs.foldl (fun sortedRev x => insertionStep less x sortedRev) acc).Perm
          (xs.reverse ++ acc) := by
      intro xs
      induction xs with
      | nil => intro acc; exact List.Perm.refl _
      | cons x xs ih =>
        intro acc
        simp only [List.foldl_cons, List.reverse_cons, List.append_assoc, List.singleton_append]
        exact (ih _).trans (List.Perm.append_left _ (hstep x acc))
    unfold sortSlice
    have h := hfold l []
    rw [List.append_nil] at h
    exact (List.reverse_perm _).trans (h.trans (List.reverse_perm l))

/-- A database with one product, found by its alias, one product item (`exampleRangeItem`)
and two advisories linked to the item. -/
def exampleDatabase : Database :=
  { productAlias := fun _ _ => .ok (some { ProductID := 1 }),
    vendorByName := fun _ => .ok none,
    vendorAlias := fun _ => .ok none,
    vendorById := fun _ => .ok (some { ID := 1, Name := "microsoft".toList }),
    productById := fun _ =>
      .ok (some { ID := 1, ProductName := "office".toList, VendorID := 1 }),
    products := fun _ _ => .ok [],
    productItems := fun _ _ => .ok [exampleRangeItem],
    ignoreList := fun _ _ => .ok [],
    vulnerabilities := fun _ =>
      .ok [{ AdvisoryID := 1, ProductItemID := 1 }, { AdvisoryID := 2, ProductItemID := 1 }],
    advisories := fun _ =>
      .ok [{ Id := 1, CVEID := "CVE-2020-0002".toList, CVSS3BaseScore := some 9 },
           { Id := 2, CVEID := "CVE-2020-0001".toList, CVSS3BaseScore := some 7 }] }

/-- The query of the example: an installation of version 1.5. -/
def exampleQuery : CVEQuery :=
  { systype := "a".toList, publisher := "Microsoft".toList, title := "Office".toList,
    version := "1.5".toList }

/-- The list `MatchCVEs` returns in the example. -/
def exampleResult : List CVEMatch :=
  [{ Advisory := { Id := 2, CVEID := "CVE-2020-0001".toList, CVSS3BaseScore := some 7 } },
   { Advisory := { Id := 1, CVEID := "CVE-2020-0002".toList, CVSS3BaseScore := some 9 } }]

/-- Expressions with a single way to match: no repetition, no option and no alternation. -/
def Re.single : Re → Bool
  | .cls _ => true
  | .rep _ _ _ => false
  | .opt _ => false
  | .seq a b => a.single && b.single
  | .alt _ _ => false
  | .cap _ r => r.single

/-- Expressions that have no match at a position as soon as their greedy attempt fails
there. -/
def Re.failFast : Re → Bool
  | .cls _ => true
  | .rep _ _ _ => true
  | .opt _ => true
  | .seq a b => a.single && b.failFast
  | .alt a b => a.failFast && b.failFast
  | .cap _ r => r.failFast

/-- Expressions in which every option is over an expression that fails fast: when the greedy
attempt succeeds and the continuation accepts it, it is the match of highest priority. -/
def Re.greedyOk : Re → Bool
  | .cls _ => true
  | .rep _ _ _ => true
  | .opt r => r.greedyOk && r.failFast
  | .seq a b => a.greedyOk && b.greedyOk
  | .alt a b => a.greedyOk && a.failFast && b.greedyOk
  | .cap _ r => r.greedyOk

/-- A byte string with a malformed percent escape: a `%` that is not followed by two hex
digits. -/
def malformedEscape : Bytes → Bool
  | [] => false
  | b :: rest =>
    (decide (b = 37) &&
      !(match rest with
        | h1 :: h2 :: _ => ishex h1 && ishex h2
        | _ => false)) || malformedEscape rest

/-- The character with `-` and `_` exchanged. -/
def flipChar (c : Char) : Char :=
  if c = '-' then '_' else if c = '_' then '-' else c

/-- The characters of a plain word: neither white space, nor a digit, nor one of `-`, `–`
and `(`. -/
def wordChar (c : Char) : Bool :=
  !isSpace c && !isDigit c && !decide (c = '-') && !decide (c = '–') && !decide (c = '(')

/-- Texts without two adjacent white space characters. -/
def noDouble : Str → Bool
  | a :: b :: v => !(isSpace a && isSpace b) && noDouble (b :: v)
  | _ => true

/-- A database that answers a query for one row with the first row of the list that satisfies
the condition. -/
def firstRow {α : Type} : RowChoice α where
  get := fun cond rows => rows.find? cond
  get_some := fun _ _ _ h => ⟨List.mem_of_find?_eq_some h, List.find?_some h⟩
  get_none := fun _ _ h r hr => by
    have := List.find?_eq_none.mp h r hr
    simpa using this

/-- A database that answers a query for one row with the last row of the list that satisfies
the condition. -/
def lastRow {α : Type} : RowChoice α where
  get := fun cond rows => rows.reverse.find? cond
  get_some := fun _ _ _ h =>
    ⟨List.mem_reverse.mp (List.mem_of_find?_eq_some h), List.find?_some h⟩
  get_none := fun _ _ h r hr => by
    have := List.find?_eq_none.mp h r (List.mem_reverse.mpr hr)
    simpa using this

/-- What holds of the session as long as no commit fails: the count of the session is the
number of successful calls of `Insert` since the last commit. -/
def SessionTx.inv (sw : SessionTx) : Prop :=
  sw.insertCommitThreshold = 50000 ∧ 0 ≤ sw.insertCount ∧ sw.insertCount ≤ 50000 ∧
  (sw.pending : Int) = sw.insertCount ∧ (sw.curSession = false → sw.insertCount = 0)

/-- A successful `Insert` of one row. -/
def insertOne : SessionOp × Outcomes :=
  (SessionOp.Insert, { commitOk := true, beginOk := true, callOk := true, rows := 1 })

/-- Five advisories, in the descending order of their scores. -/
def rankedAdvisories : List NVDCVEAdvisory :=
  [{ Id := 1, CVEID := "CVE-2020-0001".toList, CVSS3BaseScore := some 9 },
   { Id := 2, CVEID := "CVE-2020-0002".toList, CVSS3BaseScore := some 8 },
   { Id := 3, CVEID := "CVE-2020-0003".toList, CVSS3BaseScore := some 7 },
   { Id := 4, CVEID := "CVE-2020-0004".toList, CVSS3BaseScore := some 6 },
   { Id := 5, CVEID := "CVE-2020-0005".toList, CVSS3BaseScore := some 5 }]

/-- The rows of `vulndb_vulnerabilities` of the example `chunkedDatabase`: 901 rows that link
the product item 1 to the advisories 1, 2, 3, 4, then 896 times to the advisory 5, and last
to the advisory 1 again. The table has no key, and `processNVDCVE` inserts a row for each
entry of an advisory, also when the product item is the same. -/
def chunkedRows : List vulndbVulnerability :=
  ([1, 2, 3, 4] ++ List.replicate 896 5 ++ [1]).map
    (fun a => { AdvisoryID := a, ProductItemID := 1 })

/-- A database with one product, found by its alias, one product item (`exampleRangeItem`),
the advisories `rankedAdvisories` and the rows `chunkedRows`. The query for advisories
answers with the advisories whose key is among those asked for, in the descending order of
their scores. -/
def chunkedDatabase : Database :=
  { exampleDatabase with
    vulnerabilities := fun _ => .ok chunkedRows,
    advisories := fun ids => .ok (rankedAdvisories.filter (fun a => decide (a.Id ∈ ids))) }

/-- The database `exampleDatabase` with a single product alias, `office` of `Microsoft`, that
is found for this title only. -/
def aliasDatabase : Database :=
  { exampleDatabase with
    productAlias := fun publisher title =>
      if publisher = "Microsoft".toList ∧ title = "office".toList then
        .ok (some { ProductID := 1 })
      else .ok none }
/-- The name rules of `match.go`. -/
def goNames (u : CaseTable) : NameRules :=
  { prepVendorName := prepVendorName u,
    prepProductName := prepProductName u,
    alternativeNames := alternativeNames }

/-- Equality of results, rows or an error, is decidable. -/
instance exceptDecEq {ε α : Type} [DecidableEq ε] [DecidableEq α] : DecidableEq (Except ε α) :=
  fun a b =>
    match a, b with
    | .ok x, .ok y =>
      if h : x = y then isTrue (h ▸ rfl) else isFalse (fun e => h (by cases e; rfl))
    | .error x, .error y =>
      if h : x = y then isTrue (h ▸ rfl) else isFalse (fun e => h (by cases e; rfl))
    | .ok _, .error _ => isFalse (fun e => by cases e)
    | .error _, .ok _ => isFalse (fun e => by cases e)

/-! # Properties -/

/-! ## The order on strings and the comparison loop -/

theorem codesLt_asymm : ∀ a b : List Nat, codesLt a b = true → codesLt b a = false
  | _, [], h => by simp [codesLt] at h
  | [], _ :: _, _ => by simp [codesLt]
  | x :: xs, y :: ys, h => by
    simp only [codesLt, Bool.or_eq_true, Bool.and_eq_true, decide_eq_true_eq] at h
    simp only [codesLt, Bool.or_eq_false_iff, Bool.and_eq_false_iff, decide_eq_false_iff_not]
    rcases h with h | ⟨h1, h2⟩
    · constructor
      · omega
      · left; omega
    · subst h1
      exact ⟨by omega, Or.inr (codesLt_asymm xs ys h2)⟩

theorem strLt_asymm (a b : Str) (h : strLt a b = true) : strLt b a = false :=
  codesLt_asymm _ _ h

theorem wrapInt_abs_swap (x y : Int) :
    (1000 < |wrapInt (y - x)|) ↔ (1000 < |wrapInt (x - y)|) := by
  simp only [lt_abs, wrapInt]
  omega

theorem versionStep_swap (i : Nat) (a b : Str) :
    versionStep i b a = (versionStep i a b).map flipCmp := by
  unfold versionStep
  by_cases h0 : a.length = 0 ∧ b.length = 0
  · simp [h0]
  · have h0' : ¬ (b.length = 0 ∧ a.length = 0) := fun h => h0 ⟨h.2, h.1⟩
    rw [if_neg h0, if_neg h0']
    cases hb : partVal b <;> cases ha : partVal a <;> simp only [] <;>
      first
      | (by_cases h1 : strLt a b = true
         · simp [h1, strLt_asymm a b h1, flipCmp]
         · by_cases h2 : strLt b a = true
           · simp [h1, h2, flipCmp]
           · simp [h1, h2])
      | skip
    rename_i x y
    have hw := wrapInt_abs_swap x y
    by_cases hi : i = 1
    · by_cases hd : 1000 < |wrapInt (x - y)|
      · simp [hi, hd, hw.mpr hd, flipCmp, gt_iff_lt]
      · have hd' : ¬ 1000 < |wrapInt (y - x)| := fun h => hd (hw.mp h)
        simp only [hi, hd, hd', gt_iff_lt, and_false, if_false, true_and]
        by_cases h1 : x < y
        · have : ¬ y < x := by omega
          simp [h1, this, flipCmp]
        · by_cases h2 : y < x
          · simp [h1, h2, flipCmp]
          · simp [h1, h2]
    · simp only [hi, gt_iff_lt, false_and, if_false]
      by_cases h1 : x < y
      · have : ¬ y < x := by omega
        simp [h1, this, flipCmp]
      · by_cases h2 : y < x
        · simp [h1, h2, flipCmp]
        · simp [h1, h2]

theorem versionLoop_swap : ∀ (i : Nat) (as bs : List Str),
    versionLoop i bs as = flipCmp (versionLoop i as bs)
  | _, [], [] => by simp [versionLoop, flipCmp]
  | _, [], _ :: _ => by simp [versionLoop, flipCmp]
  | _, _ :: _, [] => by simp [versionLoop, flipCmp]
  | i, a :: as, b :: bs => by
    simp only [versionLoop]
    rw [versionStep_swap i a b]
    cases versionStep i a b with
    | none => simpa using versionLoop_swap (i + 1) as bs
    | some r => simp

/-! ## Matching without backtracking -/

theorem countDown_nil (lo hi : Nat) (h : hi < lo) : countDown lo hi = [] := by
  have : hi + 1 - lo = 0 := by omega
  simp [countDown, this]

theorem countDown_cons (lo hi : Nat) (h : lo ≤ hi) :
    ∃ rest, countDown lo hi = hi :: rest := by
  unfold countDown
  have : hi + 1 - lo = (hi - lo) + 1 := by omega
  rw [this, List.range_succ, List.map_append, List.reverse_append]
  refine ⟨(List.map (fun k => k + lo) (List.range (hi - lo))).reverse, ?_⟩
  simp only [List.map_cons, List.map_nil, List.reverse_cons, List.reverse_nil, List.nil_append,
    List.singleton_append]
  congr 1
  omega

theorem exec_isSome_of_nullable {α : Type} (r : Re) :
    ∀ (k : Str → Caps → Option α), (∀ s c, (k s c).isSome = true) → r.nullable = true →
      ∀ s c, (r.exec k s c).isSome = true := by
  induction r with
  | cls p => intro k _ h; simp [Re.nullable] at h
  | rep p lo hi =>
    intro k hk h s c
    simp only [Re.nullable, decide_eq_true_eq] at h
    subst h
    simp only [Re.exec]
    obtain ⟨rest, hr⟩ := countDown_cons 0
      (repMax p hi s) (Nat.zero_le _)
    rw [hr, List.findSome?_cons]
    have := hk (List.drop (repMax p hi s) s) c
    cases hh : k (List.drop (repMax p hi s) s) c with
    | none => rw [hh] at this; simp at this
    | some a => simp
  | opt r _ =>
    intro k hk _ s c
    simp only [Re.exec]
    cases r.exec k s c with
    | some a => simp
    | none => simpa using hk s c
  | seq a b iha ihb =>
    intro k hk h s c
    simp only [Re.nullable, Bool.and_eq_true] at h
    simp only [Re.exec]
    exact iha _ (fun s1 c1 => ihb k hk h.2 s1 c1) h.1 s c
  | alt a b iha ihb =>
    intro k hk h s c
    simp only [Re.nullable, Bool.or_eq_true] at h
    simp only [Re.exec]
    cases ha : a.exec k s c with
    | some x => rfl
    | none =>
      rcases h with h | h
      · have := iha k hk h s c
        rw [ha] at this
        cases this
      · exact ihb k hk h s c
  | cap i r ih =>
    intro k hk h s c
    simp only [Re.nullable] at h
    simp only [Re.exec]
    exact ih _ (fun s1 c1 => hk _ _) h s c

theorem exec_eq_first {α : Type} (r : Re) :
    ∀ (k : Str → Caps → Option α), (∀ s c, (k s c).isSome = true) → r.linear = true →
      ∀ s c, r.exec k s c = (r.first s c).bind (fun o => k o.1 o.2) := by
  induction r with
  | cls p =>
    intro k _ _ s c
    cases s with
    | nil => simp [Re.exec, Re.first]
    | cons x xs =>
      by_cases hp : p x = true <;> simp [Re.exec, Re.first, hp]
  | rep p lo hi =>
    intro k hk _ s c
    simp only [Re.exec, Re.first]
    by_cases hlo : lo ≤ (repMax p hi s)
    · obtain ⟨rest, hr⟩ := countDown_cons lo _ hlo
      rw [hr, List.findSome?_cons, if_pos hlo]
      have := hk (List.drop (repMax p hi s) s) c
      cases hh : k (List.drop (repMax p hi s) s) c with
      | none => rw [hh] at this; simp at this
      | some a => simp [hh]
    · rw [countDown_nil lo _ (by omega), if_neg hlo]
      simp
  | opt r ih =>
    intro k hk h s c
    simp only [Re.linear] at h
    simp only [Re.exec, Re.first, ih k hk h s c]
    cases hf : r.first s c with
    | none => simp
    | some o =>
      have := hk o.1 o.2
      cases hh : k o.1 o.2 with
      | none => rw [hh] at this; simp at this
      | some a => simp [hh]
  | seq a b iha ihb =>
    intro k hk h s c
    simp only [Re.linear, Bool.and_eq_true] at h
    simp only [Re.exec, Re.first]
    rw [iha _ (fun s1 c1 => exec_isSome_of_nullable b k hk h.2 s1 c1) h.1.1 s c]
    cases hf : a.first s c with
    | none => simp
    | some o => simp [ihb k hk h.1.2]
  | alt a b _ _ =>
    intro k _ h
    cases h
  | cap i r ih =>
    intro k hk h s c
    simp only [Re.linear] at h
    simp only [Re.exec, Re.first]
    rw [ih _ (fun s1 c1 => hk _ _) h s c]
    cases hf : r.first s c with
    | none => simp
    | some o => simp

theorem matchAt_eq_first (r : Re) (n : Nat) (s : Str) (h : r.linear = true) :
    r.matchAt n s =
      ((Re.cap 0 r).first s (List.replicate (n + 1) [])).map (fun o => (o.2, o.1)) := by
  unfold Re.matchAt
  rw [exec_eq_first (Re.cap 0 r) (fun s1 c1 => some (c1, s1)) (fun _ _ => rfl)
    (by simpa [Re.linear] using h)]
  cases (Re.cap 0 r).first s (List.replicate (n + 1) []) <;> simp

/-! ## The first match of `FindAllStringSubmatch` -/

theorem findAll_nil (r : Re) (n : Nat) (h : r.matchAt n [] = none) :
    FindAllStringSubmatch r n [] = [] := by
  simp [FindAllStringSubmatch, findAllAux, h]

theorem findAll_cons_of_none (r : Re) (n : Nat) (x : Char) (xs : Str)
    (h : r.matchAt n (x :: xs) = none) :
    FindAllStringSubmatch r n (x :: xs) = FindAllStringSubmatch r n xs := by
  simp [FindAllStringSubmatch, findAllAux, h]

theorem findAll_of_some (r : Re) (n : Nat) (s : Str) (caps : Caps) (rest : Str)
    (h : r.matchAt n s = some (caps, rest)) :
    ∃ tl, FindAllStringSubmatch r n s = caps :: tl := by
  unfold FindAllStringSubmatch
  cases s with
  | nil =>
    refine ⟨[], ?_⟩
    simp [findAllAux, h]
  | cons x xs =>
    by_cases hl : (x :: xs).length - rest.length = 0
    · refine ⟨findAllAux r n false 0 xs, ?_⟩
      simp only [findAllAux, h]
      simp only [List.length_cons] at hl
      simp [hl]
    · refine ⟨findAllAux r n (decide ((x :: xs).length - rest.length = 1))
        ((x :: xs).length - rest.length - 1) xs, ?_⟩
      simp only [findAllAux, h]
      simp only [List.length_cons] at hl
      simp [hl]

/-! ## Properties of the greedy outcome -/

theorem first_length (r : Re) : ∀ (s : Str) (c : Caps) (o : Str × Caps),
    r.first s c = some o → o.2.length = c.length := by
  induction r with
  | cls p =>
    intro s c o h
    cases s with
    | nil => simp [Re.first] at h
    | cons x xs =>
      by_cases hp : p x = true <;> simp [Re.first, hp] at h
      rw [← h]
  | rep p lo hi =>
    intro s c o h
    simp only [Re.first] at h
    split at h
    · simp only [Option.some.injEq] at h; rw [← h]
    · simp at h
  | opt r ih =>
    intro s c o h
    simp only [Re.first] at h
    cases hf : r.first s c with
    | none => rw [hf] at h; simp only [Option.some.injEq] at h; rw [← h]
    | some o1 => rw [hf] at h; simp only [Option.some.injEq] at h; rw [← h]; exact ih s c o1 hf
  | seq a b iha ihb =>
    intro s c o h
    simp only [Re.first] at h
    cases hf : a.first s c with
    | none => rw [hf] at h; simp at h
    | some o1 =>
      rw [hf] at h
      rw [ihb o1.1 o1.2 o h, iha s c o1 hf]
  | alt a b iha ihb =>
    intro s c o h
    simp only [Re.first] at h
    cases hf : a.first s c with
    | none => rw [hf] at h; exact ihb s c o h
    | some o1 =>
      rw [hf] at h
      simp only [Option.some.injEq] at h
      rw [← h]
      exact iha s c o1 hf
  | cap i r ih =>
    intro s c o h
    simp only [Re.first] at h
    cases hf : r.first s c with
    | none => rw [hf] at h; simp at h
    | some o1 =>
      rw [hf] at h
      simp only [Option.map_some', Option.some.injEq] at h
      rw [← h]
      simp [ih s c o1 hf]

theorem first_getD (r : Re) : ∀ (s : Str) (c : Caps) (o : Str × Caps),
    r.first s c = some o → ∀ i, i ∉ r.groups → o.2.getD i [] = c.getD i [] := by
  induction r with
  | cls p =>
    intro s c o h i _
    cases s with
    | nil => simp [Re.first] at h
    | cons x xs =>
      by_cases hp : p x = true <;> simp [Re.first, hp] at h
      rw [← h]
  | rep p lo hi =>
    intro s c o h i _
    simp only [Re.first] at h
    split at h
    · simp only [Option.some.injEq] at h; rw [← h]
    · simp at h
  | opt r ih =>
    intro s c o h i hi
    simp only [Re.first] at h
    cases hf : r.first s c with
    | none => rw [hf] at h; simp only [Option.some.injEq] at h; rw [← h]
    | some o1 =>
      rw [hf] at h; simp only [Option.some.injEq] at h; rw [← h]
      exact ih s c o1 hf i hi
  | seq a b iha ihb =>
    intro s c o h i hi
    simp only [Re.groups, List.mem_append, not_or] at hi
    simp only [Re.first] at h
    cases hf : a.first s c with
    | none => rw [hf] at h; simp at h
    | some o1 =>
      rw [hf] at h
      rw [ihb o1.1 o1.2 o h i hi.2, iha s c o1 hf i hi.1]
  | alt a b iha ihb =>
    intro s c o h i hi
    simp only [Re.groups, List.mem_append, not_or] at hi
    simp only [Re.first] at h
    cases hf : a.first s c with
    | none => rw [hf] at h; exact ihb s c o h i hi.2
    | some o1 =>
      rw [hf] at h
      simp only [Option.some.injEq] at h
      rw [← h]
      exact iha s c o1 hf i hi.1
  | cap j r ih =>
    intro s c o h i hi
    simp only [Re.groups, List.mem_cons, not_or] at hi
    simp only [Re.first] at h
    cases hf : r.first s c with
    | none => rw [hf] at h; simp at h
    | some o1 =>
      rw [hf] at h
      simp only [Option.map_some', Option.some.injEq] at h
      rw [← h]
      simp only [List.getD_eq_getElem?_getD]
      rw [List.getElem?_set_ne (fun hh => hi.1 hh.symm)]
      simpa [List.getD_eq_getElem?_getD] using ih s c o1 hf i hi.2

theorem first_isSome_of_nullable (r : Re) : r.nullable = true →
    ∀ (s : Str) (c : Caps), (r.first s c).isSome = true := by
  induction r with
  | cls p => intro h; simp [Re.nullable] at h
  | rep p lo hi =>
    intro h s c
    simp only [Re.nullable, decide_eq_true_eq] at h
    subst h
    simp [Re.first]
  | opt r _ =>
    intro _ s c
    simp only [Re.first]
    cases r.first s c <;> simp
  | seq a b iha ihb =>
    intro h s c
    simp only [Re.nullable, Bool.and_eq_true] at h
    simp only [Re.first]
    have := iha h.1 s c
    cases hf : a.first s c with
    | none => rw [hf] at this; simp at this
    | some o => exact ihb h.2 o.1 o.2
  | alt a b iha ihb =>
    intro h s c
    simp only [Re.nullable, Bool.or_eq_true] at h
    simp only [Re.first]
    cases hf : a.first s c with
    | some o => rfl
    | none =>
      rcases h with h | h
      · have := iha h s c
        rw [hf] at this
        cases this
      · exact ihb h s c
  | cap i r ih =>
    intro h s c
    simp only [Re.nullable] at h
    simp only [Re.first]
    have := ih h s c
    cases hf : r.first s c with
    | none => rw [hf] at this; simp at this
    | some o => simp

theorem drop_length_takeWhile (p : Char → Bool) : ∀ s : Str,
    s.drop (s.takeWhile p).length = s.dropWhile p
  | [] => rfl
  | x :: xs => by
    by_cases hp : p x = true
    · simp [List.takeWhile, List.dropWhile, hp, drop_length_takeWhile p xs]
    · simp [List.takeWhile, List.dropWhile, hp]

theorem take_length_takeWhile (p : Char → Bool) : ∀ s : Str,
    s.take (s.takeWhile p).length = s.takeWhile p
  | [] => rfl
  | x :: xs => by
    by_cases hp : p x = true
    · simp [List.takeWhile, hp, take_length_takeWhile p xs]
    · simp [List.takeWhile, hp]

theorem length_takeWhile_add_dropWhile (p : Char → Bool) (s : Str) :
    (s.takeWhile p).length + (s.dropWhile p).length = s.length := by
  rw [← List.length_append, List.takeWhile_append_dropWhile]

/-- The greedy outcome of `p+`. -/
theorem first_plus (p : Char → Bool) (s : Str) (c : Caps) :
    (Re.plus p).first s c =
      if s.takeWhile p = [] then none else some (s.dropWhile p, c) := by
  simp only [Re.plus, Re.first, repMax, drop_length_takeWhile]
  by_cases h : s.takeWhile p = []
  · simp [h]
  · have : 1 ≤ (s.takeWhile p).length := by
      cases hh : s.takeWhile p with
      | nil => exact absurd hh h
      | cons _ _ => simp
    simp [h, this]

/-- The greedy outcome of a captured `p+`. -/
theorem first_cap_plus (i : Nat) (p : Char → Bool) (s : Str) (c : Caps) :
    (Re.cap i (Re.plus p)).first s c =
      if s.takeWhile p = [] then none
      else some (s.dropWhile p, c.set i (s.takeWhile p)) := by
  rw [show (Re.cap i (Re.plus p)).first s c =
    ((Re.plus p).first s c).map
      (fun o => (o.1, o.2.set i (s.take (s.length - o.1.length)))) from rfl, first_plus]
  by_cases h : s.takeWhile p = []
  · simp [h]
  · simp only [h, if_false, Option.map_some', Option.some.injEq, Prod.mk.injEq, true_and]
    congr 1
    have := length_takeWhile_add_dropWhile p s
    have h2 : s.length - (s.dropWhile p).length = (s.takeWhile p).length := by omega
    rw [h2, take_length_takeWhile]

/-! ## The matches of `reVersionParts` -/

theorem reVersionParts_linear : reVersionParts.linear = true := rfl

theorem version_matchAt_none (s : Str) (h : s.takeWhile isDigit = []) :
    reVersionParts.matchAt 10 s = none := by
  obtain ⟨T, hT⟩ : ∃ T, reVersionParts = .seq (.cap 1 (Re.plus isDigit)) T := ⟨_, rfl⟩
  rw [matchAt_eq_first _ _ _ reVersionParts_linear, hT, Re.first, Re.first, first_cap_plus]
  simp [h]

theorem version_matchAt_some (s : Str) (h : s.takeWhile isDigit ≠ []) :
    ∃ caps rest, reVersionParts.matchAt 10 s = some (caps, rest) ∧ caps.length = 11 ∧
      caps.getD 1 [] = s.takeWhile isDigit := by
  obtain ⟨T, hT, hnull, h0, h1⟩ : ∃ T, reVersionParts = .seq (.cap 1 (Re.plus isDigit)) T ∧
      T.nullable = true ∧ 0 ∉ T.groups ∧ 1 ∉ T.groups :=
    ⟨_, rfl, rfl, by decide, by decide⟩
  rw [matchAt_eq_first _ _ _ reVersionParts_linear, hT]
  have hc := first_cap_plus 1 isDigit s (List.replicate (10 + 1) [])
  rw [if_neg h] at hc
  have hsome := first_isSome_of_nullable T hnull (s.dropWhile isDigit)
    ((List.replicate (10 + 1) []).set 1 (s.takeWhile isDigit))
  cases hf : T.first (s.dropWhile isDigit)
      ((List.replicate (10 + 1) []).set 1 (s.takeWhile isDigit)) with
  | none => rw [hf] at hsome; simp at hsome
  | some o =>
    have hlen := first_length T _ _ o hf
    have hget := first_getD T _ _ o hf 1 h1
    refine ⟨o.2.set 0 (s.take (s.length - o.1.length)), o.1, ?_, ?_, ?_⟩
    · rw [Re.first, Re.first, hc]
      simp only [hf, Option.map_some']
    · simpa using hlen
    · simp only [List.getD_eq_getElem?_getD] at hget ⊢
      rw [List.getElem?_set_ne (by decide)]
      rw [hget]
      simp

theorem findAll_version_nil : ∀ s : Str, s.any isDigit = false →
    FindAllStringSubmatch reVersionParts 10 s = []
  | [], _ => findAll_nil _ _ (version_matchAt_none [] rfl)
  | x :: xs, h => by
    simp only [List.any_cons, Bool.or_eq_false_iff] at h
    rw [findAll_cons_of_none _ _ _ _ (version_matchAt_none _ (by simp [List.takeWhile, h.1]))]
    exact findAll_version_nil xs h.2

theorem findAll_version_cons : ∀ s : Str, s.any isDigit = true →
    ∃ caps tl, FindAllStringSubmatch reVersionParts 10 s = caps :: tl ∧ caps.length = 11 ∧
      caps.getD 1 [] = firstDigitRun s
  | [], h => by simp at h
  | x :: xs, h => by
    by_cases hx : isDigit x = true
    · obtain ⟨caps, rest, hm, hl, hg⟩ :=
        version_matchAt_some (x :: xs) (by simp [List.takeWhile, hx])
      obtain ⟨tl, htl⟩ := findAll_of_some _ _ _ _ _ hm
      refine ⟨caps, tl, htl, hl, ?_⟩
      rw [hg]
      simp [firstDigitRun, List.dropWhile, hx]
    · simp only [List.any_cons, hx, Bool.false_or] at h
      obtain ⟨caps, tl, htl, hl, hg⟩ := findAll_version_cons xs h
      refine ⟨caps, tl, ?_, hl, ?_⟩
      · rw [findAll_cons_of_none _ _ _ _ (version_matchAt_none _ (by simp [List.takeWhile, hx]))]
        exact htl
      · rw [hg]
        simp [firstDigitRun, List.dropWhile, hx]

/-! ## `VersionCompare` with its arguments exchanged -/

theorem versionStep_range (i : Nat) (a b : Str) (r : Int) (h : versionStep i a b = some r) :
    r = -1 ∨ r = 1 ∨ r = 2 := by
  unfold versionStep at h
  split at h
  · simp at h
  · split at h
    · split_ifs at h <;> simp at h <;> omega
    · split_ifs at h <;> simp at h <;> omega

theorem versionLoop_range : ∀ (i : Nat) (as bs : List Str),
    versionLoop i as bs = -1 ∨ versionLoop i as bs = 0 ∨ versionLoop i as bs = 1 ∨
      versionLoop i as bs = 2
  | _, [], _ => by simp [versionLoop]
  | _, _ :: _, [] => by simp [versionLoop]
  | i, a :: as, b :: bs => by
    simp only [versionLoop]
    cases h : versionStep i a b with
    | none => exact versionLoop_range (i + 1) as bs
    | some r =>
      have := versionStep_range i a b r h
      simp only
      omega

theorem VersionCompare_range (u : CaseTable) (a b : Str) :
    VersionCompare u a b = -1 ∨ VersionCompare u a b = 0 ∨ VersionCompare u a b = 1 ∨
      VersionCompare u a b = 2 := by
  unfold VersionCompare
  simp only
  split
  · simp
  · split
    · simp
    · split
      · simp
      · exact versionLoop_range _ _ _

theorem flipCmp_of_ne_two (r : Int) (h : r ≠ 2) : flipCmp r = -r := by
  simp [flipCmp, h]

/-- Exchanging the arguments of `VersionCompare` reverses the order and keeps the result 2,
as soon as one of the two (trimmed) versions has a match of the pattern. -/
theorem VersionCompare_swap (u : CaseTable) (a b : Str)
    (h : FindAllStringSubmatch reVersionParts 10 (TrimSpace a) ≠ [] ∨
      FindAllStringSubmatch reVersionParts 10 (TrimSpace b) ≠ []) :
    VersionCompare u b a = flipCmp (VersionCompare u a b) := by
  unfold VersionCompare
  by_cases he : ToLower u (TrimSpace a) = ToLower u (TrimSpace b)
  · simp [he, flipCmp]
  · have he' : ¬ ToLower u (TrimSpace b) = ToLower u (TrimSpace a) := fun h => he h.symm
    simp only [he, he', if_false]
    cases ha : FindAllStringSubmatch reVersionParts 10 (TrimSpace a) with
    | nil =>
      cases hb : FindAllStringSubmatch reVersionParts 10 (TrimSpace b) with
      | nil => simp [ha, hb] at h
      | cons q qs => simp [flipCmp]
    | cons p ps =>
      cases hb : FindAllStringSubmatch reVersionParts 10 (TrimSpace b) with
      | nil => simp [flipCmp]
      | cons q qs => exact versionLoop_swap 1 _ _

theorem VersionCompare_two_swap (u : CaseTable) (a b : Str) (h : VersionCompare u a b = 2) :
    VersionCompare u b a = 2 := by
  by_cases hm : FindAllStringSubmatch reVersionParts 10 (TrimSpace a) ≠ [] ∨
      FindAllStringSubmatch reVersionParts 10 (TrimSpace b) ≠ []
  · rw [VersionCompare_swap u a b hm, h]; rfl
  · exfalso
    simp only [not_or, not_not] at hm
    unfold VersionCompare at h
    simp only [hm.1] at h
    split at h <;> omega

/-! ## Trimming and digits -/

theorem isDigit_of_isSpace (c : Char) (h : isSpace c = true) : isDigit c = false := by
  simp only [isSpace, Bool.or_eq_true, Bool.and_eq_true, decide_eq_true_eq, beq_iff_eq] at h
  simp only [isDigit, Bool.and_eq_false_iff, decide_eq_false_iff_not]
  omega

theorem any_dropWhile_of_disjoint (p q : Char → Bool) (hpq : ∀ c, p c = true → q c = false) :
    ∀ s : Str, (s.dropWhile p).any q = s.any q
  | [] => rfl
  | x :: xs => by
    by_cases hp : p x = true
    · simp [List.dropWhile, hp, hpq x hp, any_dropWhile_of_disjoint p q hpq xs]
    · simp [List.dropWhile, hp]

theorem any_reverse_eq (q : Char → Bool) (s : Str) : s.reverse.any q = s.any q := by
  induction s with
  | nil => rfl
  | cons x xs ih => simp [List.any_append, ih, Bool.or_comm]

theorem any_isDigit_TrimSpace (s : Str) : (TrimSpace s).any isDigit = s.any isDigit := by
  unfold TrimSpace
  rw [any_reverse_eq, any_dropWhile_of_disjoint _ _ isDigit_of_isSpace, any_reverse_eq,
    any_dropWhile_of_disjoint _ _ isDigit_of_isSpace]

theorem firstDigitRun_append (sp : Str) (hsp : ∀ c ∈ sp, isDigit c = false) :
    ∀ l : Str, firstDigitRun (l ++ sp) = firstDigitRun l := by
  have hsp1 : sp.dropWhile (fun c => !isDigit c) = [] := by
    rw [List.dropWhile_eq_nil_iff]
    intro c hc
    simp [hsp c hc]
  have hsp2 : ∀ l : Str, (l ++ sp).takeWhile isDigit = l.takeWhile isDigit := by
    intro l
    induction l with
    | nil =>
      cases sp with
      | nil => rfl
      | cons y ys => simp [List.takeWhile, hsp y (by simp)]
    | cons x xs ih =>
      by_cases hx : isDigit x = true <;> simp [List.takeWhile, hx, ih]
  intro l
  induction l with
  | nil => simp [firstDigitRun, hsp1]
  | cons x xs ih =>
    by_cases hx : isDigit x = true
    · have := hsp2 (x :: xs)
      simpa [firstDigitRun, List.dropWhile, hx] using this
    · simpa [firstDigitRun, List.dropWhile, hx] using ih

theorem firstDigitRun_dropWhile_isSpace : ∀ s : Str,
    firstDigitRun (s.dropWhile isSpace) = firstDigitRun s
  | [] => rfl
  | x :: xs => by
    by_cases hx : isSpace x = true
    · have hd := isDigit_of_isSpace x hx
      simp only [List.dropWhile, hx, firstDigitRun_dropWhile_isSpace xs]
      simp [firstDigitRun, List.dropWhile, hd]
    · simp [List.dropWhile, hx]

theorem firstDigitRun_TrimSpace (s : Str) : firstDigitRun (TrimSpace s) = firstDigitRun s := by
  have key : ∀ l : Str, firstDigitRun (l.reverse.dropWhile isSpace).reverse = firstDigitRun l := by
    intro l
    have h1 := List.takeWhile_append_dropWhile isSpace l.reverse
    have h2 : l = (l.reverse.dropWhile isSpace).reverse ++ (l.reverse.takeWhile isSpace).reverse := by
      rw [← List.reverse_append, h1, List.reverse_reverse]
    conv_rhs => rw [h2]
    rw [firstDigitRun_append]
    intro c hc
    rw [List.mem_reverse] at hc
    exact isDigit_of_isSpace c (List.mem_takeWhile_imp hc)
  unfold TrimSpace
  rw [key, firstDigitRun_dropWhile_isSpace]

/-! ## The incompatible result -/

theorem versionStep_eq_two (i : Nat) (p q : Str) :
    versionStep i p q = some 2 ↔
      (¬ (p.length = 0 ∧ q.length = 0) ∧ i = 1 ∧ ∃ x y : Int, partVal p = some x ∧
        partVal q = some y ∧ 1000 < |wrapInt (y - x)|) := by
  unfold versionStep
  by_cases h0 : p.length = 0 ∧ q.length = 0
  · simp [h0]
  · rw [if_neg h0]
    cases hp : partVal p with
    | none =>
      simp only [false_and, exists_false, and_false, iff_false]
      split_ifs <;> simp
    | some x =>
      cases hq : partVal q with
      | none =>
        simp only [false_and, exists_false, and_false, iff_false]
        split_ifs <;> simp
      | some y =>
        simp only [Option.some.injEq, exists_and_left, exists_eq_left', gt_iff_lt]
        by_cases hc : i = 1 ∧ 1000 < |wrapInt (y - x)|
        · rw [if_pos hc]
          simp only [true_iff]
          exact ⟨h0, hc.1, hc.2⟩
        · rw [if_neg hc]
          have : ¬ (i = 1 ∧ 1000 < |wrapInt (y - x)|) := hc
          constructor
          · intro h
            split_ifs at h <;> simp at h
          · intro h
            exact absurd ⟨h.2.1, h.2.2⟩ hc

theorem versionLoop_ne_two : ∀ (i : Nat) (as bs : List Str), 2 ≤ i → versionLoop i as bs ≠ 2
  | _, [], _, _ => by simp [versionLoop]
  | _, _ :: _, [], _ => by simp [versionLoop]
  | i, a :: as, b :: bs, hi => by
    simp only [versionLoop]
    cases h : versionStep i a b with
    | none => exact versionLoop_ne_two (i + 1) as bs (by omega)
    | some r =>
      simp only
      intro hr
      subst hr
      have := ((versionStep_eq_two i a b).mp h).2.1
      omega

theorem Atoi_digits_range (ds : Str) (x : Int) (hd : ∀ c ∈ ds, isDigit c = true)
    (h : Atoi ds = some x) : 0 ≤ x ∧ x ≤ maxInt := by
  cases ds with
  | nil => simp [Atoi, atoiCodes] at h
  | cons c cs =>
    have hc := hd c (by simp)
    simp only [isDigit, Bool.and_eq_true, decide_eq_true_eq] at hc
    have h1 : c.toNat ≠ 43 := by omega
    have h2 : c.toNat ≠ 45 := by omega
    simp only [Atoi, atoiCodes, List.map_cons, h1, h2, if_false, atoiBody] at h
    cases hv : digitsVal 0 (c.toNat :: List.map Char.toNat cs) with
    | none => simp [hv] at h
    | some n =>
      simp only [hv, Bool.false_eq_true, if_false] at h
      split_ifs at h with hle
      simp only [Option.some.injEq] at h
      subst h
      exact ⟨by omega, hle⟩

theorem wrapInt_of_range (x y : Int) (hx : 0 ≤ x ∧ x ≤ maxInt) (hy : 0 ≤ y ∧ y ≤ maxInt) :
    wrapInt (y - x) = y - x := by
  unfold maxInt at hx hy
  unfold wrapInt
  omega

theorem firstDigitRun_digits (s : Str) : ∀ c ∈ firstDigitRun s, isDigit c = true := by
  intro c hc
  exact List.mem_takeWhile_imp hc

theorem firstDigitRun_ne_nil : ∀ s : Str, s.any isDigit = true → firstDigitRun s ≠ []
  | [], h => by simp at h
  | x :: xs, h => by
    by_cases hx : isDigit x = true
    · simp [firstDigitRun, List.dropWhile, List.takeWhile, hx]
    · simp only [List.any_cons, hx, Bool.false_or] at h
      have := firstDigitRun_ne_nil xs h
      simpa [firstDigitRun, List.dropWhile, hx] using this

theorem drop_one_of_length (caps : Caps) (h : caps.length = 11) :
    caps.drop 1 = caps.getD 1 [] :: caps.drop 2 := by
  match caps, h with
  | _ :: _ :: _, _ => rfl

/-- The generic comparison answers 2 exactly when the versions differ (ignoring case and
surrounding white space), both contain a digit, and the first runs of digits are integers
more than 1000 apart. -/
theorem VersionCompare_eq_two_iff (u : CaseTable) (a b : Str) :
    VersionCompare u a b = 2 ↔
      (ToLower u (TrimSpace a) ≠ ToLower u (TrimSpace b) ∧ a.any isDigit = true ∧
        b.any isDigit = true ∧ ∃ x y : Int, Atoi (firstDigitRun a) = some x ∧
          Atoi (firstDigitRun b) = some y ∧ 1000 < |y - x|) := by
  unfold VersionCompare
  by_cases he : ToLower u (TrimSpace a) = ToLower u (TrimSpace b)
  · simp [he]
  simp only [he, if_false, ne_eq, not_false_eq_true, true_and]
  by_cases ha : a.any isDigit = true
  swap
  · have ha' : (TrimSpace a).any isDigit = false := by
      rw [any_isDigit_TrimSpace]; simpa using ha
    rw [findAll_version_nil _ ha']
    simp [ha]
  by_cases hb : b.any isDigit = true
  swap
  · have hb' : (TrimSpace b).any isDigit = false := by
      rw [any_isDigit_TrimSpace]; simpa using hb
    rw [findAll_version_nil _ hb']
    cases FindAllStringSubmatch reVersionParts 10 (TrimSpace a) <;> simp [hb]
  obtain ⟨p, ps, hp, hpl, hp1⟩ := findAll_version_cons (TrimSpace a)
    (by rw [any_isDigit_TrimSpace]; exact ha)
  obtain ⟨q, qs, hq, hql, hq1⟩ := findAll_version_cons (TrimSpace b)
    (by rw [any_isDigit_TrimSpace]; exact hb)
  rw [firstDigitRun_TrimSpace] at hp1 hq1
  rw [hp, hq]
  simp only [ha, hb, true_and]
  rw [drop_one_of_length p hpl, drop_one_of_length q hql, hp1, hq1]
  have hna := firstDigitRun_ne_nil a ha
  have hnb := firstDigitRun_ne_nil b hb
  have hla : 0 < (firstDigitRun a).length := List.length_pos.mpr hna
  have hlb : 0 < (firstDigitRun b).length := List.length_pos.mpr hnb
  have hpa : partVal (firstDigitRun a) = Atoi (firstDigitRun a) := by simp [partVal, hla]
  have hpb : partVal (firstDigitRun b) = Atoi (firstDigitRun b) := by simp [partVal, hlb]
  simp only [versionLoop]
  constructor
  · intro h
    cases hs : versionStep 1 (firstDigitRun a) (firstDigitRun b) with
    | none =>
      rw [hs] at h
      exact absurd h (versionLoop_ne_two 2 _ _ (by decide))
    | some r =>
      rw [hs] at h
      simp only at h
      subst h
      obtain ⟨_, _, x, y, hx, hy, hxy⟩ := (versionStep_eq_two 1 _ _).mp hs
      rw [hpa] at hx
      rw [hpb] at hy
      refine ⟨x, y, hx, hy, ?_⟩
      rwa [wrapInt_of_range x y (Atoi_digits_range _ x (firstDigitRun_digits a) hx)
        (Atoi_digits_range _ y (firstDigitRun_digits b) hy)] at hxy
  · rintro ⟨x, y, hx, hy, hxy⟩
    have : versionStep 1 (firstDigitRun a) (firstDigitRun b) = some 2 := by
      rw [versionStep_eq_two]
      refine ⟨by omega, rfl, x, y, by rw [hpa, hx], by rw [hpb, hy], ?_⟩
      rwa [wrapInt_of_range x y (Atoi_digits_range _ x (firstDigitRun_digits a) hx)
        (Atoi_digits_range _ y (firstDigitRun_digits b) hy)]
    rw [this]

theorem mem_TrimSpace (s : Str) (c : Char) (h : c ∈ TrimSpace s) : c ∈ s := by
  unfold TrimSpace at h
  rw [List.mem_reverse] at h
  have h1 := (List.dropWhile_sublist isSpace).mem h
  rw [List.mem_reverse] at h1
  exact (List.dropWhile_sublist isSpace).mem h1

theorem ToLower_ascii (u : CaseTable) (s : Str) (hs : ∀ c ∈ s, c.toNat < 128) :
    ToLower u s = ToLower asciiCase s := by
  unfold ToLower
  apply List.map_congr_left
  intro c hc
  rw [u.toLower_ascii c (hs c hc)]
  rfl

/-- On ASCII text the comparison does not depend on the case table. -/
theorem VersionCompare_ascii (u : CaseTable) (a b : Str) (ha : ∀ c ∈ a, c.toNat < 128)
    (hb : ∀ c ∈ b, c.toNat < 128) :
    VersionCompare u a b = VersionCompare asciiCase a b := by
  unfold VersionCompare
  simp only
  rw [ToLower_ascii u _ (fun c hc => ha c (mem_TrimSpace a c hc)),
    ToLower_ascii u _ (fun c hc => hb c (mem_TrimSpace b c hc))]

/-! ## The claims on `VersionCompare` -/

/-- C1, as stated, fails: for the versions "a" and "b", which contain no digit, the result
is 1 in both orders, so a result in -1, 0, 1 is not the negation of the exchanged one. -/
theorem C1_VersionCompare_antisymm_counterexample :
    (VersionCompare asciiCase "a".toList "b".toList = -1 ∨
      VersionCompare asciiCase "a".toList "b".toList = 0 ∨
      VersionCompare asciiCase "a".toList "b".toList = 1) ∧
    VersionCompare asciiCase "a".toList "b".toList ≠
      - VersionCompare asciiCase "b".toList "a".toList := by
  decide

/-- C1 (amended): for all strings `a` and `b` of which at least one contains a digit, or
which are equal ignoring case and surrounding white space, if `VersionCompare a b` is
-1, 0 or 1 then `VersionCompare a b = - VersionCompare b a`. -/
theorem C1_VersionCompare_antisymm (u : CaseTable) (a b : Str)
    (hd : a.any isDigit = true ∨ b.any isDigit = true ∨
      ToLower u (TrimSpace a) = ToLower u (TrimSpace b))
    (hr : VersionCompare u a b = -1 ∨ VersionCompare u a b = 0 ∨ VersionCompare u a b = 1) :
    VersionCompare u a b = - VersionCompare u b a := by
  by_cases he : ToLower u (TrimSpace a) = ToLower u (TrimSpace b)
  · simp [VersionCompare, he]
  · have hm : FindAllStringSubmatch reVersionParts 10 (TrimSpace a) ≠ [] ∨
        FindAllStringSubmatch reVersionParts 10 (TrimSpace b) ≠ [] := by
      rcases hd with h | h | h
      · left
        obtain ⟨p, ps, hp, _⟩ := findAll_version_cons (TrimSpace a)
          (by rw [any_isDigit_TrimSpace]; exact h)
        simp [hp]
      · right
        obtain ⟨p, ps, hp, _⟩ := findAll_version_cons (TrimSpace b)
          (by rw [any_isDigit_TrimSpace]; exact h)
        simp [hp]
      · exact absurd h he
    rw [VersionCompare_swap u a b hm, flipCmp_of_ne_two _ (by omega)]
    omega

/-- Witness of C1 (amended) at the versions "1.2.3" and "1.2.4". -/
theorem C1_VersionCompare_antisymm_witness :
    VersionCompare asciiCase "1.2.3".toList "1.2.4".toList =
      - VersionCompare asciiCase "1.2.4".toList "1.2.3".toList :=
  C1_VersionCompare_antisymm asciiCase "1.2.3".toList "1.2.4".toList
    (by decide) (by decide)

/-- C2: the incompatible result is symmetric: `VersionCompare a b = 2` if and only if
`VersionCompare b a = 2`, for all strings. -/
theorem C2_VersionCompare_incompatible_symm (u : CaseTable) (a b : Str) :
    VersionCompare u a b = 2 ↔ VersionCompare u b a = 2 :=
  ⟨VersionCompare_two_swap u a b, VersionCompare_two_swap u b a⟩

/-- C4: `VersionCompare` returns 2 exactly when the two versions are not equal ignoring
case and surrounding white space, both contain a digit, their first runs of digits both
parse as integers, and these integers differ by more than 1000. A difference of exactly
1000 is still ordered (`VersionCompare "1" "1001" = 1`), and
`VersionCompare "2014" "14.1" = 2`. -/
theorem C4_VersionCompare_incompatible_iff :
    (∀ (u : CaseTable) (a b : Str), VersionCompare u a b = 2 ↔
      (ToLower u (TrimSpace a) ≠ ToLower u (TrimSpace b) ∧ a.any isDigit = true ∧
        b.any isDigit = true ∧ ∃ x y : Int, Atoi (firstDigitRun a) = some x ∧
          Atoi (firstDigitRun b) = some y ∧ 1000 < |y - x|)) ∧
    (∀ u : CaseTable, VersionCompare u "1".toList "1001".toList = 1) ∧
    (∀ u : CaseTable, VersionCompare u "2014".toList "14.1".toList = 2) :=
  ⟨VersionCompare_eq_two_iff,
   fun u => (VersionCompare_ascii u _ _ (by decide) (by decide)).trans (by decide),
   fun u => (VersionCompare_ascii u _ _ (by decide) (by decide)).trans (by decide)⟩

/-! ## Dispatch on the vendor and the Junos comparison -/

/-- C5: for every vendor other than "cisco", "adobe" and "juniper", `VersionCompareProduct`
returns `VersionCompare templateVer targetVer` when that is not 0, and otherwise the patch
comparison: 0 if the two patches are identical, 1 if the template patch is empty and the
target patch is not, `VersionCompare templatePatch targetPatch` in every remaining case. -/
theorem C5_VersionCompareProduct_default (u : CaseTable)
    (vendor product templateVer targetVer templatePatch targetPatch : Str)
    (hv : vendor ≠ "cisco".toList ∧ vendor ≠ "adobe".toList ∧ vendor ≠ "juniper".toList) :
    VersionCompareProduct u vendor product templateVer targetVer templatePatch targetPatch =
      if VersionCompare u templateVer targetVer ≠ 0 then VersionCompare u templateVer targetVer
      else if templatePatch = targetPatch then 0
      else if templatePatch = [] ∧ targetPatch ≠ [] then 1
      else VersionCompare u templatePatch targetPatch := by
  unfold VersionCompareProduct PatchCompare
  simp only [hv.1, hv.2.1, hv.2.2, if_false]
  by_cases h0 : VersionCompare u templateVer targetVer = 0
  · simp only [h0, if_true, ne_eq, not_true_eq_false, if_false]
    by_cases hp : templatePatch = targetPatch
    · simp [hp]
    · simp only [hp, if_false]
      by_cases he : templatePatch = []
      · have : targetPatch ≠ [] := fun h => hp (he.trans h.symm)
        simp [he, this]
      · simp [he]
  · simp [h0]

/-- Witness of C5: vendor "microsoft", equal versions, an empty template patch and the
target patch "sp1". -/
theorem C5_VersionCompareProduct_default_witness :
    VersionCompareProduct asciiCase "microsoft".toList "office".toList "1.0".toList
      "1.0".toList [] "sp1".toList = 1 :=
  (C5_VersionCompareProduct_default asciiCase "microsoft".toList "office".toList
    "1.0".toList "1.0".toList [] "sp1".toList (by decide)).trans (by decide)

theorem ToUpper_idem (u : CaseTable) (s : Str) : ToUpper u (ToUpper u s) = ToUpper u s := by
  simp [ToUpper, u.toUpper_idem]

theorem ParseJunosVersion_ToUpper (u : CaseTable) (s : Str) :
    ParseJunosVersion u (ToUpper u s) = ParseJunosVersion u s := by
  unfold ParseJunosVersion
  simp only [ToUpper_idem]

/-- C10: for any two Junos versions that both parse, if their Major, Minor, Type or Build
parts differ then `VersionCompareJuniperJunos` returns 2, whatever the maintenance releases,
the spins and the two patch arguments are. -/
theorem C10_VersionCompareJuniperJunos_incompatible (u : CaseTable)
    (templateVer targetVer templatePatch targetPatch : Str) (tpl tgt : junosVersion)
    (htpl : ParseJunosVersion u templateVer = (tpl, true))
    (htgt : ParseJunosVersion u targetVer = (tgt, true))
    (hne : tpl.Major ≠ tgt.Major ∨ tpl.Minor ≠ tgt.Minor ∨ tpl.Type_ ≠ tgt.Type_ ∨
      tpl.Build ≠ tgt.Build) :
    VersionCompareJuniperJunos u templateVer targetVer templatePatch targetPatch = 2 := by
  unfold VersionCompareJuniperJunos
  simp only [ParseJunosVersion_ToUpper, htpl, htgt, Bool.and_self, not_true_eq_false,
    if_false]
  unfold junosVersion.Compare
  rw [if_pos]
  rcases hne with h | h | h | h
  · left
    split_ifs <;> exact fun e => h e.symm
  · right; left
    split_ifs <;> exact fun e => h e.symm
  · right; right; left
    split_ifs <;> exact fun e => h e.symm
  · right; right; right
    split_ifs <;> exact fun e => h e.symm

/-- Witness of C10: "12.1X46-D10" against "12.1X47-D10", whose builds 46 and 47 differ. -/
theorem C10_VersionCompareJuniperJunos_incompatible_witness :
    VersionCompareJuniperJunos asciiCase "12.1X46-D10".toList "12.1X47-D10".toList
      "d5".toList "d7".toList = 2 :=
  C10_VersionCompareJuniperJunos_incompatible asciiCase "12.1X46-D10".toList
    "12.1X47-D10".toList "d5".toList "d7".toList
    { Major := "12".toList, Minor := "1".toList, Type_ := "X".toList, Build := "46".toList,
      MaintenanceRelease := "D10".toList, Spin := [] }
    { Major := "12".toList, Minor := "1".toList, Type_ := "X".toList, Build := "47".toList,
      MaintenanceRelease := "D10".toList, Spin := [] }
    (by decide) (by decide) (by decide)

/-! ## Tokenization -/

theorem tokenizeLoop_escapeToken (rest : Str) :
    ∀ (t : Str) (tokens : List Str) (runes : Str),
      tokenizeLoop ':' '\\' tokens runes false (escapeToken t ++ rest) =
        tokenizeLoop ':' '\\' tokens (runes ++ t) false rest
  | [], tokens, runes => by simp [escapeToken]
  | c :: cs, tokens, runes => by
    have ih := tokenizeLoop_escapeToken rest cs tokens (runes ++ [c])
    have hcons : escapeToken (c :: cs) =
        (if c = ':' ∨ c = '\\' then ['\\', c] else [c]) ++ escapeToken cs := by
      simp [escapeToken]
    rw [hcons]
    by_cases hc : c = ':' ∨ c = '\\'
    · rw [if_pos hc]
      simp only [List.cons_append, List.nil_append, tokenizeLoop, Bool.false_eq_true,
        if_false, if_true]
      simp only [List.append_eq, List.nil_append]
      rw [ih]
      simp
    · rw [if_neg hc]
      simp only [not_or] at hc
      simp only [List.cons_append, List.nil_append, tokenizeLoop, Bool.false_eq_true,
        if_false, hc.1, hc.2]
      simp only [List.append_eq, List.nil_append]
      rw [ih]
      simp

theorem tokenizeLoop_join : ∀ (ts : List Str) (t : Str) (tokens : List Str),
    tokenizeLoop ':' '\\' tokens [] false (joinColon ((t :: ts).map escapeToken)) =
      (tokens ++ t :: ts, false)
  | [], t, tokens => by
    have := tokenizeLoop_escapeToken [] t tokens []
    simp only [List.append_nil, List.nil_append] at this
    simp [joinColon, joinWith, this, tokenizeLoop]
  | t2 :: ts, t, tokens => by
    have h1 := tokenizeLoop_escapeToken (':' :: joinColon ((t2 :: ts).map escapeToken)) t
      tokens []
    simp only [List.nil_append] at h1
    simp only [List.map_cons, joinColon, joinWith] at h1 ⊢
    rw [h1]
    simp only [tokenizeLoop, Bool.false_eq_true, if_false, if_true]
    have h2 := tokenizeLoop_join ts t2 (tokens ++ [t])
    simp only [List.map_cons, joinColon] at h2
    rw [if_neg (by decide), h2]
    simp

/-- C8: tokenization undoes escaping: for every non-empty list of strings, writing a
backslash before each `:` and each backslash of every string and joining the results with
`:` gives a text that `tokenizeString` splits back into exactly the original list, with no
error. -/
theorem C8_tokenizeString_escape_roundtrip (ts : List Str) (h : ts ≠ []) :
    tokenizeString (joinColon (ts.map escapeToken)) ':' '\\' = (ts, false) := by
  cases ts with
  | nil => exact absurd rfl h
  | cons t ts =>
    unfold tokenizeString
    rw [tokenizeLoop_join]
    simp

/-- Witness of C8: the one-element list "archive::tar_project" is written
"archive\:\:tar_project", which stays one token. -/
theorem C8_tokenizeString_escape_roundtrip_witness :
    joinColon (["archive::tar_project".toList].map escapeToken) =
        "archive\\:\\:tar_project".toList ∧
      tokenizeString "archive\\:\\:tar_project".toList ':' '\\' =
        (["archive::tar_project".toList], false) :=
  ⟨by decide, C8_tokenizeString_escape_roundtrip ["archive::tar_project".toList] (by decide)⟩

/-! ## Percent decoding -/

set_option maxRecDepth 10000 in
theorem shl4_or_fin : ∀ a b : Fin 16,
    (UInt8.ofNat a.val <<< 4 ||| UInt8.ofNat b.val) = UInt8.ofNat (16 * a.val + b.val) := by
  decide

theorem UInt8_ofNat_toNat (x : UInt8) : UInt8.ofNat x.toNat = x := by
  cases x with
  | mk bv => simp [UInt8.ofNat, UInt8.toNat]

theorem shl4_or (x y : UInt8) (hx : x.toNat < 16) (hy : y.toNat < 16) :
    x <<< 4 ||| y = UInt8.ofNat (16 * x.toNat + y.toNat) := by
  have := shl4_or_fin ⟨x.toNat, hx⟩ ⟨y.toNat, hy⟩
  simpa [UInt8_ofNat_toNat] using this

set_option maxRecDepth 10000 in
theorem ishex_props : ∀ i : Fin 256, ishex (UInt8.ofNat i.val) = true →
    (unhex (UInt8.ofNat i.val)).toNat < 16 ∧ UInt8.ofNat i.val ≠ 37 ∧
      UInt8.ofNat i.val ≠ 92 := by
  decide

theorem ishex_spec (h : UInt8) (hh : ishex h = true) :
    (unhex h).toNat < 16 ∧ h ≠ 37 ∧ h ≠ 92 := by
  have hlt : h.toNat < 256 := by
    cases h with
    | mk bv => exact bv.isLt
  have := ishex_props ⟨h.toNat, hlt⟩
  simp only [UInt8_ofNat_toNat] at this
  exact this hh

theorem replaceAux_of_not_mem (o : UInt8) (os new : Bytes) :
    ∀ s : Bytes, o ∉ s → replaceAux (o :: os) new 0 s = s
  | [], _ => rfl
  | x :: xs, h => by
    simp only [List.mem_cons, not_or] at h
    have hx : (o == x) = false := by simpa using h.1
    simp [replaceAux, List.isPrefixOf, hx, replaceAux_of_not_mem o os new xs h.2]

theorem replaceAux_append_of_not_mem (o : UInt8) (os new rest : Bytes) :
    ∀ s : Bytes, o ∉ s →
      replaceAux (o :: os) new 0 (s ++ rest) = s ++ replaceAux (o :: os) new 0 rest
  | [], _ => rfl
  | x :: xs, h => by
    simp only [List.mem_cons, not_or] at h
    have hx : (o == x) = false := by simpa using h.1
    simp [replaceAux, List.isPrefixOf, hx, replaceAux_append_of_not_mem o os new rest xs h.2]

theorem Replace_of_not_mem (s old new : Bytes) (o : UInt8) (os : Bytes) (hold : old = o :: os)
    (h : o ∉ s) : Replace s old new = s := by
  subst hold
  exact replaceAux_of_not_mem o os new s h

/-- A pattern starting with `%` and holding a second `%` as fourth byte does not occur in
a string with a single `%`. -/
theorem Replace_single_percent (s1 s2 new : Bytes) (h1 h2 a b c d : UInt8)
    (hs1 : (37 : UInt8) ∉ s1) (hs2 : (37 : UInt8) ∉ s2) (hh1 : h1 ≠ 37) (hh2 : h2 ≠ 37) :
    Replace (s1 ++ 37 :: h1 :: h2 :: s2) [37, a, b, 37, c, d] new =
      s1 ++ 37 :: h1 :: h2 :: s2 := by
  unfold Replace
  rw [replaceAux_append_of_not_mem 37 _ new _ s1 hs1]
  have hp : List.isPrefixOf [37, a, b, 37, c, d] (37 :: h1 :: h2 :: s2) = false := by
    cases s2 with
    | nil => simp [List.isPrefixOf]
    | cons x xs =>
      simp only [List.mem_cons, not_or] at hs2
      have hx : ((37 : UInt8) == x) = false := by simpa using hs2.1
      simp [List.isPrefixOf, hx]
  have hrest : (37 : UInt8) ∉ h1 :: h2 :: s2 := by
    simp only [List.mem_cons, not_or]
    exact ⟨fun e => hh1 e.symm, fun e => hh2 e.symm, hs2⟩
  rw [replaceAux, hp]
  simp only [Bool.false_eq_true, if_false]
  rw [replaceAux_of_not_mem 37 _ new _ hrest]

theorem escapesOk_cons_ne (x : UInt8) (xs : Bytes) (hx : ¬ x = 37) :
    escapesOk (x :: xs) = escapesOk xs := by
  rcases xs with _ | ⟨h1, _ | ⟨h2, r⟩⟩ <;> simp [escapesOk, hx]

theorem unescapeBytes_cons_ne (x : UInt8) (xs : Bytes) (hx : ¬ x = 37) :
    unescapeBytes (x :: xs) = x :: unescapeBytes xs := by
  rcases xs with _ | ⟨h1, _ | ⟨h2, r⟩⟩ <;> simp [unescapeBytes, hx]

theorem escapesOk_escape (h1 h2 : UInt8) (r : Bytes) :
    escapesOk (37 :: h1 :: h2 :: r) = (ishex h1 && ishex h2 && escapesOk r) := by
  simp [escapesOk]

theorem unescapeBytes_escape (h1 h2 : UInt8) (r : Bytes) :
    unescapeBytes (37 :: h1 :: h2 :: r) = (unhex h1 <<< 4 ||| unhex h2) :: unescapeBytes r := by
  simp [unescapeBytes]
theorem escapesOk_of_not_mem : ∀ s : Bytes, (37 : UInt8) ∉ s → escapesOk s = true
  | [], _ => rfl
  | x :: xs, h => by
    simp only [List.mem_cons, not_or] at h
    have hx : ¬ x = 37 := fun e => h.1 e.symm
    rw [escapesOk_cons_ne x xs hx, escapesOk_of_not_mem xs h.2]

theorem unescapeBytes_of_not_mem : ∀ s : Bytes, (37 : UInt8) ∉ s → unescapeBytes s = s
  | [], _ => rfl
  | x :: xs, h => by
    simp only [List.mem_cons, not_or] at h
    have hx : ¬ x = 37 := fun e => h.1 e.symm
    rw [unescapeBytes_cons_ne x xs hx, unescapeBytes_of_not_mem xs h.2]

theorem escapesOk_append (rest : Bytes) : ∀ s : Bytes, (37 : UInt8) ∉ s →
    escapesOk (s ++ rest) = escapesOk rest
  | [], _ => rfl
  | x :: xs, h => by
    simp only [List.mem_cons, not_or] at h
    have hx : ¬ x = 37 := fun e => h.1 e.symm
    rw [List.cons_append, escapesOk_cons_ne x _ hx, escapesOk_append rest xs h.2]

theorem unescapeBytes_append (rest : Bytes) : ∀ s : Bytes, (37 : UInt8) ∉ s →
    unescapeBytes (s ++ rest) = s ++ unescapeBytes rest
  | [], _ => rfl
  | x :: xs, h => by
    simp only [List.mem_cons, not_or] at h
    have hx : ¬ x = 37 := fun e => h.1 e.symm
    rw [List.cons_append, unescapeBytes_cons_ne x _ hx, unescapeBytes_append rest xs h.2,
      List.cons_append]

theorem cpeDecode_patterns :
    utf8 "%5c%28".toList = [37, 53, 99, 37, 50, 56] ∧
    utf8 "%5c%29".toList = [37, 53, 99, 37, 50, 57] ∧
    utf8 "\\(".toList = [92, 40] ∧ utf8 "\\)".toList = [92, 41] := by
  decide

/-- A string without `%` and without backslash is returned unchanged. -/
theorem cpeDecode_plain (s : Bytes) (hs : (37 : UInt8) ∉ s ∧ (92 : UInt8) ∉ s) :
    cpeDecode s = s := by
  unfold cpeDecode
  by_cases h0 : s.length = 0
  · simp only [h0, if_true]
    exact (List.length_eq_zero.mp h0).symm
  · obtain ⟨p1, p2, p3, p4⟩ := cpeDecode_patterns
    simp only [h0, if_false, p1, p2, p3, p4]
    rw [Replace_of_not_mem s _ _ 37 _ rfl hs.1, Replace_of_not_mem s _ _ 37 _ rfl hs.1,
      Replace_of_not_mem s _ _ 92 _ rfl hs.2, Replace_of_not_mem s _ _ 92 _ rfl hs.2]
    simp [PathUnescape, escapesOk_of_not_mem s hs.1, unescapeBytes_of_not_mem s hs.1]

/-- A single well-formed escape between two plain strings is decoded to its byte. -/
theorem cpeDecode_escape (s1 s2 : Bytes) (h1 h2 : UInt8)
    (hs1 : (37 : UInt8) ∉ s1 ∧ (92 : UInt8) ∉ s1) (hs2 : (37 : UInt8) ∉ s2 ∧ (92 : UInt8) ∉ s2)
    (hh1 : ishex h1 = true) (hh2 : ishex h2 = true) :
    cpeDecode (s1 ++ 37 :: h1 :: h2 :: s2) =
      s1 ++ UInt8.ofNat (16 * (unhex h1).toNat + (unhex h2).toNat) :: s2 := by
  obtain ⟨hu1, hn1, hb1⟩ := ishex_spec h1 hh1
  obtain ⟨hu2, hn2, hb2⟩ := ishex_spec h2 hh2
  have hback : (92 : UInt8) ∉ s1 ++ 37 :: h1 :: h2 :: s2 := by
    simp only [List.mem_append, List.mem_cons, not_or]
    exact ⟨hs1.2, by decide, fun e => hb1 e.symm, fun e => hb2 e.symm, hs2.2⟩
  unfold cpeDecode
  obtain ⟨p1, p2, p3, p4⟩ := cpeDecode_patterns
  have h0 : ¬ (s1 ++ 37 :: h1 :: h2 :: s2).length = 0 := by simp
  simp only [h0, if_false, p1, p2, p3, p4]
  rw [Replace_single_percent s1 s2 _ h1 h2 _ _ _ _ hs1.1 hs2.1 hn1 hn2,
    Replace_single_percent s1 s2 _ h1 h2 _ _ _ _ hs1.1 hs2.1 hn1 hn2,
    Replace_of_not_mem _ _ _ 92 _ rfl hback, Replace_of_not_mem _ _ _ 92 _ rfl hback]
  simp only [PathUnescape, escapesOk_append _ s1 hs1.1, unescapeBytes_append _ s1 hs1.1,
    escapesOk_escape, unescapeBytes_escape, hh1, hh2, escapesOk_of_not_mem s2 hs2.1,
    unescapeBytes_of_not_mem s2 hs2.1, if_true, Bool.and_self]
  rw [shl4_or _ _ hu1 hu2]

/-- C9: `cpeDecode` returns unchanged every string that contains neither `%` nor a
backslash, and for such strings `s1`, `s2` and any two hex digits `h1 h2` it maps
`s1 ++ "%h1h2" ++ s2` to `s1`, the byte with hex value `h1h2`, `s2`. -/
theorem C9_cpeDecode_plain_and_escape (s1 s2 : Bytes) (h1 h2 : UInt8)
    (hs1 : (37 : UInt8) ∉ s1 ∧ (92 : UInt8) ∉ s1) (hs2 : (37 : UInt8) ∉ s2 ∧ (92 : UInt8) ∉ s2)
    (hh1 : ishex h1 = true) (hh2 : ishex h2 = true) :
    cpeDecode s1 = s1 ∧
      cpeDecode (s1 ++ 37 :: h1 :: h2 :: s2) =
        s1 ++ UInt8.ofNat (16 * (unhex h1).toNat + (unhex h2).toNat) :: s2 :=
  ⟨cpeDecode_plain s1 hs1, cpeDecode_escape s1 s2 h1 h2 hs1 hs2 hh1 hh2⟩

/-- Witness of C9: "airsdk%26_compiler" becomes "airsdk&_compiler", and the wildcards "*"
and "-" are preserved. -/
theorem C9_cpeDecode_plain_and_escape_witness :
    cpeDecode (utf8 "airsdk%26_compiler".toList) = utf8 "airsdk&_compiler".toList ∧
      cpeDecode (utf8 "*".toList) = utf8 "*".toList ∧
      cpeDecode (utf8 "-".toList) = utf8 "-".toList :=
  ⟨(C9_cpeDecode_plain_and_escape (utf8 "airsdk".toList) (utf8 "_compiler".toList) 50 54
      (by decide) (by decide) (by decide) (by decide)).2,
   (C9_cpeDecode_plain_and_escape (utf8 "*".toList) [] 50 54
      (by decide) (by decide) (by decide) (by decide)).1,
   (C9_cpeDecode_plain_and_escape (utf8 "-".toList) [] 50 54
      (by decide) (by decide) (by decide) (by decide)).1⟩

/-! ## The match of `reVersionParts` on dotted numbers -/

theorem first_opt_cap_plus (i : Nat) (p : Char → Bool) (s : Str) (c : Caps) :
    (Re.opt (Re.cap i (Re.plus p))).first s c =
      if s.takeWhile p = [] then some (s, c)
      else some (s.dropWhile p, c.set i (s.takeWhile p)) := by
  rw [Re.first, first_cap_plus]
  by_cases h : s.takeWhile p = [] <;> simp [h]

theorem first_opt_lit_nil (ch : Char) (c : Caps) :
    (Re.opt (Re.cls (lit ch))).first [] c = some ([], c) := rfl

theorem first_opt_lit_cons (ch x : Char) (xs : Str) (c : Caps) :
    (Re.opt (Re.cls (lit ch))).first (x :: xs) c =
      if x = ch then some (xs, c) else some (x :: xs, c) := by
  by_cases h : x = ch <;> simp [Re.first, lit, h]

theorem first_cap_opt_cls_nil (i : Nat) (p : Char → Bool) (c : Caps) :
    (Re.cap i (Re.opt (Re.cls p))).first [] c = some ([], c.set i []) := rfl

theorem isNumeral_ne_nil (d : Str) (h : isNumeral d = true) : d ≠ [] := by
  intro e
  subst e
  simp [isNumeral] at h

theorem isNumeral_digits (d : Str) (h : isNumeral d = true) : ∀ c ∈ d, isDigit c = true := by
  simp only [isNumeral, Bool.and_eq_true, List.all_eq_true] at h
  exact h.2

theorem takeWhile_all (p : Char → Bool) : ∀ d : Str, (∀ c ∈ d, p c = true) →
    d.takeWhile p = d
  | [], _ => rfl
  | x :: xs, h => by
    simp [List.takeWhile, h x (by simp), takeWhile_all p xs (fun c hc => h c (by simp [hc]))]

theorem dropWhile_all (p : Char → Bool) : ∀ d : Str, (∀ c ∈ d, p c = true) →
    d.dropWhile p = []
  | [], _ => rfl
  | x :: xs, h => by
    simp [List.dropWhile, h x (by simp), dropWhile_all p xs (fun c hc => h c (by simp [hc]))]

theorem takeWhile_numeral (d : Str) (h : isNumeral d = true) : d.takeWhile isDigit = d :=
  takeWhile_all _ _ (isNumeral_digits d h)

theorem dropWhile_numeral (d : Str) (h : isNumeral d = true) : d.dropWhile isDigit = [] :=
  dropWhile_all _ _ (isNumeral_digits d h)

theorem takeWhile_numeral_dot (d rest : Str) (h : isNumeral d = true) :
    (d ++ '.' :: rest).takeWhile isDigit = d := by
  rw [List.takeWhile_append_of_pos (isNumeral_digits d h)]
  simp [List.takeWhile, isDigit]

theorem dropWhile_numeral_dot (d rest : Str) (h : isNumeral d = true) :
    (d ++ '.' :: rest).dropWhile isDigit = '.' :: rest := by
  rw [List.dropWhile_append_of_pos (isNumeral_digits d h)]
  simp [List.dropWhile, isDigit]

theorem takeWhile_alpha_numeral (d rest : Str) (h : isNumeral d = true) :
    (d ++ rest).takeWhile isAlpha = [] := by
  cases d with
  | nil => simp [isNumeral] at h
  | cons x xs =>
    have hx := isNumeral_digits _ h x (by simp)
    simp only [isDigit, Bool.and_eq_true, decide_eq_true_eq] at hx
    have : isAlpha x = false := by
      simp only [isAlpha, Bool.or_eq_false_iff, Bool.and_eq_false_iff, decide_eq_false_iff_not]
      omega
    simp [List.takeWhile, this]

theorem first_seq (a b : Re) (s : Str) (c : Caps) :
    (Re.seq a b).first s c = (a.first s c).bind (fun o => b.first o.1 o.2) := by
  rw [Re.first]
  cases a.first s c <;> rfl

theorem first_cap (i : Nat) (r : Re) (s : Str) (c : Caps) :
    (Re.cap i r).first s c =
      (r.first s c).map (fun o => (o.1, o.2.set i (s.take (s.length - o.1.length)))) := rfl

/-- A captured run of digits followed by an input that does not start with a digit. -/
theorem seq_cap_digits (i : Nat) (b : Re) (d x : Str) (c : Caps) (hd : isNumeral d = true)
    (hx : x.takeWhile isDigit = []) :
    (Re.seq (Re.cap i (Re.plus isDigit)) b).first (d ++ x) c = b.first x (c.set i d) := by
  have ht : (d ++ x).takeWhile isDigit = d := by
    rw [List.takeWhile_append_of_pos (isNumeral_digits d hd), hx, List.append_nil]
  have hdrop : (d ++ x).dropWhile isDigit = x := by
    rw [List.dropWhile_append_of_pos (isNumeral_digits d hd)]
    cases x with
    | nil => rfl
    | cons y ys =>
      by_cases hy : isDigit y = true
      · simp [List.takeWhile, hy] at hx
      · simp [List.dropWhile, hy]
  rw [first_seq, first_cap_plus, ht, hdrop, if_neg (isNumeral_ne_nil d hd)]
  rfl

/-- An optional captured run of digits followed by an input that does not start with a
digit. -/
theorem seq_opt_cap_digits (i : Nat) (b : Re) (d x : Str) (c : Caps) (hd : isNumeral d = true)
    (hx : x.takeWhile isDigit = []) :
    (Re.seq (Re.opt (Re.cap i (Re.plus isDigit))) b).first (d ++ x) c =
      b.first x (c.set i d) := by
  have h := seq_cap_digits i b d x c hd hx
  rw [first_seq] at h ⊢
  rw [Re.first]
  cases hf : (Re.cap i (Re.plus isDigit)).first (d ++ x) c with
  | none =>
    rw [first_cap_plus, List.takeWhile_append_of_pos (isNumeral_digits d hd), hx,
      List.append_nil, if_neg (isNumeral_ne_nil d hd)] at hf
    cases hf
  | some o =>
    rw [hf] at h
    exact h

/-- An optional literal that is the next character. -/
theorem seq_opt_lit_hit (ch : Char) (b : Re) (x : Str) (c : Caps) :
    (Re.seq (Re.opt (Re.cls (lit ch))) b).first (ch :: x) c = b.first x c := by
  rw [first_seq, first_opt_lit_cons, if_pos rfl]
  rfl

/-- The groups between the second and the third number, on a dot followed by a number:
only the dot is consumed. -/
theorem seq_between (b : Re) (d x : Str) (c : Caps) (hd : isNumeral d = true) :
    (Re.seq (.opt (.cls (lit '('))) (.seq (.opt (.cap 3 (Re.plus isDigit)))
      (.seq (.opt (.cls (lit ')'))) (.seq (.opt (.cap 4 (Re.plus isAlpha)))
      (.seq (.opt (.cls (lit '.'))) (.seq (.opt (.cap 5 (Re.plus isAlpha))) b)))))).first
        ('.' :: (d ++ x)) c = b.first (d ++ x) c := by
  rw [first_seq, first_opt_lit_cons, if_neg (by decide), Option.some_bind]
  rw [first_seq, first_opt_cap_plus, if_pos (by rfl), Option.some_bind]
  rw [first_seq, first_opt_lit_cons, if_neg (by decide), Option.some_bind]
  rw [first_seq, first_opt_cap_plus, if_pos (by rfl), Option.some_bind]
  rw [first_seq, first_opt_lit_cons, if_pos rfl, Option.some_bind]
  rw [first_seq, first_opt_cap_plus, if_pos (takeWhile_alpha_numeral d x hd), Option.some_bind]

theorem takeWhile_isDigit_dot (x : Str) : ('.' :: x).takeWhile isDigit = [] := rfl

theorem matchAt_dotted1 (d1 : Str) (h1 : isNumeral d1 = true) :
    reVersionParts.matchAt 10 (dotted [d1]) =
      some ([dotted [d1], d1, [], [], [], [], [], [], [], [], []], []) := by
  rw [matchAt_eq_first _ _ _ reVersionParts_linear, first_cap]
  simp only [dotted, joinWith, reVersionParts, Re.cat]
  have e : d1 = d1 ++ [] := (List.append_nil d1).symm
  rw [show (Re.seq (Re.cap 1 (Re.plus isDigit)) _).first d1 _ =
    (Re.seq (Re.cap 1 (Re.plus isDigit)) _).first (d1 ++ []) _ from by rw [← e]]
  rw [seq_cap_digits 1 _ d1 [] _ h1 rfl]
  simp [Re.first, repMax, Re.plus, lit]
theorem matchAt_dotted2 (d1 d2 : Str) (h1 : isNumeral d1 = true) (h2 : isNumeral d2 = true) :
    reVersionParts.matchAt 10 (dotted [d1, d2]) =
      some ([dotted [d1, d2], d1, d2, [], [], [], [], [], [], [], []], []) := by
  rw [matchAt_eq_first _ _ _ reVersionParts_linear, first_cap]
  simp only [dotted, joinWith, reVersionParts, Re.cat]
  rw [seq_cap_digits 1 _ d1 _ _ h1 (takeWhile_isDigit_dot _), seq_opt_lit_hit]
  rw [show (Re.seq (Re.opt (Re.cap 2 (Re.plus isDigit))) _).first d2 _ =
    (Re.seq (Re.opt (Re.cap 2 (Re.plus isDigit))) _).first (d2 ++ []) _ from by
      rw [List.append_nil]]
  rw [seq_opt_cap_digits 2 _ d2 [] _ h2 rfl]
  simp [Re.first, repMax, Re.plus, lit]

theorem matchAt_dotted3 (d1 d2 d3 : Str) (h1 : isNumeral d1 = true) (h2 : isNumeral d2 = true)
    (h3 : isNumeral d3 = true) :
    reVersionParts.matchAt 10 (dotted [d1, d2, d3]) =
      some ([dotted [d1, d2, d3], d1, d2, [], [], [], d3, [], [], [], []], []) := by
  rw [matchAt_eq_first _ _ _ reVersionParts_linear, first_cap]
  simp only [dotted, joinWith, reVersionParts, Re.cat]
  rw [seq_cap_digits 1 _ d1 _ _ h1 (takeWhile_isDigit_dot _), seq_opt_lit_hit,
    seq_opt_cap_digits 2 _ d2 _ _ h2 (takeWhile_isDigit_dot _)]
  rw [show ('.' :: d3) = '.' :: (d3 ++ []) from by rw [List.append_nil]]
  rw [seq_between _ d3 [] _ h3, seq_opt_cap_digits 6 _ d3 [] _ h3 rfl]
  simp [Re.first, repMax, Re.plus, lit]

theorem matchAt_dotted4 (d1 d2 d3 d4 : Str) (h1 : isNumeral d1 = true)
    (h2 : isNumeral d2 = true) (h3 : isNumeral d3 = true) (h4 : isNumeral d4 = true) :
    reVersionParts.matchAt 10 (dotted [d1, d2, d3, d4]) =
      some ([dotted [d1, d2, d3, d4], d1, d2, [], [], [], d3, d4, [], [], []], []) := by
  rw [matchAt_eq_first _ _ _ reVersionParts_linear, first_cap]
  simp only [dotted, joinWith, reVersionParts, Re.cat]
  rw [seq_cap_digits 1 _ d1 _ _ h1 (takeWhile_isDigit_dot _), seq_opt_lit_hit,
    seq_opt_cap_digits 2 _ d2 _ _ h2 (takeWhile_isDigit_dot _),
    seq_between _ d3 _ _ h3, seq_opt_cap_digits 6 _ d3 _ _ h3 (takeWhile_isDigit_dot _),
    seq_opt_lit_hit]
  rw [show (Re.seq (Re.opt (Re.cap 7 (Re.plus isDigit))) _).first d4 _ =
    (Re.seq (Re.opt (Re.cap 7 (Re.plus isDigit))) _).first (d4 ++ []) _ from by
      rw [List.append_nil]]
  rw [seq_opt_cap_digits 7 _ d4 [] _ h4 rfl]
  simp [Re.first, repMax, Re.plus, lit]

/-! ## Comparing dotted numbers -/

theorem digitsVal_eq : ∀ (d : Str) (acc : Nat), (∀ c ∈ d, isDigit c = true) →
    digitsVal acc (d.map Char.toNat) =
      some (d.foldl (fun acc c => acc * 10 + (c.toNat - 48)) acc)
  | [], _, _ => rfl
  | x :: xs, acc, h => by
    have hx := h x (by simp)
    simp only [isDigit, Bool.and_eq_true, decide_eq_true_eq] at hx
    simp only [List.map_cons, digitsVal, hx, and_self, if_true, List.foldl_cons]
    exact digitsVal_eq xs _ (fun c hc => h c (by simp [hc]))

theorem Atoi_numeral (d : Str) (hd : isNumeral d = true) (hv : (decVal d : Int) ≤ maxInt) :
    Atoi d = some (decVal d : Int) := by
  have hdig := isNumeral_digits d hd
  cases d with
  | nil => simp [isNumeral] at hd
  | cons c cs =>
    have hc := hdig c (by simp)
    simp only [isDigit, Bool.and_eq_true, decide_eq_true_eq] at hc
    have h1 : c.toNat ≠ 43 := by omega
    have h2 : c.toNat ≠ 45 := by omega
    have hval := digitsVal_eq (c :: cs) 0 hdig
    simp only [List.map_cons] at hval
    simp only [Atoi, atoiCodes, List.map_cons, h1, h2, if_false, atoiBody, hval,
      Bool.false_eq_true]
    have hv2 : ((List.foldl (fun acc c => acc * 10 + (c.toNat - 48)) 0 (c :: cs) : Nat) : Int) ≤
        maxInt := hv
    rw [if_pos hv2]
    rfl

theorem partVal_numeral (d : Str) (h : d = [] ∨ (isNumeral d = true ∧ (decVal d : Int) ≤ maxInt)) :
    partVal d = some (decVal d : Int) := by
  rcases h with h | h
  · subst h
    rfl
  · have hne := isNumeral_ne_nil d h.1
    have : 0 < d.length := List.length_pos.mpr hne
    simp [partVal, this, Atoi_numeral d h.1 h.2]

/-- A round of the loop on two parts with known values, the first round within the
threshold. -/
theorem versionStep_vals (i : Nat) (a b : Str) (x y : Int) (ha : partVal a = some x)
    (hb : partVal b = some y) (hab : a = [] → b = [] → x = y)
    (h1 : i = 1 → |wrapInt (y - x)| ≤ 1000) :
    versionStep i a b = if y > x then some 1 else if y < x then some (-1) else none := by
  unfold versionStep
  by_cases h0 : a.length = 0 ∧ b.length = 0
  · have := hab (List.length_eq_zero.mp h0.1) (List.length_eq_zero.mp h0.2)
    subst this
    simp [h0]
  · rw [if_neg h0, ha, hb]
    simp only
    have : ¬ (i = 1 ∧ |wrapInt (y - x)| > 1000) := by
      rintro ⟨hi, hgt⟩
      have := h1 hi
      exact absurd hgt (not_lt.mpr this)
    rw [if_neg this]

theorem versionLoop_nil_step (i : Nat) (as bs : List Str) :
    versionLoop i ([] :: as) ([] :: bs) = versionLoop (i + 1) as bs := by
  simp [versionLoop, versionStep]

/-- The loop over the parts of two dotted versions is the lexicographic comparison of their
four numbers. -/
theorem versionLoop_dotted (a0 a1 a2 a3 b0 b1 b2 b3 : Str)
    (ha0 : partVal a0 = some (decVal a0 : Int)) (ha1 : partVal a1 = some (decVal a1 : Int))
    (ha2 : partVal a2 = some (decVal a2 : Int)) (ha3 : partVal a3 = some (decVal a3 : Int))
    (hb0 : partVal b0 = some (decVal b0 : Int)) (hb1 : partVal b1 = some (decVal b1 : Int))
    (hb2 : partVal b2 = some (decVal b2 : Int)) (hb3 : partVal b3 = some (decVal b3 : Int))
    (h1 : |wrapInt ((decVal b0 : Int) - decVal a0)| ≤ 1000) :
    versionLoop 1 [a0, a1, [], [], [], a2, a3, [], [], []]
        [b0, b1, [], [], [], b2, b3, [], [], []] =
      lexSign [(decVal a0 : Int), decVal a1, decVal a2, decVal a3]
        [(decVal b0 : Int), decVal b1, decVal b2, decVal b3] := by
  have e : ∀ a b : Str, a = [] → b = [] → (decVal a : Int) = decVal b := by
    intro a b ha hb
    rw [ha, hb]
  rw [versionLoop, versionStep_vals 1 a0 b0 _ _ ha0 hb0 (e a0 b0) (fun _ => h1)]
  rw [lexSign]
  by_cases c0 : (decVal b0 : Int) > decVal a0
  · simp [c0]
  by_cases c0' : (decVal b0 : Int) < decVal a0
  · simp [c0, c0']
  simp only [c0, c0', if_false]
  rw [versionLoop, versionStep_vals 2 a1 b1 _ _ ha1 hb1 (e a1 b1) (fun h => absurd h (by decide))]
  rw [lexSign]
  by_cases c1 : (decVal b1 : Int) > decVal a1
  · simp [c1]
  by_cases c1' : (decVal b1 : Int) < decVal a1
  · simp [c1, c1']
  simp only [c1, c1', if_false]
  rw [versionLoop_nil_step, versionLoop_nil_step, versionLoop_nil_step]
  rw [versionLoop, versionStep_vals _ a2 b2 _ _ ha2 hb2 (e a2 b2) (fun h => absurd h (by decide))]
  rw [lexSign]
  by_cases c2 : (decVal b2 : Int) > decVal a2
  · simp [c2]
  by_cases c2' : (decVal b2 : Int) < decVal a2
  · simp [c2, c2']
  simp only [c2, c2', if_false]
  rw [versionLoop, versionStep_vals _ a3 b3 _ _ ha3 hb3 (e a3 b3) (fun h => absurd h (by decide))]
  rw [lexSign]
  by_cases c3 : (decVal b3 : Int) > decVal a3
  · simp [c3]
  by_cases c3' : (decVal b3 : Int) < decVal a3
  · simp [c3, c3']
  simp only [c3, c3', if_false]
  rw [versionLoop_nil_step, versionLoop_nil_step, versionLoop_nil_step]
  simp [versionLoop, lexSign]

theorem mem_joinWith (sep c : Char) : ∀ ns : List Str, c ∈ joinWith sep ns →
    c = sep ∨ ∃ d ∈ ns, c ∈ d
  | [], h => by simp [joinWith] at h
  | [t], h => by
    simp only [joinWith] at h
    exact Or.inr ⟨t, by simp, h⟩
  | t :: t2 :: ts, h => by
    simp only [joinWith, List.mem_append, List.mem_cons] at h
    rcases h with h | h | h
    · exact Or.inr ⟨t, by simp, h⟩
    · exact Or.inl h
    · rcases mem_joinWith sep c (t2 :: ts) h with h' | ⟨d, hd, hc⟩
      · exact Or.inl h'
      · exact Or.inr ⟨d, List.mem_cons_of_mem _ hd, hc⟩

theorem dotted_chars (ns : List Str) (hn : ∀ d ∈ ns, isNumeral d = true) :
    ∀ c ∈ dotted ns, 46 ≤ c.toNat ∧ c.toNat ≤ 57 := by
  intro c hc
  rcases mem_joinWith '.' c ns hc with h | ⟨d, hd, hcd⟩
  · subst h
    decide
  · have := isNumeral_digits d (hn d hd) c hcd
    simp only [isDigit, Bool.and_eq_true, decide_eq_true_eq] at this
    omega

theorem dropWhile_none (p : Char → Bool) : ∀ s : Str, (∀ c ∈ s, p c = false) →
    s.dropWhile p = s
  | [], _ => rfl
  | x :: xs, h => by simp [List.dropWhile, h x (by simp)]

theorem TrimSpace_of_no_space (s : Str) (h : ∀ c ∈ s, isSpace c = false) : TrimSpace s = s := by
  unfold TrimSpace
  rw [dropWhile_none isSpace s h, dropWhile_none isSpace s.reverse (by simpa using h),
    List.reverse_reverse]

theorem TrimSpace_dotted (ns : List Str) (hn : ∀ d ∈ ns, isNumeral d = true) :
    TrimSpace (dotted ns) = dotted ns := by
  apply TrimSpace_of_no_space
  intro c hc
  have := dotted_chars ns hn c hc
  simp only [isSpace, Bool.or_eq_false_iff, Bool.and_eq_false_iff, decide_eq_false_iff_not,
    beq_eq_false_iff_ne, ne_eq]
  omega

theorem ToLower_dotted (u : CaseTable) (ns : List Str) (hn : ∀ d ∈ ns, isNumeral d = true) :
    ToLower u (dotted ns) = dotted ns := by
  unfold ToLower
  conv_rhs => rw [← List.map_id (dotted ns)]
  apply List.map_congr_left
  intro c hc
  have h := dotted_chars ns hn c hc
  rw [u.toLower_ascii c (by omega)]
  simp only [Char.toLower, id]
  split
  · rename_i h3
    have := h3.1
    omega
  · rfl

/-- The submatches of a version of one to four dotted numbers: the numbers land in the
groups 1, 2, 6 and 7, whatever their count. -/
theorem dotted_parts (ns : List Str) (hl : 1 ≤ ns.length ∧ ns.length ≤ 4)
    (hn : ∀ d ∈ ns, isNumeral d = true ∧ (decVal d : Int) ≤ maxInt) :
    ∃ g0 g1 g2 g3 : Str,
      reVersionParts.matchAt 10 (dotted ns) =
        some ([dotted ns, g0, g1, [], [], [], g2, g3, [], [], []], []) ∧
      pad4 (ns.map (fun d => (decVal d : Int))) =
        [(decVal g0 : Int), decVal g1, decVal g2, decVal g3] ∧
      partVal g0 = some (decVal g0 : Int) ∧ partVal g1 = some (decVal g1 : Int) ∧
      partVal g2 = some (decVal g2 : Int) ∧ partVal g3 = some (decVal g3 : Int) ∧
      g0 = ns.headD [] ∧ isNumeral g0 = true ∧ (decVal g0 : Int) ≤ maxInt := by
  match ns, hl, hn with
  | [d1], _, hn =>
    have h1 := hn d1 (by simp)
    exact ⟨d1, [], [], [], matchAt_dotted1 d1 h1.1, rfl, partVal_numeral _ (Or.inr h1),
      rfl, rfl, rfl, rfl, h1.1, h1.2⟩
  | [d1, d2], _, hn =>
    have h1 := hn d1 (by simp)
    have h2 := hn d2 (by simp)
    exact ⟨d1, d2, [], [], matchAt_dotted2 d1 d2 h1.1 h2.1, rfl,
      partVal_numeral _ (Or.inr h1), partVal_numeral _ (Or.inr h2), rfl, rfl, rfl, h1.1, h1.2⟩
  | [d1, d2, d3], _, hn =>
    have h1 := hn d1 (by simp)
    have h2 := hn d2 (by simp)
    have h3 := hn d3 (by simp)
    exact ⟨d1, d2, d3, [], matchAt_dotted3 d1 d2 d3 h1.1 h2.1 h3.1, rfl,
      partVal_numeral _ (Or.inr h1), partVal_numeral _ (Or.inr h2),
      partVal_numeral _ (Or.inr h3), rfl, rfl, h1.1, h1.2⟩
  | [d1, d2, d3, d4], _, hn =>
    have h1 := hn d1 (by simp)
    have h2 := hn d2 (by simp)
    have h3 := hn d3 (by simp)
    have h4 := hn d4 (by simp)
    exact ⟨d1, d2, d3, d4, matchAt_dotted4 d1 d2 d3 d4 h1.1 h2.1 h3.1 h4.1, rfl,
      partVal_numeral _ (Or.inr h1), partVal_numeral _ (Or.inr h2),
      partVal_numeral _ (Or.inr h3), partVal_numeral _ (Or.inr h4), rfl, h1.1, h1.2⟩

theorem lexSign_self : ∀ xs : List Int, lexSign xs xs = 0
  | [] => rfl
  | x :: xs => by simp [lexSign, lexSign_self xs]

/-- C3: for versions written as one to four dot-separated decimal numbers, each small
enough to parse as an integer, whose first numbers differ by at most 1000,
`VersionCompare template target` is the sign of the lexicographic comparison of the target's
number sequence against the template's, a missing trailing number counting as 0. -/
theorem C3_VersionCompare_dotted (u : CaseTable) (tpl tgt : List Str)
    (htl : 1 ≤ tpl.length ∧ tpl.length ≤ 4) (hgl : 1 ≤ tgt.length ∧ tgt.length ≤ 4)
    (htn : ∀ d ∈ tpl, isNumeral d = true ∧ (decVal d : Int) ≤ maxInt)
    (hgn : ∀ d ∈ tgt, isNumeral d = true ∧ (decVal d : Int) ≤ maxInt)
    (hfirst : |(decVal (tgt.headD []) : Int) - (decVal (tpl.headD []) : Int)| ≤ 1000) :
    VersionCompare u (dotted tpl) (dotted tgt) =
      lexSign (pad4 (tpl.map (fun d => (decVal d : Int))))
        (pad4 (tgt.map (fun d => (decVal d : Int)))) := by
  obtain ⟨a0, a1, a2, a3, hma, hpa, ha0, ha1, ha2, ha3, hah, han, hav⟩ := dotted_parts tpl htl htn
  obtain ⟨b0, b1, b2, b3, hmb, hpb, hb0, hb1, hb2, hb3, hbh, hbn, hbv⟩ := dotted_parts tgt hgl hgn
  rw [hpa, hpb]
  unfold VersionCompare
  simp only [TrimSpace_dotted tpl (fun d hd => (htn d hd).1),
    TrimSpace_dotted tgt (fun d hd => (hgn d hd).1),
    ToLower_dotted u tpl (fun d hd => (htn d hd).1),
    ToLower_dotted u tgt (fun d hd => (hgn d hd).1)]
  by_cases he : dotted tpl = dotted tgt
  · rw [if_pos he]
    rw [he, hmb] at hma
    simp only [Option.some.injEq, Prod.mk.injEq, List.cons.injEq, and_true, true_and] at hma
    obtain ⟨e0, e1, e2, e3⟩ := hma
    subst e0 e1 e2 e3
    exact (lexSign_self _).symm
  · rw [if_neg he]
    obtain ⟨tla, hfa⟩ := findAll_of_some _ _ _ _ _ hma
    obtain ⟨tlb, hfb⟩ := findAll_of_some _ _ _ _ _ hmb
    rw [hfa, hfb]
    simp only [List.drop_succ_cons, List.drop_zero]
    apply versionLoop_dotted a0 a1 a2 a3 b0 b1 b2 b3 ha0 ha1 ha2 ha3 hb0 hb1 hb2 hb3
    rw [wrapInt_of_range _ _ ⟨by omega, hav⟩ ⟨by omega, hbv⟩, hah, hbh]
    exact hfirst

/-- Witness of C3: `VersionCompare "1.2.3" "1.2.4" = 1`. -/
theorem C3_VersionCompare_dotted_witness :
    dotted ["1".toList, "2".toList, "3".toList] = "1.2.3".toList ∧
    dotted ["1".toList, "2".toList, "4".toList] = "1.2.4".toList ∧
    VersionCompare asciiCase "1.2.3".toList "1.2.4".toList = 1 :=
  ⟨by decide, by decide,
   (C3_VersionCompare_dotted asciiCase ["1".toList, "2".toList, "3".toList]
      ["1".toList, "2".toList, "4".toList] (by decide) (by decide) (by decide) (by decide)
      (by decide)).trans (by decide)⟩

/-! ## Target software -/

theorem toLower_toLower_ascii (u : CaseTable) (c : Char) (hc : c.toNat < 128) :
    u.toLower (u.toLower c) = u.toLower c ∧ (u.toLower c).toNat < 128 := by
  rw [u.toLower_ascii c hc]
  have key : c.toLower.toNat < 128 ∧ c.toLower.toLower = c.toLower := by
    simp only [Char.toLower]
    split
    · rename_i h
      have hv : (c.toNat + 32).isValidChar := by
        left
        omega
      have h3 : (Char.ofNat (c.toNat + 32)).toNat = c.toNat + 32 := by
        unfold Char.ofNat
        rw [dif_pos hv]
        simp [Char.ofNatAux, Char.toNat, UInt32.toNat]
      refine ⟨by omega, ?_⟩
      rw [if_neg]
      rw [h3]
      have := h.1
      omega
    · exact ⟨hc, rfl⟩
  rw [u.toLower_ascii _ key.1]
  exact ⟨key.2, key.1⟩

theorem ToLower_ToLower_ascii (u : CaseTable) (s : Str) (hs : ∀ c ∈ s, c.toNat < 128) :
    ToLower u (ToLower u s) = ToLower u s := by
  unfold ToLower
  rw [List.map_map]
  apply List.map_congr_left
  intro c hc
  exact (toLower_toLower_ascii u c (hs c hc)).1

theorem normalizeSWTarget_eq (u : CaseTable) (s : Str) :
    normalizeSWTarget u s =
      if ToLower u s ∈ macTargets then "mac_os_x".toList
      else if ToLower u s ∈ iosTargets then "ios".toList
      else ToLower u s := by
  unfold normalizeSWTarget macTargets iosTargets
  simp only [List.mem_cons, List.mem_singleton, List.not_mem_nil, or_false]

theorem ToLower_normalizeSWTarget (u : CaseTable) (s : Str) (hs : ∀ c ∈ s, c.toNat < 128) :
    ToLower u (normalizeSWTarget u s) = normalizeSWTarget u s := by
  rw [normalizeSWTarget_eq]
  split
  · rw [ToLower_ascii u _ (by decide)]
    decide
  · split
    · rw [ToLower_ascii u _ (by decide)]
      decide
    · exact ToLower_ToLower_ascii u s hs

theorem normalize_eq_iff (L M : Str) :
    ((if L ∈ macTargets then "mac_os_x".toList else if L ∈ iosTargets then "ios".toList else L) =
      (if M ∈ macTargets then "mac_os_x".toList else if M ∈ iosTargets then "ios".toList
        else M)) ↔
      (L = M ∨ (L ∈ macTargets ∧ M ∈ macTargets) ∨ (L ∈ iosTargets ∧ M ∈ iosTargets)) := by
  have hmm : "mac_os_x".toList ∈ macTargets := by decide
  have hmi : "mac_os_x".toList ∉ iosTargets := by decide
  have him : "ios".toList ∉ macTargets := by decide
  have hii : "ios".toList ∈ iosTargets := by decide
  have hdis : ∀ x : Str, x ∈ macTargets → x ∉ iosTargets := by
    intro x hx
    simp only [macTargets, List.mem_cons, List.mem_singleton, List.not_mem_nil, or_false] at hx
    rcases hx with h | h | h <;> subst h <;> decide
  by_cases h1 : L ∈ macTargets <;> by_cases h2 : M ∈ macTargets <;>
    by_cases h3 : L ∈ iosTargets <;> by_cases h4 : M ∈ iosTargets <;>
    simp only [h1, h2, h3, h4, if_true, if_false, true_and, and_true, false_and, and_false,
      or_false, false_or, or_true, true_or, iff_true]
  all_goals first
    | exact absurd h3 (hdis _ h1)
    | exact absurd h4 (hdis _ h2)
    | decide
    | skip
  all_goals
    constructor <;> intro h <;> first
      | exact absurd h (by decide)
      | (subst h; contradiction)

/-- C16: for every template `t`, `matchSWTarget(t, "")` is true if and only if `len(t) < 2`,
the length counted in bytes. -/
theorem C16_matchSWTarget_empty_target (u : CaseTable) (t : Str) :
    matchSWTarget u t [] = true ↔ (utf8 t).length < 2 := by
  unfold matchSWTarget
  by_cases h : (utf8 t).length < 2
  · simp [h]
  · simp only [h, if_false, decide_eq_true_eq, iff_false]
    have hn : normalizeSWTarget u [] = [] := by
      rw [normalizeSWTarget_eq]
      have h0 : ToLower u [] = [] := rfl
      rw [h0]
      decide
    rw [hn]
    have ht : t ≠ [] := by
      rintro rfl
      exact h (by decide)
    intro he
    have hl := congrArg List.length he
    rw [normalizeSWTarget_eq] at hl
    simp only [ToLower, List.length_map, List.length_nil] at hl
    split at hl
    · simp at hl
    · split at hl
      · simp at hl
      · rw [List.length_map] at hl
        exact ht (List.length_eq_zero.mp hl)

/-- C17: for an ASCII template `t` of at least two bytes and an ASCII target `g`,
`matchSWTarget(t, g)` is true exactly when the lower-cased `t` and `g` are equal, or both are
among mac, mac_os, mac_os_x, or both are among ios, ipad, iphone_os, ipod_touch. -/
theorem C17_matchSWTarget_classes (u : CaseTable) (t g : Str)
    (hlen : 2 ≤ (utf8 t).length) (ht : ∀ c ∈ t, c.toNat < 128) (hg : ∀ c ∈ g, c.toNat < 128) :
    matchSWTarget u t g = true ↔
      (ToLower u t = ToLower u g ∨
        (ToLower u t ∈ macTargets ∧ ToLower u g ∈ macTargets) ∨
        (ToLower u t ∈ iosTargets ∧ ToLower u g ∈ iosTargets)) := by
  unfold matchSWTarget
  rw [if_neg (by omega)]
  simp only [decide_eq_true_eq]
  rw [ToLower_normalizeSWTarget u t ht, ToLower_normalizeSWTarget u g hg,
    normalizeSWTarget_eq, normalizeSWTarget_eq]
  exact normalize_eq_iff _ _

/-- C17 on the targets of the tests: the template "ios" matches the targets "ios" and
"iphone_os", and does not match "windows", "miggi" or the empty target. -/
theorem C17_matchSWTarget_classes_witness :
    matchSWTarget asciiCase "ios".toList "ios".toList = true ∧
    matchSWTarget asciiCase "ios".toList "iphone_os".toList = true ∧
    matchSWTarget asciiCase "ios".toList "windows".toList = false ∧
    matchSWTarget asciiCase "ios".toList "miggi".toList = false ∧
    matchSWTarget asciiCase "ios".toList [] = false :=
  ⟨(C17_matchSWTarget_classes asciiCase "ios".toList "ios".toList (by decide) (by decide)
      (by decide)).mpr (by decide),
   (C17_matchSWTarget_classes asciiCase "ios".toList "iphone_os".toList (by decide) (by decide)
      (by decide)).mpr (by decide),
   by decide, by decide, by decide⟩

/-! ## The values of the comparators -/

theorem iosLoop_range (n : Nat) : ∀ (as bs : List Str),
    iosLoop n as bs = -1 ∨ iosLoop n as bs = 0 ∨ iosLoop n as bs = 1 ∨ iosLoop n as bs = 2
  | [], _ => by simp [iosLoop]
  | _ :: _, [] => by simp [iosLoop]
  | a :: as, b :: bs => by
    simp only [iosLoop]
    cases h : iosStep n a b with
    | none => exact iosLoop_range n as bs
    | some r =>
      simp only
      unfold iosStep at h
      split at h
      · simp at h
      · split at h <;> split_ifs at h <;> simp at h <;> omega

theorem junosLoop_range (n : Nat) : ∀ (as bs : List Bytes),
    junosLoop n as bs = -1 ∨ junosLoop n as bs = 0 ∨ junosLoop n as bs = 1 ∨
      junosLoop n as bs = 2
  | [], _ => by simp [junosLoop]
  | _ :: _, [] => by simp [junosLoop]
  | a :: as, b :: bs => by
    simp only [junosLoop]
    cases h : junosStep n a b with
    | none => exact junosLoop_range n as bs
    | some r =>
      simp only
      unfold junosStep at h
      split at h
      · simp at h
      · split at h <;> split_ifs at h <;> simp at h <;> omega

theorem asaLoop_range (u : CaseTable) : ∀ (as bs : List Str),
    asaLoop u as bs = -1 ∨ asaLoop u as bs = 0 ∨ asaLoop u as bs = 1 ∨ asaLoop u as bs = 2
  | [], _ => by simp [asaLoop]
  | _ :: _, [] => by simp [asaLoop]
  | a :: as, b :: bs => by
    simp only [asaLoop]
    split_ifs
    · exact asaLoop_range u as bs
    · exact VersionCompare_range u b a
    · exact asaLoop_range u as bs

theorem ciscoIosVersion_Compare_range (v w : ciscoIosVersion) :
    v.Compare w = -1 ∨ v.Compare w = 0 ∨ v.Compare w = 1 ∨ v.Compare w = 2 := by
  unfold ciscoIosVersion.Compare
  split
  · exact Or.inr (Or.inr (Or.inr rfl))
  · exact iosLoop_range _ _ _

theorem VersionCompareCiscoIOS_range (a b : Str) :
    VersionCompareCiscoIOS a b = -1 ∨ VersionCompareCiscoIOS a b = 0 ∨
      VersionCompareCiscoIOS a b = 1 ∨ VersionCompareCiscoIOS a b = 2 := by
  unfold VersionCompareCiscoIOS
  simp only
  split
  · exact ciscoIosVersion_Compare_range _ _
  · split
    · exact ciscoIosVersion_Compare_range _ _
    · exact Or.inr (Or.inr (Or.inr rfl))

theorem VersionCompareCiscoASA_range (u : CaseTable) (a b : Str) :
    VersionCompareCiscoASA u a b = -1 ∨ VersionCompareCiscoASA u a b = 0 ∨
      VersionCompareCiscoASA u a b = 1 ∨ VersionCompareCiscoASA u a b = 2 := by
  unfold VersionCompareCiscoASA ciscoASAVersion.Compare
  split
  · exact VersionCompare_range u a b
  · split
    · exact VersionCompare_range u a b
    · exact asaLoop_range u _ _

theorem VersionCompareAdobe_range (u : CaseTable) (p a b : Str) :
    VersionCompareAdobe u p a b = -1 ∨ VersionCompareAdobe u p a b = 0 ∨
      VersionCompareAdobe u p a b = 1 ∨ VersionCompareAdobe u p a b = 2 := by
  unfold VersionCompareAdobe
  simp only
  split
  · exact VersionCompare_range u a b
  · split
    · exact VersionCompare_range u a b
    · split
      · exact VersionCompare_range u a b
      · split
        · exact VersionCompare_range u a b
        · split_ifs
          all_goals first
            | exact VersionCompare_range u _ _
            | exact Or.inr (Or.inr (Or.inr (by rfl)))

theorem junosVersion_Compare_range (v w : junosVersion) :
    v.Compare w = -1 ∨ v.Compare w = 0 ∨ v.Compare w = 1 ∨ v.Compare w = 2 := by
  unfold junosVersion.Compare
  split
  · exact Or.inr (Or.inr (Or.inr rfl))
  · exact junosLoop_range _ _ _

theorem VersionCompareJuniperJunos_range (u : CaseTable) (a b p q : Str) :
    VersionCompareJuniperJunos u a b p q = -1 ∨ VersionCompareJuniperJunos u a b p q = 0 ∨
      VersionCompareJuniperJunos u a b p q = 1 ∨ VersionCompareJuniperJunos u a b p q = 2 := by
  unfold VersionCompareJuniperJunos
  simp only
  split
  · exact Or.inr (Or.inr (Or.inr rfl))
  · exact junosVersion_Compare_range _ _

/-- Every comparison of `VersionCompareProduct` results in -1, 0, 1 or 2. -/
theorem VersionCompareProduct_range (u : CaseTable) (vendor product a b p q : Str) :
    VersionCompareProduct u vendor product a b p q = -1 ∨
      VersionCompareProduct u vendor product a b p q = 0 ∨
      VersionCompareProduct u vendor product a b p q = 1 ∨
      VersionCompareProduct u vendor product a b p q = 2 := by
  unfold VersionCompareProduct VersionCompareCisco PatchCompare
  simp only
  split
  · split
    · exact VersionCompareCiscoIOS_range _ _
    · split
      · exact VersionCompareCiscoASA_range _ _ _
      · exact VersionCompare_range _ _ _
  · split
    · exact VersionCompareAdobe_range _ _ _ _
    · split
      · exact VersionCompareJuniperJunos_range _ _ _ _ _
      · split
        · split
          · exact Or.inr (Or.inl rfl)
          · split
            · exact Or.inr (Or.inr (Or.inl rfl))
            · exact VersionCompare_range _ _ _
        · exact VersionCompare_range _ _ _

/-! ## The version decision of `MatchCVEs` -/

theorem itemMatches_range (u : CaseTable) (vendorName productName : Str)
    (item : vulndbProductItem) (version patch : Str)
    (hv : item.Version = none ∨ item.Version = some [] ∨ item.Version = some "*".toList) :
    itemMatches u vendorName productName item version patch =
      rangeMatches u vendorName productName item version patch := by
  unfold itemMatches
  rcases hv with h | h | h <;> rw [h] <;> simp

/-- C18: in the version decision of `MatchCVEs`, a product item whose version is absent,
empty or "*" and that has neither `version_end_including` nor `version_end_excluding` does
not match, for every vendor, product, target version and patch and whatever its start bounds
are. -/
theorem C18_itemMatches_no_end_bound (u : CaseTable) (vendorName productName : Str)
    (item : vulndbProductItem) (version patch : Str)
    (hv : item.Version = none ∨ item.Version = some [] ∨ item.Version = some "*".toList)
    (hei : item.VersionEndIncluding = none) (hee : item.VersionEndExcluding = none) :
    itemMatches u vendorName productName item version patch = false := by
  rw [itemMatches_range u vendorName productName item version patch hv]
  unfold rangeMatches
  simp only [hei, hee]
  simp

/-- C18 on an example: an item with the start bound 1.0 alone does not match version 1.5. -/
theorem C18_itemMatches_no_end_bound_witness :
    itemMatches asciiCase "microsoft".toList "office".toList exampleOpenItem "1.5".toList
      [] = false :=
  C18_itemMatches_no_end_bound asciiCase "microsoft".toList "office".toList exampleOpenItem
    "1.5".toList [] (by decide) (by decide) (by decide)

/-- C19: in the version decision of `MatchCVEs`, a range item (version absent, empty or "*")
matches if and only if its start test and its end test both pass, where `r(bound)` is
`boundCmp`: the start test passes when there is no start bound, or `r(startIncluding)` is 0 or
1, or there is no `startIncluding` and `r(startExcluding)` is 1; the end test passes when
`r(endIncluding)` is 0 or -1, or there is no `endIncluding` and `r(endExcluding)` is -1.
Moreover the item does not match when the result for a bound that is consulted is 2. -/
theorem C19_itemMatches_range_iff (u : CaseTable) (vendorName productName : Str)
    (item : vulndbProductItem) (version patch : Str)
    (hv : item.Version = none ∨ item.Version = some [] ∨ item.Version = some "*".toList) :
    (itemMatches u vendorName productName item version patch = true ↔
      ((item.VersionStartIncluding = none ∧ item.VersionStartExcluding = none) ∨
        (∃ b, item.VersionStartIncluding = some b ∧
          (boundCmp u vendorName productName item version patch b = 0 ∨
            boundCmp u vendorName productName item version patch b = 1)) ∨
        (item.VersionStartIncluding = none ∧ ∃ b, item.VersionStartExcluding = some b ∧
          boundCmp u vendorName productName item version patch b = 1)) ∧
      ((∃ b, item.VersionEndIncluding = some b ∧
          (boundCmp u vendorName productName item version patch b = 0 ∨
            boundCmp u vendorName productName item version patch b = -1)) ∨
        (item.VersionEndIncluding = none ∧ ∃ b, item.VersionEndExcluding = some b ∧
          boundCmp u vendorName productName item version patch b = -1))) ∧
    (∀ b, (item.VersionStartIncluding = some b ∨
          (item.VersionStartIncluding = none ∧ item.VersionStartExcluding = some b) ∨
          item.VersionEndIncluding = some b ∨
          (item.VersionEndIncluding = none ∧ item.VersionEndExcluding = some b)) →
        boundCmp u vendorName productName item version patch b = 2 →
        itemMatches u vendorName productName item version patch = false) := by
  rw [itemMatches_range u vendorName productName item version patch hv]
  unfold rangeMatches boundCmp
  have hr := fun b => VersionCompareProduct_range u vendorName productName b version item.Patch
    patch
  rcases hsi : item.VersionStartIncluding with _ | si <;>
    rcases hse : item.VersionStartExcluding with _ | se <;>
    rcases hei : item.VersionEndIncluding with _ | ei <;>
    rcases hee : item.VersionEndExcluding with _ | ee <;>
    simp
  all_goals
    try have hsi2 := hr si
    try have hse2 := hr se
    try have hei2 := hr ei
    try have hee2 := hr ee
    first
      | omega
      | (refine ⟨by omega, ?_⟩
         intro b hb
         rcases hb with rfl | rfl <;> omega)

/-- C19 on an example: the range from 1.0 included to 2.0 excluded matches version 1.5 and
does not match version 2.0. -/
theorem C19_itemMatches_range_iff_witness :
    itemMatches asciiCase "microsoft".toList "office".toList exampleRangeItem "1.5".toList
        [] = true ∧
      itemMatches asciiCase "microsoft".toList "office".toList exampleRangeItem "2.0".toList
        [] = false :=
  ⟨(C19_itemMatches_range_iff asciiCase "microsoft".toList "office".toList exampleRangeItem
      "1.5".toList [] (by decide)).1.mpr
      ⟨Or.inr (Or.inl ⟨"1.0".toList, rfl, Or.inr (by decide)⟩),
        Or.inr ⟨rfl, "2.0".toList, rfl, by decide⟩⟩,
    by decide⟩

/-! ## Sorting by insertion -/

theorem codesLt_negtrans : ∀ a b c : List Nat,
    codesLt a b = false → codesLt b c = false → codesLt a c = false
  | _, _, [], _, _ => by simp [codesLt]
  | _, [], _ :: _, _, h2 => by simp [codesLt] at h2
  | [], _ :: _, _ :: _, h1, _ => by simp [codesLt] at h1
  | x :: xs, y :: ys, z :: zs, h1, h2 => by
    simp only [codesLt, Bool.or_eq_false_iff, Bool.and_eq_false_iff,
      decide_eq_false_iff_not] at h1 h2 ⊢
    refine ⟨by omega, ?_⟩
    by_cases hxz : x = z
    · right
      have hxy : x = y := by omega
      have hyz : y = z := by omega
      rcases h1.2 with h | h
      · exact absurd hxy h
      · rcases h2.2 with h' | h'
        · exact absurd hyz h'
        · exact codesLt_negtrans xs ys zs h h'
    · left
      exact hxz

theorem strLt_negtrans (a b c : Str) (h1 : strLt a b = false) (h2 : strLt b c = false) :
    strLt a c = false :=
  codesLt_negtrans _ _ _ h1 h2

theorem mem_insertionStep {α : Type} (less : α → α → Bool) (x z : α) :
    ∀ l : List α, z ∈ insertionStep less x l ↔ z = x ∨ z ∈ l
  | [] => by simp [insertionStep]
  | y :: ys => by
    unfold insertionStep
    split
    · rw [List.mem_cons, mem_insertionStep less x z ys, List.mem_cons]
      tauto
    · simp only [List.mem_cons]

theorem length_insertionStep {α : Type} (less : α → α → Bool) (x : α) :
    ∀ l : List α, (insertionStep less x l).length = l.length + 1
  | [] => rfl
  | y :: ys => by
    unfold insertionStep
    split
    · simp [length_insertionStep less x ys]
    · simp

theorem pairwise_insertionStep {α : Type} (less : α → α → Bool)
    (hasym : ∀ a b, less a b = true → less b a = false)
    (hneg : ∀ a b c, less a b = false → less b c = false → less a c = false) (x : α) :
    ∀ l : List α, l.Pairwise (fun a b => less a b = false) →
      (insertionStep less x l).Pairwise (fun a b => less a b = false)
  | [], _ => by simp [insertionStep]
  | y :: ys, h => by
    unfold insertionStep
    rw [List.pairwise_cons] at h
    split
    · rename_i hxy
      rw [List.pairwise_cons]
      refine ⟨?_, pairwise_insertionStep less hasym hneg x ys h.2⟩
      intro z hz
      rcases (mem_insertionStep less x z ys).mp hz with rfl | hz
      · exact hasym _ _ hxy
      · exact h.1 z hz
    · rename_i hxy
      have hxy' : less x y = false := by simpa using hxy
      rw [List.pairwise_cons, List.pairwise_cons]
      refine ⟨?_, h⟩
      intro z hz
      rcases List.mem_cons.mp hz with rfl | hz
      · exact hxy'
      · exact hneg _ _ _ hxy' (h.1 z hz)

theorem foldl_insertionStep {α : Type} (less : α → α → Bool)
    (hasym : ∀ a b, less a b = true → less b a = false)
    (hneg : ∀ a b c, less a b = false → less b c = false → less a c = false) :
    ∀ (l acc : List α), acc.Pairwise (fun a b => less a b = false) →
      (l.foldl (fun sortedRev x => insertionStep less x sortedRev) acc).Pairwise
          (fun a b => less a b = false) ∧
        (l.foldl (fun sortedRev x => insertionStep less x sortedRev) acc).length =
          acc.length + l.length
  | [], acc, h => ⟨h, rfl⟩
  | x :: xs, acc, h => by
    have ih := foldl_insertionStep less hasym hneg xs (insertionStep less x acc)
      (pairwise_insertionStep less hasym hneg x acc h)
    rw [length_insertionStep] at ih
    simp only [List.foldl_cons, List.length_cons]
    exact ⟨ih.1, by omega⟩

/-- The insertion sort of `sort.Slice` puts the slice in order when `less` is a strict weak
order: no element is `less` than an element before it; the length is kept. -/
theorem sortSlice_sorted {α : Type} (less : α → α → Bool)
    (hasym : ∀ a b, less a b = true → less b a = false)
    (hneg : ∀ a b c, less a b = false → less b c = false → less a c = false) (l : List α) :
    (sortSlice less l).Pairwise (fun a b => less b a = false) ∧
      (sortSlice less l).length = l.length := by
  unfold sortSlice
  have h := foldl_insertionStep less hasym hneg l [] List.Pairwise.nil
  rw [List.pairwise_reverse, List.length_reverse]
  exact ⟨h.1, by simpa using h.2⟩

/-! ## The results of `MatchCVEs` -/

theorem GetProductById_cached (db : Database) (sw : VulnDBSession) (i : Int) :
    (sw.GetProductById db i).2.cached = sw.cached := by
  unfold VulnDBSession.GetProductById
  split
  · rfl
  · split <;> rfl

theorem GetVendorById_cached (db : Database) (sw : VulnDBSession) (i : Int) :
    (sw.GetVendorById db i).2.cached = sw.cached := by
  unfold VulnDBSession.GetVendorById
  split
  · rfl
  · split <;> rfl

/-- The loop over the product items leaves the cache of results as it is. -/
theorem filterItems_cached (u : CaseTable) (db : Database) (version patch target_sw : Str) :
    ∀ (items : List vulndbProductItem) (sw : VulnDBSession) (ids sp : List Int),
      (filterItems u db version patch target_sw items sw ids sp).2.cached = sw.cached
  | [], _, _, _ => rfl
  | item :: rest, sw, ids, sp => by
    unfold filterItems
    simp only
    split
    · exact filterItems_cached u db version patch target_sw rest sw ids sp
    · have hp := GetProductById_cached db sw item.ProductID
      split
      · rename_i heq
        rw [heq] at hp
        exact hp
      · rename_i heq
        rw [heq] at hp
        rw [filterItems_cached u db version patch target_sw rest _ ids sp]
        exact hp
      · rename_i e1 product sw1 heq
        rw [heq] at hp
        have hv := GetVendorById_cached db sw1 product.VendorID
        split
        · rename_i heq2
          rw [heq2] at hv
          exact hv.trans hp
        · rename_i heq2
          rw [heq2] at hv
          rw [filterItems_cached u db version patch target_sw rest _ ids sp]
          exact hv.trans hp
        · rename_i heq2
          rw [heq2] at hv
          split
          · exact hv.trans hp
          · split_ifs <;> rw [filterItems_cached u db version patch target_sw rest _ _ _] <;>
              exact hv.trans hp

theorem resultOk_nil : resultOk [] :=
  ⟨Nat.zero_le _, List.Pairwise.nil⟩

theorem CacheOk_of_cached_eq (s s2 : VulnDBSession) (h : s2.cached = s.cached)
    (hs : CacheOk s) : CacheOk s2 := by
  intro k l hk
  rw [h] at hk
  exact hs k l hk

/-- The list built at the end of `MatchCVEs` has at most `maxNumHits` entries, in ascending
order of `cve_id`. -/
theorem ranked_resultOk (sorts : StableSort) (advisories : List NVDCVEAdvisory)
    (sp : List Int) :
    resultOk
      ((sortSlice (fun a b => strLt a.CVEID b.CVEID)
          (if advisories.length > maxNumHits then
            (sorts.SliceStable lessScore advisories).take maxNumHits
          else advisories)).map
        (fun advisory =>
          ({ Advisory := advisory, TargetedSW := decide (advisory.Id ∈ sp) } : CVEMatch))) := by
  have hsort := fun l => sortSlice_sorted (fun a b : NVDCVEAdvisory => strLt a.CVEID b.CVEID)
    (fun a b h => strLt_asymm _ _ h) (fun a b c h1 h2 => strLt_negtrans _ _ _ h1 h2) l
  constructor
  · rw [List.length_map, (hsort _).2]
    split
    · rw [List.length_take]
      exact Nat.min_le_left _ _
    · omega
  · unfold ascendingCVE
    rw [List.pairwise_map]
    exact (hsort _).1

/-- One call of `MatchCVEs` on a session whose cached lists have the property `resultOk`
returns a list with the property and leaves such a session. -/
theorem MatchCVEs_ok (u : CaseTable) (names : NameRules) (sorts : StableSort) (db : Database)
    (session : VulnDBSession) (systype publisher title version patch target_sw : Str)
    (hs : CacheOk session) :
    (∀ l, (MatchCVEs u names sorts db session systype publisher title version patch
        target_sw).1 = .ok l → resultOk l) ∧
      CacheOk (MatchCVEs u names sorts db session systype publisher title version patch
        target_sw).2 := by
  unfold MatchCVEs
  simp only
  split
  · rename_i cachedResult heq
    refine ⟨?_, hs⟩
    intro l hl
    injection hl with hl
    subst hl
    exact hs _ _ heq
  · split
    · exact ⟨fun l hl => (by cases hl), hs⟩
    · split
      · refine ⟨?_, hs⟩
        intro l hl
        injection hl with hl
        subst hl
        exact resultOk_nil
      · split
        · exact ⟨fun l hl => (by cases hl), hs⟩
        · rename_i productItems _
          have hc := filterItems_cached u db version patch target_sw productItems session [] []
          split
          · rename_i heq
            rw [heq] at hc
            exact ⟨fun l hl => (by cases hl), CacheOk_of_cached_eq _ _ hc hs⟩
          · rename_i heq
            rw [heq] at hc
            have hs2 := CacheOk_of_cached_eq _ _ hc hs
            split
            · refine ⟨?_, hs2⟩
              intro l hl
              injection hl with hl
              subst hl
              exact resultOk_nil
            · split
              · exact ⟨fun l hl => (by cases hl), hs2⟩
              · split
                · refine ⟨?_, hs2⟩
                  intro l hl
                  injection hl with hl
                  subst hl
                  exact resultOk_nil
                · split
                  · exact ⟨fun l hl => (by cases hl), hs2⟩
                  · constructor
                    · intro l hl
                      injection hl with hl
                      subst hl
                      exact ranked_resultOk sorts _ _
                    · intro k l hk
                      simp only at hk
                      split at hk
                      · injection hk with hk
                        subst hk
                        exact ranked_resultOk sorts _ _
                      · exact hs2 k l hk

/-- Successive calls of `MatchCVEs` on a session whose cached lists have the property
`resultOk` only return lists with the property. -/
theorem runMatchCVEs_ok (u : CaseTable) (names : NameRules) (sorts : StableSort) :
    ∀ (calls : List (Database × CVEQuery)) (session : VulnDBSession), CacheOk session →
      ∀ r ∈ runMatchCVEs u names sorts calls session, ∀ l, r = .ok l → resultOk l
  | [], _, _, r, hr, _, _ => by simp [runMatchCVEs] at hr
  | (db, q) :: rest, session, hs, r, hr, l, hl => by
    have h := MatchCVEs_ok u names sorts db session q.systype q.publisher q.title q.version
      q.patch q.target_sw hs
    simp only [runMatchCVEs, List.mem_cons] at hr
    rcases hr with rfl | hr
    · exact h.1 l hl
    · exact runMatchCVEs_ok u names sorts rest _ h.2 r hr l hl

theorem CacheOk_new : CacheOk NewSessionWrapper := by
  intro k l hk
  cases hk

/-- The example evaluates: the first call computes the list from the database, the second
finds it in the cache of the session. -/
theorem runMatchCVEs_example :
    runMatchCVEs asciiCase plainNames insertionStable
        [(exampleDatabase, exampleQuery), (exampleDatabase, exampleQuery)] NewSessionWrapper =
      [.ok exampleResult, .ok exampleResult] := by
  rfl

/-- C20: every list returned by `MatchCVEs`, in any sequence of calls on a session that starts
as a new one, whatever the database answers at each call, has at most 5 entries and is in
ascending order of `cve_id`: no entry has an identifier smaller than that of an entry before
it. -/
theorem C20_MatchCVEs_at_most_five_sorted (u : CaseTable) (names : NameRules)
    (sorts : StableSort) (calls : List (Database × CVEQuery))
    (r : Except String (List CVEMatch))
    (hr : r ∈ runMatchCVEs u names sorts calls NewSessionWrapper)
    (l : List CVEMatch) (hl : r = .ok l) :
    l.length ≤ 5 ∧
      l.Pairwise (fun a b => strLt b.Advisory.CVEID a.Advisory.CVEID = false) :=
  runMatchCVEs_ok u names sorts calls NewSessionWrapper CacheOk_new r hr l hl

/-- C20 on the example: the list returned by both calls is in order and has two entries. -/
theorem C20_MatchCVEs_at_most_five_sorted_witness :
    exampleResult.length ≤ 5 ∧
      exampleResult.Pairwise (fun a b => strLt b.Advisory.CVEID a.Advisory.CVEID = false) :=
  C20_MatchCVEs_at_most_five_sorted asciiCase plainNames insertionStable
    [(exampleDatabase, exampleQuery), (exampleDatabase, exampleQuery)] (.ok exampleResult)
    (by rw [runMatchCVEs_example]; exact List.mem_cons_self _ _) exampleResult rfl

/-! ## Junos versions -/

theorem ToUpper_ascii (u : CaseTable) (s : Str) (hs : ∀ c ∈ s, c.toNat < 128) :
    ToUpper u s = ToUpper asciiCase s := by
  unfold ToUpper
  apply List.map_congr_left
  intro c hc
  rw [u.toUpper_ascii c (hs c hc)]
  rfl

/-- On ASCII text the parse of a Junos version does not depend on the case table. -/
theorem ParseJunosVersion_ascii (u : CaseTable) (s : Str) (hs : ∀ c ∈ s, c.toNat < 128) :
    ParseJunosVersion u s = ParseJunosVersion asciiCase s := by
  unfold ParseJunosVersion
  rw [ToUpper_ascii u s hs]

/-- C11, on its own example: `ParseJunosVersion` does not accept "12.10R3-S4.15", whose minor
number has two digits (it returns the zero version and `found = false`), and of
"12.1R3-S4.15" it keeps only the first digit of the spin 15. The groups for the minor number
and the spin are written `([\d+])`, one character that is a digit or a plus sign, where the
groups for the major and build numbers are `([\d]+)`. -/
theorem C11_ParseJunosVersion_one_digit_minor_and_spin (u : CaseTable) :
    ParseJunosVersion u "12.10R3-S4.15".toList = ({}, false) ∧
      ParseJunosVersion u "12.1R3-S4.15".toList =
        ({ Major := "12".toList, Minor := "1".toList, Type_ := "R".toList,
           Build := "3".toList, MaintenanceRelease := "S4".toList, Spin := "1".toList },
         true) := by
  rw [ParseJunosVersion_ascii u _ (by decide), ParseJunosVersion_ascii u _ (by decide)]
  decide

theorem utf8EncodeChar_ascii (c : Char) (h : c.toNat < 128) :
    String.utf8EncodeChar c = [UInt8.ofNat c.toNat] := by
  unfold String.utf8EncodeChar
  have hv : c.val ≤ 127 := by
    show c.val.toNat ≤ 127
    have : c.val.toNat = c.toNat := rfl
    omega
  simp only [hv, if_true]
  rfl

theorem UInt8_toNat_ofNat_ascii (n : Nat) (h : n < 128) : (UInt8.ofNat n).toNat = n := by
  simp [UInt8.ofNat, UInt8.toNat]
  omega

/-- The bytes of an ASCII text are its code points. -/
theorem utf8_ascii_codes : ∀ (s : Str), (∀ c ∈ s, c.toNat < 128) →
    (utf8 s).map UInt8.toNat = s.map Char.toNat
  | [], _ => rfl
  | x :: xs, h => by
    have hx := h x (by simp)
    have ih := utf8_ascii_codes xs (fun c hc => h c (by simp [hc]))
    unfold utf8 at ih ⊢
    rw [List.flatMap_cons, List.map_append, ih, utf8EncodeChar_ascii x hx]
    simp [UInt8_toNat_ofNat_ascii _ hx]

theorem AtoiBytes_utf8_ascii (s : Str) (hs : ∀ c ∈ s, c.toNat < 128) :
    AtoiBytes (utf8 s) = Atoi s := by
  unfold AtoiBytes Atoi
  rw [utf8_ascii_codes s hs]

theorem codesLt_irrefl (a : List Nat) : codesLt a a = false := by
  cases h : codesLt a a with
  | false => rfl
  | true => rw [codesLt_asymm a a h] at h; exact h.symm

/-- A part compared with itself lets the loop of `junosVersion.Compare` go on. -/
theorem junosStep_self (n : Nat) (p : Bytes) : junosStep n p p = none := by
  unfold junosStep
  split
  · rfl
  · have hb : bytesLt p p = false := codesLt_irrefl _
    cases h : partValBytes p <;> simp [hb]

theorem toUpper_alpha (x : Char) (hx : isAlpha x = true) : x.toUpper.toNat < 128 := by
  simp only [isAlpha, Bool.or_eq_true, Bool.and_eq_true, decide_eq_true_eq] at hx
  simp only [Char.toUpper]
  split
  · have hv : (x.toNat - 32).isValidChar := by
      left
      omega
    have h3 : (Char.ofNat (x.toNat - 32)).toNat = x.toNat - 32 := by
      unfold Char.ofNat
      rw [dif_pos hv]
      simp [Char.ofNatAux, Char.toNat, UInt32.toNat]
    omega
  · omega

theorem toUpper_digit (c : Char) (hc : isDigit c = true) : c.toUpper = c := by
  simp only [isDigit, Bool.and_eq_true, decide_eq_true_eq] at hc
  simp only [Char.toUpper]
  rw [if_neg]
  have : c.val.toNat = c.toNat := rfl
  intro h
  have h1 : 97 ≤ c.val.toNat := h.1
  omega

theorem ToUpper_numeral (u : CaseTable) (n : Str) (hn : isNumeral n = true) :
    ToUpper u n = n := by
  unfold ToUpper
  conv_rhs => rw [← List.map_id n]
  apply List.map_congr_left
  intro c hc
  have hd := isNumeral_digits n hn c hc
  have hc2 : c.toNat < 128 := by
    simp only [isDigit, Bool.and_eq_true, decide_eq_true_eq] at hd
    omega
  rw [u.toUpper_ascii c hc2, toUpper_digit c hd]
  rfl

theorem splitPatch_letter (X : Char) (n : Str) (hX : X.toNat < 128) :
    splitPatch (X :: n) = ([UInt8.ofNat X.toNat], utf8 n) := by
  unfold splitPatch
  have h : utf8 (X :: n) = UInt8.ofNat X.toNat :: utf8 n := by
    unfold utf8
    rw [List.flatMap_cons, utf8EncodeChar_ascii X hX]
    rfl
  rw [h]
  simp only
  rw [UInt8_toNat_ofNat_ascii _ hX, Char.ofNat_toNat, utf8EncodeChar_ascii X hX]

theorem partValBytes_numeral (n : Str) (hn : isNumeral n = true)
    (hv : (decVal n : Int) ≤ maxInt) : partValBytes (utf8 n) = some (decVal n : Int) := by
  have hascii : ∀ c ∈ n, c.toNat < 128 := by
    intro c hc
    have hd := isNumeral_digits n hn c hc
    simp only [isDigit, Bool.and_eq_true, decide_eq_true_eq] at hd
    omega
  unfold partValBytes
  rw [AtoiBytes_utf8_ascii n hascii, Atoi_numeral n hn hv]
  have hne := isNumeral_ne_nil n hn
  have hlen : (utf8 n).length > 0 := by
    have := congrArg List.length (utf8_ascii_codes n hascii)
    rw [List.length_map, List.length_map] at this
    rw [this]
    exact List.length_pos.mpr hne
  rw [if_pos hlen]

/-- C12, as stated, fails for numbers beyond the range of `int`: with the patches
"d9223372036854775808" (template) and "d10000000000000000000" (target) on the version
"12.1x46", which parses and has no inline maintenance release, the target's number is the
larger one but the result is -1, since `strconv.Atoi` fails and the numbers are compared as
strings. -/
theorem C12_VersionCompareJuniperJunos_patch_counterexample :
    (ParseJunosVersion asciiCase "12.1x46".toList).2 = true ∧
      (ParseJunosVersion asciiCase "12.1x46".toList).1.MaintenanceRelease = [] ∧
      decVal "9223372036854775808".toList < decVal "10000000000000000000".toList ∧
      VersionCompareJuniperJunos asciiCase "12.1x46".toList "12.1x46".toList
        "d9223372036854775808".toList "d10000000000000000000".toList = -1 := by
  decide

/-- C12, amended: for a Junos version `v` that parses and carries no inline maintenance
release, and template and target patches each written as the same ASCII letter, in any case,
followed by a decimal number of value at most 2^63 - 1, the result of
`VersionCompareJuniperJunos(v, v, templatePatch, targetPatch)` is the sign of the numeric
comparison of the target's number with the template's. -/
theorem C12_VersionCompareJuniperJunos_patch (u : CaseTable) (v : Str) (ver : junosVersion)
    (hparse : ParseJunosVersion u v = (ver, true)) (hmr : ver.MaintenanceRelease = [])
    (x y : Char) (hx : isAlpha x = true) (hy : isAlpha y = true)
    (hxy : x.toUpper = y.toUpper) (n m : Str) (hn : isNumeral n = true)
    (hm : isNumeral m = true) (hnv : (decVal n : Int) ≤ maxInt)
    (hmv : (decVal m : Int) ≤ maxInt) :
    VersionCompareJuniperJunos u v v (x :: n) (y :: m) =
      if decVal n < decVal m then 1 else if decVal m < decVal n then -1 else 0 := by
  have hxa : x.toNat < 128 := by
    simp only [isAlpha, Bool.or_eq_true, Bool.and_eq_true, decide_eq_true_eq] at hx
    omega
  have hya : y.toNat < 128 := by
    simp only [isAlpha, Bool.or_eq_true, Bool.and_eq_true, decide_eq_true_eq] at hy
    omega
  have hX := toUpper_alpha x hx
  have hpx : ToUpper u (x :: n) = x.toUpper :: n := by
    have h1 : ToUpper u (x :: n) = u.toUpper x :: ToUpper u n := rfl
    rw [h1, ToUpper_numeral u n hn, u.toUpper_ascii x hxa]
  have hpy : ToUpper u (y :: m) = x.toUpper :: m := by
    have h1 : ToUpper u (y :: m) = u.toUpper y :: ToUpper u m := rfl
    rw [h1, ToUpper_numeral u m hm, u.toUpper_ascii y hya, hxy]
  unfold VersionCompareJuniperJunos
  simp only [ParseJunosVersion_ToUpper, hparse, hmr, List.length_nil, if_true, Bool.and_self,
    not_true_eq_false, if_false, hpx, hpy]
  unfold junosVersion.Compare
  simp only [ne_eq, not_true_eq_false, or_self, if_false, splitPatch_letter _ _ hX,
    List.length_cons, List.length_nil]
  simp only [junosLoop, junosStep_self]
  have hstep : junosStep (0 + 1 + 1 + 1 + 1 + 1 + 1 + 1) (utf8 m) (utf8 n) =
      if decVal n < decVal m then some 1 else if decVal m < decVal n then some (-1)
      else none := by
    unfold junosStep
    rw [if_neg (by omega), partValBytes_numeral m hm hmv, partValBytes_numeral n hn hnv]
    simp only [gt_iff_lt, Nat.cast_lt]
  rw [hstep]
  split_ifs <;> rfl

/-- C12 on the patches of the tests: D10 is below D160, in either letter case, and equal
patches give 0. -/
theorem C12_VersionCompareJuniperJunos_patch_witness :
    VersionCompareJuniperJunos asciiCase "12.1x46".toList "12.1x46".toList "d10".toList
        "D160".toList = 1 ∧
      VersionCompareJuniperJunos asciiCase "15.1x49".toList "15.1x49".toList "d160".toList
        "d10".toList = -1 ∧
      VersionCompareJuniperJunos asciiCase "15.1x49".toList "15.1x49".toList "d10".toList
        "d10".toList = 0 :=
  ⟨(C12_VersionCompareJuniperJunos_patch asciiCase "12.1x46".toList
      { Major := "12".toList, Minor := "1".toList, Type_ := "X".toList, Build := "46".toList }
      (by decide) rfl 'd' 'D' (by decide) (by decide) (by decide) "10".toList "160".toList
      (by decide) (by decide) (by decide) (by decide)).trans (by decide),
    by decide, by decide⟩

/-! ## Matching with backtracking -/

/-- A successful match hands the continuation a rest of the input and captures of the same
number. -/
theorem exec_elim {α : Type} (r : Re) :
    ∀ (k : Str → Caps → Option α) (s : Str) (c : Caps) (a : α), r.exec k s c = some a →
      ∃ s1 c1, k s1 c1 = some a ∧ c1.length = c.length ∧ ∃ t, s = t ++ s1 := by
  induction r with
  | cls p =>
    intro k s c a h
    cases s with
    | nil => simp [Re.exec] at h
    | cons x xs =>
      simp only [Re.exec] at h
      split at h
      · exact ⟨xs, c, h, rfl, [x], rfl⟩
      · cases h
  | rep p lo hi =>
    intro k s c a h
    simp only [Re.exec] at h
    obtain ⟨j, _, hj⟩ := List.exists_of_findSome?_eq_some h
    exact ⟨s.drop j, c, hj, rfl, s.take j, (List.take_append_drop j s).symm⟩
  | opt r ih =>
    intro k s c a h
    simp only [Re.exec] at h
    split at h
    · rename_i a1 heq
      injection h with h
      subst h
      exact ih k s c _ heq
    · exact ⟨s, c, h, rfl, [], rfl⟩
  | seq a b iha ihb =>
    intro k s c x h
    simp only [Re.exec] at h
    obtain ⟨s1, c1, h1, hl1, t1, ht1⟩ := iha _ s c x h
    obtain ⟨s2, c2, h2, hl2, t2, ht2⟩ := ihb k s1 c1 x h1
    refine ⟨s2, c2, h2, hl2.trans hl1, t1 ++ t2, ?_⟩
    rw [ht1, ht2, List.append_assoc]
  | alt a b iha ihb =>
    intro k s c x h
    simp only [Re.exec] at h
    split at h
    · rename_i x1 heq
      injection h with h
      subst h
      exact iha k s c _ heq
    · exact ihb k s c x h
  | cap i r ih =>
    intro k s c a h
    simp only [Re.exec] at h
    obtain ⟨s1, c1, h1, hl1, t1, ht1⟩ := ih _ s c a h
    exact ⟨s1, _, h1, by rw [List.length_set]; exact hl1, t1, ht1⟩

/-- An expression with a single way to match is matched greedily. -/
theorem exec_single {α : Type} (r : Re) :
    ∀ (k : Str → Caps → Option α) (s : Str) (c : Caps), r.single = true →
      r.exec k s c = (r.first s c).bind (fun o => k o.1 o.2) := by
  induction r with
  | cls p =>
    intro k s c _
    cases s with
    | nil => rfl
    | cons x xs =>
      simp only [Re.exec, Re.first]
      split <;> rfl
  | rep p lo hi => intro k s c h; cases h
  | opt r _ => intro k s c h; cases h
  | seq a b iha ihb =>
    intro k s c h
    simp only [Re.single, Bool.and_eq_true] at h
    simp only [Re.exec, Re.first]
    rw [iha _ s c h.1]
    cases a.first s c with
    | none => rfl
    | some o => exact ihb k o.1 o.2 h.2
  | alt a b _ _ => intro k s c h; cases h
  | cap i r ih =>
    intro k s c h
    simp only [Re.single] at h
    simp only [Re.exec, Re.first]
    rw [ih _ s c h]
    cases r.first s c <;> rfl

/-- An expression that fails fast has no match where its greedy attempt fails. -/
theorem exec_none_of_first_none {α : Type} (r : Re) :
    ∀ (k : Str → Caps → Option α) (s : Str) (c : Caps), r.failFast = true →
      r.first s c = none → r.exec k s c = none := by
  induction r with
  | cls p =>
    intro k s c _ h
    cases s with
    | nil => rfl
    | cons x xs =>
      simp only [Re.first] at h
      simp only [Re.exec]
      split
      · rename_i hp
        simp [hp] at h
      · rfl
  | rep p lo hi =>
    intro k s c _ h
    simp only [Re.first] at h
    simp only [Re.exec]
    split at h
    · cases h
    · rw [countDown_nil lo _ (by omega)]
      rfl
  | opt r _ =>
    intro k s c _ h
    simp only [Re.first] at h
    split at h <;> cases h
  | seq a b _ ihb =>
    intro k s c hf h
    simp only [Re.failFast, Bool.and_eq_true] at hf
    simp only [Re.first] at h
    simp only [Re.exec]
    rw [exec_single a _ s c hf.1]
    cases ha : a.first s c with
    | none => rfl
    | some o =>
      rw [ha] at h
      exact ihb k o.1 o.2 hf.2 h
  | alt a b iha ihb =>
    intro k s c hf h
    simp only [Re.failFast, Bool.and_eq_true] at hf
    simp only [Re.first] at h
    simp only [Re.exec]
    cases ha : a.first s c with
    | some o => rw [ha] at h; cases h
    | none =>
      rw [ha] at h
      rw [iha k s c hf.1 ha]
      exact ihb k s c hf.2 h
  | cap i r ih =>
    intro k s c hf h
    simp only [Re.failFast] at hf
    simp only [Re.first, Option.map_eq_none'] at h
    simp only [Re.exec]
    exact ih _ s c hf h

/-- The greedy attempt, when it succeeds and the continuation accepts its outcome, is the
match found by the search. -/
theorem exec_of_first {α : Type} (r : Re) :
    ∀ (k : Str → Caps → Option α) (s : Str) (c : Caps) (o : Str × Caps) (a : α),
      r.greedyOk = true → r.first s c = some o → k o.1 o.2 = some a →
      r.exec k s c = some a := by
  induction r with
  | cls p =>
    intro k s c o a _ h hk
    cases s with
    | nil => cases h
    | cons x xs =>
      simp only [Re.first] at h
      simp only [Re.exec]
      split at h
      · rename_i hp
        injection h with h
        subst h
        rw [if_pos hp]
        exact hk
      · cases h
  | rep p lo hi =>
    intro k s c o a _ h hk
    simp only [Re.first] at h
    simp only [Re.exec]
    split at h
    · rename_i hle
      injection h with h
      subst h
      obtain ⟨rest, hrest⟩ := countDown_cons lo _ hle
      rw [hrest, List.findSome?_cons]
      simp only at hk
      rw [hk]
    · cases h
  | opt r ih =>
    intro k s c o a hg h hk
    simp only [Re.greedyOk, Bool.and_eq_true] at hg
    simp only [Re.first] at h
    simp only [Re.exec]
    split at h
    · rename_i o1 heq
      injection h with h
      subst h
      rw [ih k s c _ a hg.1 heq hk]
    · rename_i heq
      injection h with h
      subst h
      rw [exec_none_of_first_none r k s c hg.2 heq]
      exact hk
  | seq a b iha ihb =>
    intro k s c o x hg h hk
    simp only [Re.greedyOk, Bool.and_eq_true] at hg
    simp only [Re.first] at h
    simp only [Re.exec]
    split at h
    · rename_i o1 heq
      exact iha _ s c o1 x hg.1 heq (ihb k o1.1 o1.2 o x hg.2 h hk)
    · cases h
  | alt a b iha ihb =>
    intro k s c o x hg h hk
    simp only [Re.greedyOk, Bool.and_eq_true] at hg
    simp only [Re.first] at h
    simp only [Re.exec]
    cases ha : a.first s c with
    | some o1 =>
      rw [ha] at h
      injection h with h
      subst h
      rw [iha k s c _ x hg.1.1 ha hk]
    | none =>
      rw [ha] at h
      rw [exec_none_of_first_none a k s c hg.1.2 ha]
      exact ihb k s c o x hg.2 h hk
  | cap i r ih =>
    intro k s c o a hg h hk
    simp only [Re.greedyOk] at hg
    simp only [Re.first, Option.map_eq_some'] at h
    obtain ⟨o1, h1, h2⟩ := h
    subst h2
    simp only [Re.exec]
    exact ih _ s c o1 a hg h1 hk

/-- The preferred match at a position is the greedy one when that succeeds. -/
theorem matchAt_of_first (r : Re) (n : Nat) (s : Str) (o : Str × Caps)
    (hg : r.greedyOk = true)
    (h : (Re.cap 0 r).first s (List.replicate (n + 1) []) = some o) :
    r.matchAt n s = some (o.2, o.1) :=
  exec_of_first (Re.cap 0 r) _ s _ o _ hg h rfl

/-- The submatches of a match are as many as the groups, the whole match included, and the
rest of the input is a final part of it. -/
theorem matchAt_elim (r : Re) (n : Nat) (s : Str) (caps : Caps) (rest : Str)
    (h : r.matchAt n s = some (caps, rest)) :
    caps.length = n + 1 ∧ ∃ t, s = t ++ rest := by
  obtain ⟨s1, c1, h1, hl, t, ht⟩ := exec_elim (Re.cap 0 r) _ s _ _ h
  injection h1 with h1
  injection h1 with h2 h3
  subst h2 h3
  exact ⟨by rw [hl, List.length_replicate], t, ht⟩

/-! ## The matches of `FindAllStringSubmatch` -/

theorem findAllAux_length (r : Re) (n : Nat) : ∀ (s : Str) (b : Bool) (skip : Nat),
    ∀ caps ∈ findAllAux r n b skip s, caps.length = n + 1
  | [], b, skip => by
    intro caps hc
    cases skip with
    | succ k => simp [findAllAux] at hc
    | zero =>
      simp only [findAllAux] at hc
      split at hc
      · simp at hc
      · rename_i caps1 rest heq
        have hl := (matchAt_elim r n _ _ _ heq).1
        split at hc
        · cases b <;> simp at hc
          subst hc
          exact hl
        · simp only [List.mem_cons, List.not_mem_nil, or_false] at hc
          subst hc
          exact hl
  | x :: xs, b, skip => by
    intro caps hc
    cases skip with
    | succ k =>
      simp only [findAllAux] at hc
      exact findAllAux_length r n xs _ _ caps hc
    | zero =>
      simp only [findAllAux] at hc
      split at hc
      · exact findAllAux_length r n xs _ _ caps hc
      · rename_i caps1 rest heq
        have hl := (matchAt_elim r n _ _ _ heq).1
        split at hc
        · rw [List.mem_append] at hc
          rcases hc with hc | hc
          · cases b <;> simp at hc
            subst hc
            exact hl
          · exact findAllAux_length r n xs _ _ caps hc
        · rw [List.mem_cons] at hc
          rcases hc with hc | hc
          · subst hc
            exact hl
          · exact findAllAux_length r n xs _ _ caps hc

/-- Every match returned by `FindAllStringSubmatch` has one submatch for each group and one
for the whole match. -/
theorem findAll_length (r : Re) (n : Nat) (s : Str) :
    ∀ caps ∈ FindAllStringSubmatch r n s, caps.length = n + 1 :=
  findAllAux_length r n s false 0

theorem findAllAux_skip_all (r : Re) (n : Nat) : ∀ xs : Str,
    findAllAux r n (decide (xs.length = 0)) xs.length xs = []
  | [] => by
    simp only [List.length_nil, decide_True, findAllAux]
    split
    · rfl
    · simp
  | x :: xs => by
    simp only [List.length_cons, findAllAux]
    have h := findAllAux_skip_all r n xs
    simpa using h

/-- A match of the whole of a non-empty input is the only match. -/
theorem findAll_whole (r : Re) (n : Nat) (s : Str) (caps : Caps) (hs : s ≠ [])
    (h : r.matchAt n s = some (caps, [])) : FindAllStringSubmatch r n s = [caps] := by
  unfold FindAllStringSubmatch
  cases s with
  | nil => exact absurd rfl hs
  | cons x xs =>
    simp only [findAllAux, h, List.length_cons, List.length_nil, Nat.sub_zero,
      Nat.add_one_ne_zero, if_false, Nat.add_sub_cancel, Nat.add_right_eq_self]
    have hd : decide (xs.length + 1 = 1) = decide (xs.length = 0) := by simp
    rw [hd, findAllAux_skip_all r n xs]

/-- An input none of whose final parts has a match at its start has no match. -/
theorem findAll_eq_nil (r : Re) (n : Nat) : ∀ s : Str,
    (∀ t u, s = t ++ u → r.matchAt n u = none) → FindAllStringSubmatch r n s = []
  | [], h => findAll_nil r n (h [] [] rfl)
  | x :: xs, h => by
    rw [findAll_cons_of_none r n x xs (h [] (x :: xs) rfl)]
    exact findAll_eq_nil r n xs (fun t u ht => h (x :: t) u (by rw [ht]; rfl))

/-! ## Cisco IOS versions -/

/-- C13: for two Cisco IOS versions in the traditional format, that is, on each of which the
pattern `reCiscoIOSVersion` has exactly one match, if the Train parts (submatch 5, empty
when the train is absent) differ then `VersionCompareCiscoIOS` returns 2. -/
theorem C13_VersionCompareCiscoIOS_train_differs (templateVer targetVer : Str) (p q : Caps)
    (hp : FindAllStringSubmatch reCiscoIOSVersion 7 templateVer = [p])
    (hq : FindAllStringSubmatch reCiscoIOSVersion 7 targetVer = [q])
    (hne : p.getD 5 [] ≠ q.getD 5 []) :
    VersionCompareCiscoIOS templateVer targetVer = 2 := by
  have hpl : p.length = 8 := findAll_length reCiscoIOSVersion 7 templateVer p (by simp [hp])
  have hql : q.length = 8 := findAll_length reCiscoIOSVersion 7 targetVer q (by simp [hq])
  unfold VersionCompareCiscoIOS
  simp only [hp, hq, List.length_singleton, List.getD_cons_zero, hpl, hql, and_self, if_true]
  unfold ciscoIosVersion.Compare
  rw [if_pos]
  right; right; right
  simp only [sub, List.getD_cons_zero]
  exact fun h => hne h.symm

/-- C13 on the example of the specification: the trains SE and E differ. -/
theorem C13_VersionCompareCiscoIOS_train_differs_witness :
    VersionCompareCiscoIOS "15.0(2)SE12".toList "15.2(2a)E1".toList = 2 :=
  C13_VersionCompareCiscoIOS_train_differs "15.0(2)SE12".toList "15.2(2a)E1".toList
    ["15.0(2)SE12".toList, "15".toList, "0".toList, "2".toList, [], "SE".toList, "12".toList, []]
    ["15.2(2a)E1".toList, "15".toList, "2".toList, "2".toList, "a".toList, "E".toList,
      "1".toList, []]
    (by decide) (by decide) (by decide)

theorem exec_seq_elim {α : Type} (a b : Re) (k : Str → Caps → Option α) (s : Str) (c : Caps)
    (x : α) (h : (Re.seq a b).exec k s c = some x) :
    ∃ s1 c1, b.exec k s1 c1 = some x ∧ ∃ t, s = t ++ s1 := by
  rw [Re.exec] at h
  obtain ⟨s1, c1, h1, _, t, ht⟩ := exec_elim a _ s c x h
  exact ⟨s1, c1, h1, t, ht⟩

theorem exec_seq_cls_elim {α : Type} (p : Char → Bool) (b : Re) (k : Str → Caps → Option α)
    (s : Str) (c : Caps) (x : α) (h : (Re.seq (Re.cls p) b).exec k s c = some x) :
    ∃ y ys, s = y :: ys ∧ p y = true := by
  rw [Re.exec] at h
  cases s with
  | nil => simp [Re.exec] at h
  | cons y ys =>
    simp only [Re.exec] at h
    split at h
    · rename_i hp
      exact ⟨y, ys, rfl, hp⟩
    · cases h

/-- The pattern `reCiscoIOSVersion` has no match at the start of an input without an opening
parenthesis. -/
theorem ios_matchAt_none (s : Str) (h : '(' ∉ s) : reCiscoIOSVersion.matchAt 7 s = none := by
  cases hm : reCiscoIOSVersion.matchAt 7 s with
  | none => rfl
  | some x =>
    exfalso
    unfold Re.matchAt reCiscoIOSVersion at hm
    simp only [Re.cat] at hm
    rw [Re.exec] at hm
    obtain ⟨s1, c1, h1, t1, ht1⟩ := exec_seq_elim _ _ _ _ _ _ hm
    obtain ⟨s2, c2, h2, t2, ht2⟩ := exec_seq_elim _ _ _ _ _ _ h1
    obtain ⟨s3, c3, h3, t3, ht3⟩ := exec_seq_elim _ _ _ _ _ _ h2
    obtain ⟨y, ys, hy, hp⟩ := exec_seq_cls_elim _ _ _ _ _ _ h3
    simp only [lit, decide_eq_true_eq] at hp
    apply h
    rw [ht1, ht2, ht3, hy, hp]
    simp

/-- The pattern `reCiscoIOSVersion` has no match in an input without an opening
parenthesis. -/
theorem ios_findAll_nil (s : Str) (h : '(' ∉ s) :
    FindAllStringSubmatch reCiscoIOSVersion 7 s = [] := by
  apply findAll_eq_nil
  intro t u htu
  apply ios_matchAt_none
  intro hu
  apply h
  rw [htu]
  exact List.mem_append_right t hu

theorem seq_lit_hit (ch : Char) (b : Re) (x : Str) (c : Caps) :
    (Re.seq (Re.cls (lit ch)) b).first (ch :: x) c = b.first x c := by
  simp [Re.first, lit]

theorem seq_opt_lit_miss (ch : Char) (b : Re) (s : Str) (c : Caps)
    (h : ∀ x xs, s = x :: xs → x ≠ ch) :
    (Re.seq (Re.opt (Re.cls (lit ch))) b).first s c = b.first s c := by
  cases s with
  | nil => rfl
  | cons x xs =>
    rw [first_seq, first_opt_lit_cons, if_neg (h x xs rfl)]
    rfl

theorem seq_opt_cap_miss (i : Nat) (p : Char → Bool) (b : Re) (s : Str) (c : Caps)
    (h : s.takeWhile p = []) :
    (Re.seq (Re.opt (Re.cap i (Re.plus p))) b).first s c = b.first s c := by
  rw [first_seq, first_opt_cap_plus, if_pos h]
  rfl

theorem takeWhile_append_stop (p : Char → Bool) (d x : Str) (hd : ∀ ch ∈ d, p ch = true)
    (hx : x.takeWhile p = []) : (d ++ x).takeWhile p = d := by
  rw [List.takeWhile_append_of_pos hd, hx, List.append_nil]

theorem dropWhile_append_stop (p : Char → Bool) (d x : Str) (hd : ∀ ch ∈ d, p ch = true)
    (hx : x.takeWhile p = []) : (d ++ x).dropWhile p = x := by
  rw [List.dropWhile_append_of_pos hd]
  cases x with
  | nil => rfl
  | cons y ys =>
    by_cases hy : p y = true
    · simp [List.takeWhile, hy] at hx
    · simp [List.dropWhile, hy]

theorem seq_opt_cap_hit (i : Nat) (p : Char → Bool) (b : Re) (d x : Str) (c : Caps)
    (hd : ∀ ch ∈ d, p ch = true) (hne : d ≠ []) (hx : x.takeWhile p = []) :
    (Re.seq (Re.opt (Re.cap i (Re.plus p))) b).first (d ++ x) c = b.first x (c.set i d) := by
  rw [first_seq, first_opt_cap_plus, takeWhile_append_stop p d x hd hx,
    dropWhile_append_stop p d x hd hx, if_neg hne]
  rfl

theorem numeral_head (d : Str) (hd : isNumeral d = true) :
    ∃ y ys, d = y :: ys ∧ isDigit y = true := by
  cases d with
  | nil => exact absurd rfl (isNumeral_ne_nil _ hd)
  | cons y ys => exact ⟨y, ys, rfl, isNumeral_digits _ hd y (by simp)⟩

theorem takeWhile_lower_numeral (d rest : Str) (hd : isNumeral d = true) :
    (d ++ rest).takeWhile isLowerAZ = [] := by
  obtain ⟨y, ys, rfl, hy⟩ := numeral_head d hd
  simp only [isDigit, Bool.and_eq_true, decide_eq_true_eq] at hy
  have : isLowerAZ y = false := by
    simp only [isLowerAZ, Bool.and_eq_false_iff, decide_eq_false_iff_not]
    left
    omega
  simp [List.takeWhile, this]

theorem numeral_head_ne (d rest : Str) (hd : isNumeral d = true) (ch : Char)
    (hch : isDigit ch = false) : ∀ x xs, d ++ rest = x :: xs → x ≠ ch := by
  obtain ⟨y, ys, rfl, hy⟩ := numeral_head d hd
  intro x xs hx
  injection hx with hx _
  subst hx
  intro h
  subst h
  rw [hy] at hch
  cases hch

/-- The numbers of the pattern `reCiscoIOSCodenamedVersion` on three dotted numbers. -/
theorem codenamed_numbers (d1 d2 d3 : Str) (h1 : isNumeral d1 = true)
    (h2 : isNumeral d2 = true) (h3 : isNumeral d3 = true) (c : Caps) :
    (Re.seq (Re.cap 2 (Re.plus isDigit)) (Re.seq (Re.cls (lit '.'))
      (Re.seq (Re.cap 3 (Re.plus isDigit)) (Re.seq (Re.cls (lit '.'))
        (Re.cap 4 (Re.plus isDigit)))))).first (dotted [d1, d2, d3]) c =
      some ([], ((c.set 2 d1).set 3 d2).set 4 d3) := by
  simp only [dotted, joinWith]
  rw [seq_cap_digits 2 _ d1 _ _ h1 (takeWhile_isDigit_dot _), seq_lit_hit,
    seq_cap_digits 3 _ d2 _ _ h2 (takeWhile_isDigit_dot _), seq_lit_hit, first_cap_plus,
    takeWhile_numeral d3 h3, dropWhile_numeral d3 h3, if_neg (isNumeral_ne_nil d3 h3)]

theorem codenamed_greedyOk : reCiscoIOSCodenamedVersion.greedyOk = true := rfl

/-- The match of `reCiscoIOSCodenamedVersion` on three dotted numbers: no code name. -/
theorem codenamed_findAll_plain (d1 d2 d3 : Str) (h1 : isNumeral d1 = true)
    (h2 : isNumeral d2 = true) (h3 : isNumeral d3 = true) :
    FindAllStringSubmatch reCiscoIOSCodenamedVersion 4 (dotted [d1, d2, d3]) =
      [[dotted [d1, d2, d3], [], d1, d2, d3]] := by
  have hne : dotted [d1, d2, d3] ≠ [] := by
    obtain ⟨y, ys, rfl, _⟩ := numeral_head d1 h1
    simp [dotted, joinWith]
  apply findAll_whole _ _ _ _ hne
  have hf : (Re.cap 0 reCiscoIOSCodenamedVersion).first (dotted [d1, d2, d3])
      (List.replicate (4 + 1) []) =
      some ([], [dotted [d1, d2, d3], [], d1, d2, d3]) := by
    rw [first_cap]
    simp only [reCiscoIOSCodenamedVersion, Re.cat]
    have hd : dotted [d1, d2, d3] = d1 ++ ('.' :: dotted [d2, d3]) := rfl
    rw [seq_opt_cap_miss 1 isLowerAZ _ _ _ (by rw [hd]; exact takeWhile_lower_numeral d1 _ h1),
      seq_opt_lit_miss '-' _ _ _ (by rw [hd]; exact numeral_head_ne d1 _ h1 '-' (by decide)),
      codenamed_numbers d1 d2 d3 h1 h2 h3]
    simp
  exact matchAt_of_first _ 4 _ _ codenamed_greedyOk hf

/-- The match of `reCiscoIOSCodenamedVersion` on a code name, a hyphen and three dotted
numbers. -/
theorem codenamed_findAll_named (cn d1 d2 d3 : Str) (hc : ∀ ch ∈ cn, isLowerAZ ch = true)
    (hcn : cn ≠ []) (h1 : isNumeral d1 = true) (h2 : isNumeral d2 = true)
    (h3 : isNumeral d3 = true) :
    FindAllStringSubmatch reCiscoIOSCodenamedVersion 4 (cn ++ '-' :: dotted [d1, d2, d3]) =
      [[cn ++ '-' :: dotted [d1, d2, d3], cn, d1, d2, d3]] := by
  have hne : cn ++ '-' :: dotted [d1, d2, d3] ≠ [] := by simp
  apply findAll_whole _ _ _ _ hne
  have hf : (Re.cap 0 reCiscoIOSCodenamedVersion).first (cn ++ '-' :: dotted [d1, d2, d3])
      (List.replicate (4 + 1) []) =
      some ([], [cn ++ '-' :: dotted [d1, d2, d3], cn, d1, d2, d3]) := by
    rw [first_cap]
    simp only [reCiscoIOSCodenamedVersion, Re.cat]
    rw [seq_opt_cap_hit 1 isLowerAZ _ cn ('-' :: dotted [d1, d2, d3]) _ hc hcn rfl, seq_opt_lit_hit,
      codenamed_numbers d1 d2 d3 h1 h2 h3]
    simp
  exact matchAt_of_first _ 4 _ _ codenamed_greedyOk hf

theorem paren_not_mem_dotted (ns : List Str) (hn : ∀ d ∈ ns, isNumeral d = true) :
    '(' ∉ dotted ns := by
  intro h
  have := dotted_chars ns hn '(' h
  revert this
  decide

/-- C14: when the template Cisco IOS version is three dotted numbers, without a code name,
the code name of the target is ignored: for every code name `c` of lower-case letters and
all numbers, `VersionCompareCiscoIOS("M.m.b", "c-M'.m'.b'")` is
`VersionCompareCiscoIOS("M.m.b", "M'.m'.b'")`. -/
theorem C14_VersionCompareCiscoIOS_codename_ignored (M m b cn M2 m2 b2 : Str)
    (hM : isNumeral M = true) (hm : isNumeral m = true) (hb : isNumeral b = true)
    (hc : ∀ ch ∈ cn, isLowerAZ ch = true) (hcn : cn ≠ [])
    (hM2 : isNumeral M2 = true) (hm2 : isNumeral m2 = true) (hb2 : isNumeral b2 = true) :
    VersionCompareCiscoIOS (dotted [M, m, b]) (cn ++ '-' :: dotted [M2, m2, b2]) =
      VersionCompareCiscoIOS (dotted [M, m, b]) (dotted [M2, m2, b2]) := by
  have hT : '(' ∉ dotted [M, m, b] := paren_not_mem_dotted _ (by
    intro d hd
    simp only [List.mem_cons, List.mem_singleton, List.not_mem_nil, or_false] at hd
    rcases hd with rfl | rfl | rfl <;> assumption)
  unfold VersionCompareCiscoIOS
  simp only [ios_findAll_nil _ hT, List.length_nil, zero_ne_one, false_and, if_false,
    codenamed_findAll_plain M m b hM hm hb, codenamed_findAll_plain M2 m2 b2 hM2 hm2 hb2,
    codenamed_findAll_named cn M2 m2 b2 hc hcn hM2 hm2 hb2]
  simp [sub]

/-- C14 on the example of the specification: "16.3.1" against "denali-16.3.1" is 0. -/
theorem C14_VersionCompareCiscoIOS_codename_ignored_witness :
    VersionCompareCiscoIOS "16.3.1".toList "denali-16.3.1".toList = 0 :=
  (C14_VersionCompareCiscoIOS_codename_ignored "16".toList "3".toList "1".toList
    "denali".toList "16".toList "3".toList "1".toList (by decide) (by decide) (by decide)
    (by decide) (by decide) (by decide) (by decide) (by decide)).trans (by decide)

/-! ## Adobe versions -/

/-- A captured bounded run of digits followed by an input that does not start with a
digit. -/
theorem first_cap_rep_digits (i lo hi : Nat) (d x : Str) (c : Caps)
    (hd : isNumeral d = true) (hlo : lo ≤ d.length) (hhi : d.length ≤ hi)
    (hx : x.takeWhile isDigit = []) :
    (Re.cap i (Re.rep isDigit lo (some hi))).first (d ++ x) c = some (x, c.set i d) := by
  have ht : (d ++ x).takeWhile isDigit = d :=
    takeWhile_append_stop isDigit d x (isNumeral_digits d hd) hx
  have hmax : repMax isDigit (some hi) (d ++ x) = d.length := by
    simp only [repMax, ht]
    omega
  simp only [Re.first, hmax, hlo, if_true, Option.map_some', List.drop_left,
    List.length_append, Nat.add_sub_cancel, List.take_left]

theorem seq_cap_rep_digits (i lo hi : Nat) (b : Re) (d x : Str) (c : Caps)
    (hd : isNumeral d = true) (hlo : lo ≤ d.length) (hhi : d.length ≤ hi)
    (hx : x.takeWhile isDigit = []) :
    (Re.seq (Re.cap i (Re.rep isDigit lo (some hi))) b).first (d ++ x) c =
      b.first x (c.set i d) := by
  rw [first_seq, first_cap_rep_digits i lo hi d x c hd hlo hhi hx]
  rfl

theorem adobe_greedyOk : reAdobeVersion.greedyOk = true := rfl

/-- The match of `reAdobeVersion` on three dotted numbers of at most 4, at most 3 and from
2 to 5 digits. -/
theorem adobe_findAll (d1 d2 d3 : Str) (h1 : isNumeral d1 = true) (h2 : isNumeral d2 = true)
    (h3 : isNumeral d3 = true) (hl1 : d1.length ≤ 4) (hl2 : d2.length ≤ 3)
    (hl3 : 2 ≤ d3.length ∧ d3.length ≤ 5) :
    FindAllStringSubmatch reAdobeVersion 3 (dotted [d1, d2, d3]) =
      [[dotted [d1, d2, d3], d1, d2, d3]] := by
  have hne : dotted [d1, d2, d3] ≠ [] := by
    obtain ⟨y, ys, rfl, _⟩ := numeral_head d1 h1
    simp [dotted, joinWith]
  have hp1 : 1 ≤ d1.length := List.length_pos.mpr (isNumeral_ne_nil d1 h1)
  have hp2 : 1 ≤ d2.length := List.length_pos.mpr (isNumeral_ne_nil d2 h2)
  apply findAll_whole _ _ _ _ hne
  have hf : (Re.cap 0 reAdobeVersion).first (dotted [d1, d2, d3]) (List.replicate (3 + 1) []) =
      some ([], [dotted [d1, d2, d3], d1, d2, d3]) := by
    rw [first_cap]
    simp only [reAdobeVersion, Re.cat, dotted, joinWith]
    rw [seq_cap_rep_digits 1 1 4 _ d1 _ _ h1 hp1 hl1 (takeWhile_isDigit_dot _), seq_lit_hit,
      seq_cap_rep_digits 2 1 3 _ d2 _ _ h2 hp2 hl2 (takeWhile_isDigit_dot _), seq_lit_hit]
    have h := first_cap_rep_digits 3 2 5 d3 [] (((List.replicate (3 + 1) []).set 1 d1).set 2 d2)
      h3 hl3.1 hl3.2 rfl
    rw [List.append_nil] at h
    rw [h]
    simp
  exact matchAt_of_first _ 3 _ _ adobe_greedyOk hf

theorem VersionCompare_self (u : CaseTable) (a : Str) : VersionCompare u a a = 0 := by
  unfold VersionCompare
  simp

/-- The normal form `VersionCompareAdobe` gives a version with a two-digit year and the same
version with the four-digit year. -/
theorem adobe_year (u : CaseTable) (y1 y2 : Char) (mmm bbbbb : Str)
    (hy1 : isDigit y1 = true) (hy2 : isDigit y2 = true)
    (hm : isNumeral mmm = true) (hb : isNumeral bbbbb = true) (hlm : mmm.length = 3)
    (hlb : bbbbb.length = 5) (hy : 15 ≤ decVal [y1, y2]) (product : Str)
    (hp : HasPrefix product "acrobat".toList = true) :
    VersionCompareAdobe u product (dotted [[y1, y2], mmm, bbbbb])
        (dotted [['2', '0', y1, y2], mmm, bbbbb]) = 0 ∧
      VersionCompareAdobe u product (dotted [['2', '0', y1, y2], mmm, bbbbb])
        (dotted [[y1, y2], mmm, bbbbb]) = 0 := by
  have hn2 : isNumeral [y1, y2] = true := by simp [isNumeral, hy1, hy2]
  have hn4 : isNumeral ['2', '0', y1, y2] = true := by
    simp [isNumeral, hy1, hy2]
    decide
  have hd1 := hy1
  have hd2 := hy2
  simp only [isDigit, Bool.and_eq_true, decide_eq_true_eq] at hd1 hd2
  have hv2 : decVal [y1, y2] = (y1.toNat - 48) * 10 + (y2.toNat - 48) := by
    simp [decVal]
  have hv4 : decVal ['2', '0', y1, y2] = 2000 + ((y1.toNat - 48) * 10 + (y2.toNat - 48)) := by
    simp [decVal]
    omega
  have ha2 : Atoi [y1, y2] = some (decVal [y1, y2] : Int) :=
    Atoi_numeral _ hn2 (by rw [hv2]; simp only [maxInt]; omega)
  have ha4 : Atoi ['2', '0', y1, y2] = some (decVal ['2', '0', y1, y2] : Int) :=
    Atoi_numeral _ hn4 (by rw [hv4]; simp only [maxInt]; omega)
  have hf2 := adobe_findAll [y1, y2] mmm bbbbb hn2 hm hb (by simp) (by omega) (by omega)
  have hf4 := adobe_findAll ['2', '0', y1, y2] mmm bbbbb hn4 hm hb (by simp) (by omega)
    (by omega)
  have hr2 : 15 ≤ (decVal [y1, y2] : Int) ∧ (decVal [y1, y2] : Int) < 100 := by
    rw [hv2] at hy ⊢
    omega
  have hr4 : ¬ ((decVal ['2', '0', y1, y2] : Int) < 100) := by
    rw [hv4]
    omega
  unfold VersionCompareAdobe
  simp only [hp, not_true_eq_false, if_false, hf2, hf4, List.length_singleton,
    List.getD_cons_zero, List.length_cons, List.length_nil, List.drop_succ_cons, List.drop_zero,
    List.getD_cons_succ, ha2, ha4, List.length_append, hlm, hlb, hr2, hr4]
  simp [VersionCompare_self]

/-- C15: for every product whose name starts with "acrobat" and every version YY.mmm.bbbbb
of two, three and five digits (12 characters) with YY at least 15, `VersionCompareAdobe` rates
the version equal (0) to the same version written with the four-digit year 20YY, in either
argument order. -/
theorem C15_VersionCompareAdobe_year (u : CaseTable) (product yy mmm bbbbb : Str)
    (hp : HasPrefix product "acrobat".toList = true)
    (hyy : isNumeral yy = true) (hm : isNumeral mmm = true) (hb : isNumeral bbbbb = true)
    (hly : yy.length = 2) (hlm : mmm.length = 3) (hlb : bbbbb.length = 5)
    (hy : 15 ≤ decVal yy) :
    VersionCompareAdobe u product (dotted [yy, mmm, bbbbb])
        ("20".toList ++ dotted [yy, mmm, bbbbb]) = 0 ∧
      VersionCompareAdobe u product ("20".toList ++ dotted [yy, mmm, bbbbb])
        (dotted [yy, mmm, bbbbb]) = 0 := by
  match yy, hly, hyy, hy with
  | [y1, y2], _, hyy, hy =>
    have hd := isNumeral_digits _ hyy
    exact adobe_year u y1 y2 mmm bbbbb (hd y1 (by simp)) (hd y2 (by simp)) hm hb hlm hlb hy
      product hp

/-- C15 on the example of the specification: "15.006.30306" and "2015.006.30306". -/
theorem C15_VersionCompareAdobe_year_witness :
    VersionCompareAdobe asciiCase "acrobat_reader_dc".toList "15.006.30306".toList
        "2015.006.30306".toList = 0 ∧
      VersionCompareAdobe asciiCase "acrobat_reader_dc".toList "2015.006.30306".toList
        "15.006.30306".toList = 0 :=
  C15_VersionCompareAdobe_year asciiCase "acrobat_reader_dc".toList "15".toList "006".toList
    "30306".toList (by decide) (by decide) (by decide) (by decide) (by decide) (by decide)
    (by decide) (by decide)

/-! ## Malformed percent escapes -/

theorem malformedEscape_cons_ne (x : UInt8) (xs : Bytes) (hx : ¬ x = 37) :
    malformedEscape (x :: xs) = malformedEscape xs := by
  simp [malformedEscape, hx]

/-- The first pass of `unescape` accepts exactly the strings without a malformed escape. -/
theorem escapesOk_eq_not_malformed : ∀ (n : Nat) (s : Bytes), s.length ≤ n →
    escapesOk s = !malformedEscape s
  | 0, s, h => by
    have : s = [] := List.length_eq_zero.mp (by omega)
    subst this
    rfl
  | n + 1, [], _ => rfl
  | n + 1, x :: xs, h => by
    have hlen : xs.length ≤ n := by simpa using h
    by_cases hx : x = 37
    · subst hx
      rcases xs with _ | ⟨h1, _ | ⟨h2, r⟩⟩
      · rfl
      · by_cases hh : h1 = 37 <;> simp [escapesOk, malformedEscape, hh]
      · rw [escapesOk_escape]
        have ih := escapesOk_eq_not_malformed n r (by simp at hlen; omega)
        by_cases hh1 : ishex h1 = true
        · by_cases hh2 : ishex h2 = true
          · have e1 := (ishex_spec h1 hh1).2.1
            have e2 := (ishex_spec h2 hh2).2.1
            have hm : malformedEscape (37 :: h1 :: h2 :: r) = malformedEscape r := by
              rw [show malformedEscape (37 :: h1 :: h2 :: r) =
                ((decide ((37 : UInt8) = 37) && !(ishex h1 && ishex h2)) ||
                  malformedEscape (h1 :: h2 :: r)) from rfl,
                malformedEscape_cons_ne h1 _ e1, malformedEscape_cons_ne h2 _ e2]
              simp [hh1, hh2]
            rw [hm, ih]
            simp [hh1, hh2]
          · simp [malformedEscape, hh1, hh2]
        · simp [malformedEscape, hh1]
    · rw [escapesOk_cons_ne x xs hx, malformedEscape_cons_ne x xs hx]
      exact escapesOk_eq_not_malformed n xs hlen

theorem replaceAux_skip (old new : Bytes) : ∀ (pre rest : Bytes),
    replaceAux old new pre.length (pre ++ rest) = replaceAux old new 0 rest
  | [], _ => rfl
  | p :: ps, rest => by
    cases rest with
    | nil =>
      simp only [List.append_nil, List.length_cons]
      have := replaceAux_skip old new ps []
      simp only [List.append_nil] at this
      cases ps with
      | nil => simp [replaceAux]
      | cons q qs => simp only [replaceAux]; exact this
    | cons r rs =>
      simp only [List.length_cons, List.cons_append, replaceAux]
      exact replaceAux_skip old new ps (r :: rs)

/-- Where the pattern occurs at the start, it is replaced and the search goes on after it. -/
theorem replaceAux_at_start (o : UInt8) (os new rest : Bytes) :
    replaceAux (o :: os) new 0 ((o :: os) ++ rest) = new ++ replaceAux (o :: os) new 0 rest := by
  have hp : (o :: os).isPrefixOf ((o :: os) ++ rest) = true := by
    rw [ List.isPrefixOf_iff_prefix]
    exact List.prefix_append _ _
  rw [List.cons_append] at hp ⊢
  rw [replaceAux, if_pos hp]
  simp only [List.length_cons, Nat.add_sub_cancel]
  rw [replaceAux_skip]

theorem replaceAux_no_start (old new : Bytes) (x : UInt8) (xs : Bytes)
    (h : old.isPrefixOf (x :: xs) = false) :
    replaceAux old new 0 (x :: xs) = x :: replaceAux old new 0 xs := by
  rw [replaceAux]
  simp [h]

/-- A replacement keeps a malformed escape when the pattern and its replacement are neutral
for the first pass of `unescape` and the replacement starts with a byte that is not a hex
digit. -/
theorem escapesOk_of_replace (o : UInt8) (os : Bytes) (n0 : UInt8) (ns : Bytes)
    (hn0 : ishex n0 = false)
    (hold : ∀ rest, escapesOk ((o :: os) ++ rest) = escapesOk rest)
    (hnew : ∀ rest, escapesOk ((n0 :: ns) ++ rest) = escapesOk rest) :
    ∀ (n : Nat) (s : Bytes), s.length ≤ n →
      escapesOk (replaceAux (o :: os) (n0 :: ns) 0 s) = true → escapesOk s = true
  | 0, s, h, _ => by
    have : s = [] := List.length_eq_zero.mp (by omega)
    subst this
    rfl
  | n + 1, [], _, _ => rfl
  | n + 1, x :: xs, h, hr => by
    have ih := escapesOk_of_replace o os n0 ns hn0 hold hnew n
    have hlen : xs.length ≤ n := by simpa using h
    have hhead : ∀ (y : UInt8) (ys t : Bytes), ishex y = true →
        replaceAux (o :: os) (n0 :: ns) 0 ys = y :: t →
        ∃ zs, ys = y :: zs ∧ t = replaceAux (o :: os) (n0 :: ns) 0 zs := by
      intro y ys t hy he
      cases ys with
      | nil => simp [replaceAux] at he
      | cons z zs =>
        by_cases hp : (o :: os).isPrefixOf (z :: zs) = true
        · rw [ List.isPrefixOf_iff_prefix] at hp
          obtain ⟨rest, hrest⟩ := hp
          rw [← hrest, replaceAux_at_start] at he
          injection he with he1 _
          rw [he1] at hn0
          rw [hn0] at hy
          cases hy
        · have hp' : (o :: os).isPrefixOf (z :: zs) = false := Bool.eq_false_iff.mpr hp
          rw [replaceAux_no_start _ _ z zs hp'] at he
          injection he with he1 he2
          subst he1
          exact ⟨zs, rfl, he2.symm⟩
    by_cases hp : (o :: os).isPrefixOf (x :: xs) = true
    · rw [ List.isPrefixOf_iff_prefix] at hp
      obtain ⟨rest, hrest⟩ := hp
      rw [← hrest] at hr ⊢
      rw [replaceAux_at_start, hnew] at hr
      rw [hold]
      apply ih rest _ hr
      have := congrArg List.length hrest
      simp only [List.length_append, List.length_cons] at this
      omega
    · have hp' : (o :: os).isPrefixOf (x :: xs) = false := Bool.eq_false_iff.mpr hp
      rw [replaceAux_no_start _ _ x xs hp'] at hr
      by_cases hx : x = 37
      · subst hx
        generalize hR : replaceAux (o :: os) (n0 :: ns) 0 xs = R at hr
        rcases R with _ | ⟨h1, _ | ⟨h2, r⟩⟩
        · simp [escapesOk] at hr
        · simp [escapesOk] at hr
        · rw [escapesOk_escape] at hr
          simp only [Bool.and_eq_true] at hr
          obtain ⟨ys, hys, ht⟩ := hhead h1 xs (h2 :: r) hr.1.1 hR
          obtain ⟨zs, hzs, ht2⟩ := hhead h2 ys r hr.1.2 ht.symm
          subst hys hzs
          rw [escapesOk_escape]
          simp only [Bool.and_eq_true]
          refine ⟨hr.1, ?_⟩
          apply ih zs _ (by rw [← ht2]; exact hr.2)
          simp only [List.length_cons] at hlen
          omega
      · rw [escapesOk_cons_ne x _ hx] at hr
        rw [escapesOk_cons_ne x xs hx]
        exact ih xs hlen hr

/-- Each of the four replacements of `cpeDecode` keeps a malformed escape. -/
theorem escapesOk_of_cpeDecode_replaces (s : Bytes)
    (h : escapesOk (Replace (Replace (Replace (Replace s (utf8 "%5c%28".toList)
        (utf8 "%28".toList)) (utf8 "%5c%29".toList) (utf8 "%29".toList)) (utf8 "\\(".toList)
        (utf8 "(".toList)) (utf8 "\\)".toList) (utf8 ")".toList)) = true) :
    escapesOk s = true := by
  obtain ⟨p1, p2, p3, p4⟩ := cpeDecode_patterns
  have q1 : utf8 "%28".toList = [37, 50, 56] := by decide
  have q2 : utf8 "%29".toList = [37, 50, 57] := by decide
  have q3 : utf8 "(".toList = [40] := by decide
  have q4 : utf8 ")".toList = [41] := by decide
  rw [p1, p2, p3, p4, q1, q2, q3, q4] at h
  unfold Replace at h
  have e1 : ∀ (a b c d : UInt8) (rest : Bytes), ishex a = true → ishex b = true →
      ishex c = true → ishex d = true →
      escapesOk ([37, a, b, 37, c, d] ++ rest) = escapesOk rest := by
    intro a b c d rest ha hb hc hd
    simp [escapesOk, ha, hb, hc, hd]
  have e2 : ∀ (c d : UInt8) (rest : Bytes), ishex c = true → ishex d = true →
      escapesOk ([37, c, d] ++ rest) = escapesOk rest := by
    intro c d rest hc hd
    simp [escapesOk, hc, hd]
  have e3 : ∀ (a b : UInt8) (rest : Bytes), ¬ a = 37 → ¬ b = 37 →
      escapesOk ([a, b] ++ rest) = escapesOk rest := by
    intro a b rest ha hb
    rw [show [a, b] ++ rest = a :: b :: rest from rfl, escapesOk_cons_ne a _ ha,
      escapesOk_cons_ne b _ hb]
  have e4 : ∀ (a : UInt8) (rest : Bytes), ¬ a = 37 →
      escapesOk ([a] ++ rest) = escapesOk rest := by
    intro a rest ha
    rw [show [a] ++ rest = a :: rest from rfl, escapesOk_cons_ne a _ ha]
  have h4 := escapesOk_of_replace 92 [41] 41 [] (by decide)
    (fun rest => e3 92 41 rest (by decide) (by decide))
    (fun rest => e4 41 rest (by decide)) _ _ (Nat.le_refl _) h
  have h3 := escapesOk_of_replace 92 [40] 40 [] (by decide)
    (fun rest => e3 92 40 rest (by decide) (by decide))
    (fun rest => e4 40 rest (by decide)) _ _ (Nat.le_refl _) h4
  have h2 := escapesOk_of_replace 37 [53, 99, 37, 50, 57] 37 [50, 57] (by decide)
    (fun rest => e1 53 99 50 57 rest (by decide) (by decide) (by decide) (by decide))
    (fun rest => e2 50 57 rest (by decide) (by decide)) _ _ (Nat.le_refl _) h3
  exact escapesOk_of_replace 37 [53, 99, 37, 50, 56] 37 [50, 56] (by decide)
    (fun rest => e1 53 99 50 56 rest (by decide) (by decide) (by decide) (by decide))
    (fun rest => e2 50 56 rest (by decide) (by decide)) _ _ (Nat.le_refl _) h2

/-- C30: `cpeDecode` returns the empty string for every field that contains a malformed
percent escape, a `%` that is not followed by two hex digits: the rest of the field is
dropped as well. -/
theorem C30_cpeDecode_malformed_escape (s : Bytes) (h : malformedEscape s = true) :
    cpeDecode s = [] := by
  unfold cpeDecode
  split
  · rfl
  · simp only
    unfold PathUnescape
    split
    · rename_i a heq
      split at heq
      · rename_i hok
        have := escapesOk_of_cpeDecode_replaces s hok
        rw [escapesOk_eq_not_malformed s.length s (Nat.le_refl _), h] at this
        cases this
      · cases heq
    · rfl

/-- C30 on its examples: "100%" and "a%zzb" are decoded to the empty string, and `ParseCPE`
succeeds on a name with such a product field, which it leaves empty. -/
theorem C30_cpeDecode_malformed_escape_witness :
    cpeDecode (utf8 "100%".toList) = [] ∧ cpeDecode (utf8 "a%zzb".toList) = [] ∧
      ParseCPE "cpe:/a:acme:100%:1.0".toList =
        .ok { CPEVersion := 22, Systype := utf8 "a".toList, Vendor := utf8 "acme".toList,
              Product := [], Version := utf8 "1.0".toList } :=
  ⟨C30_cpeDecode_malformed_escape (utf8 "100%".toList) (by decide),
    C30_cpeDecode_malformed_escape (utf8 "a%zzb".toList) (by decide), by rfl⟩

/-! ## A version compared with itself -/

/-- A part compared with itself lets the loop of `ciscoIosVersion.Compare` go on. -/
theorem iosStep_self (n : Nat) (p : Str) : iosStep n p p = none := by
  unfold iosStep
  split
  · rfl
  · have hb : strLt p p = false := codesLt_irrefl _
    cases h : partVal p <;> simp [hb]

theorem iosLoop_self (n : Nat) : ∀ l : List Str, iosLoop n l l = 0
  | [] => rfl
  | p :: ps => by
    simp only [iosLoop, iosStep_self]
    exact iosLoop_self n ps

theorem junosLoop_self (n : Nat) : ∀ l : List Bytes, junosLoop n l l = 0
  | [] => rfl
  | p :: ps => by
    simp only [junosLoop, junosStep_self]
    exact junosLoop_self n ps

theorem asaLoop_self (u : CaseTable) : ∀ l : List Str, asaLoop u l l = 0
  | [] => rfl
  | p :: ps => by
    simp only [asaLoop, VersionCompare_self, and_self, ne_eq, not_true_eq_false, if_false,
      ite_self]
    exact asaLoop_self u ps

theorem ciscoIosVersion_Compare_self (x : ciscoIosVersion) : x.Compare x = 0 := by
  unfold ciscoIosVersion.Compare
  simp only [ne_eq, not_true_eq_false, or_self, if_false]
  exact iosLoop_self _ _

theorem junosVersion_Compare_self (x : junosVersion) : x.Compare x = 0 := by
  unfold junosVersion.Compare
  simp only [ne_eq, not_true_eq_false, or_self, if_false]
  exact junosLoop_self _ _

theorem VersionCompareCiscoASA_self (u : CaseTable) (v : Str) :
    VersionCompareCiscoASA u v v = 0 := by
  unfold VersionCompareCiscoASA
  split
  · exact VersionCompare_self u v
  · exact asaLoop_self u _

theorem VersionCompareAdobe_self (u : CaseTable) (product v : Str) :
    VersionCompareAdobe u product v v = 0 := by
  unfold VersionCompareAdobe
  simp only
  split
  · exact VersionCompare_self u v
  · split
    · exact VersionCompare_self u v
    · split
      · exact VersionCompare_self u v
      · simp only [ne_eq, not_true_eq_false, and_false, if_false]
        exact VersionCompare_self u _

/-- The result of `VersionCompareCiscoIOS` on a version and itself: 0 when the version is in
one of the two formats, 2 otherwise. -/
theorem VersionCompareCiscoIOS_self (v : Str) :
    VersionCompareCiscoIOS v v =
      if (FindAllStringSubmatch reCiscoIOSVersion 7 v).length ≠ 1 ∧
          (FindAllStringSubmatch reCiscoIOSCodenamedVersion 4 v).length ≠ 1 then 2 else 0 := by
  unfold VersionCompareCiscoIOS
  simp only
  by_cases h1 : (FindAllStringSubmatch reCiscoIOSVersion 7 v).length = 1
  · have hl : ((FindAllStringSubmatch reCiscoIOSVersion 7 v).getD 0 []).length = 8 := by
      match hm : FindAllStringSubmatch reCiscoIOSVersion 7 v, h1 with
      | [p], _ =>
        exact findAll_length reCiscoIOSVersion 7 v p (by rw [hm]; simp)
    simp only [h1, hl, and_self, if_true, ne_eq, not_true_eq_false, false_and, if_false]
    exact ciscoIosVersion_Compare_self _
  · simp only [h1, false_and, if_false, ne_eq, not_false_eq_true, true_and]
    by_cases h2 : (FindAllStringSubmatch reCiscoIOSCodenamedVersion 4 v).length = 1
    · have hl : ((FindAllStringSubmatch reCiscoIOSCodenamedVersion 4 v).getD 0 []).length =
          5 := by
        match hm : FindAllStringSubmatch reCiscoIOSCodenamedVersion 4 v, h2 with
        | [p], _ =>
          exact findAll_length reCiscoIOSCodenamedVersion 4 v p (by rw [hm]; simp)
      simp only [h2, hl, and_self, if_true, not_true_eq_false, if_false]
      by_cases hc : sub (FindAllStringSubmatch reCiscoIOSCodenamedVersion 4 v) 0 1 = []
      · simp only [hc, if_true]
        have := ciscoIosVersion_Compare_self
          { CodeName := [],
            Major := sub (FindAllStringSubmatch reCiscoIOSCodenamedVersion 4 v) 0 2,
            Minor := sub (FindAllStringSubmatch reCiscoIOSCodenamedVersion 4 v) 0 3,
            Build := sub (FindAllStringSubmatch reCiscoIOSCodenamedVersion 4 v) 0 4 }
        exact this
      · simp only [hc, if_false]
        exact ciscoIosVersion_Compare_self _
    · simp [h2]

/-- The result of `VersionCompareJuniperJunos` on a version and a patch and themselves: 0 when
the version parses, 2 otherwise. -/
theorem VersionCompareJuniperJunos_self (u : CaseTable) (v p : Str) :
    VersionCompareJuniperJunos u v v p p =
      if (ParseJunosVersion u v).2 = false then 2 else 0 := by
  unfold VersionCompareJuniperJunos
  simp only [ParseJunosVersion_ToUpper, Bool.and_self]
  cases h : (ParseJunosVersion u v).2
  · simp
  · simp only [not_true_eq_false, if_false, Bool.true_eq_false]
    exact junosVersion_Compare_self _

/-- C28, as stated, fails for the vendors with a format of their own: "12" does not parse as
a Junos version and "15" is in neither Cisco IOS format, and the comparison of either with
itself is 2, not 0. -/
theorem C28_VersionCompareProduct_self_counterexample :
    VersionCompareProduct asciiCase "juniper".toList "junos".toList "12".toList "12".toList
        [] [] = 2 ∧
      VersionCompareProduct asciiCase "cisco".toList "ios".toList "15".toList "15".toList
        [] [] = 2 := by
  decide

/-- C28, amended: for every vendor, product, version `v` and patch `p`,
`VersionCompareProduct(vendor, product, v, v, p, p)` is 0, except that it is 2 when the vendor
is "cisco", the product "ios" and neither `reCiscoIOSVersion` nor `reCiscoIOSCodenamedVersion`
has exactly one match in `v`, and when the vendor is "juniper" and `v` does not parse as a
Junos version. -/
theorem C28_VersionCompareProduct_self (u : CaseTable) (vendor product v p : Str) :
    VersionCompareProduct u vendor product v v p p =
      if (vendor = "cisco".toList ∧ product = "ios".toList ∧
            (FindAllStringSubmatch reCiscoIOSVersion 7 v).length ≠ 1 ∧
            (FindAllStringSubmatch reCiscoIOSCodenamedVersion 4 v).length ≠ 1) ∨
          (vendor = "juniper".toList ∧ (ParseJunosVersion u v).2 = false) then 2
      else 0 := by
  unfold VersionCompareProduct VersionCompareCisco PatchCompare
  simp only
  by_cases hc : vendor = "cisco".toList
  · subst hc
    have hj : ¬ ("cisco".toList = "juniper".toList) := by decide
    simp only [if_true, true_and, hj, false_and, or_false]
    by_cases hi : product = "ios".toList
    · simp only [hi, if_true, true_and]
      exact VersionCompareCiscoIOS_self v
    · simp only [hi, if_false, false_and]
      split
      · exact VersionCompareCiscoASA_self u v
      · exact VersionCompare_self u v
  · simp only [hc, if_false, false_and, false_or]
    by_cases ha : vendor = "adobe".toList
    · subst ha
      have hj : ¬ ("adobe".toList = "juniper".toList) := by decide
      simp only [if_true, hj, false_and, if_false]
      exact VersionCompareAdobe_self u product v
    · simp only [ha, if_false]
      by_cases hj : vendor = "juniper".toList
      · simp only [hj, if_true, true_and]
        exact VersionCompareJuniperJunos_self u v p
      · simp only [hj, if_false, false_and, VersionCompare_self, if_true]

/-! ## Cisco ASA versions -/

/-- On ASCII text the loop of `ciscoASAVersion.Compare` does not depend on the case table. -/
theorem asaLoop_ascii (u : CaseTable) : ∀ (vs as : List Str),
    (∀ p ∈ vs, ∀ c ∈ p, c.toNat < 128) → (∀ p ∈ as, ∀ c ∈ p, c.toNat < 128) →
    asaLoop u vs as = asaLoop asciiCase vs as
  | [], _, _, _ => by simp [asaLoop]
  | _ :: _, [], _, _ => by simp [asaLoop]
  | v :: vs, a :: as, hv, ha => by
    simp only [asaLoop]
    rw [VersionCompare_ascii u a v (ha a (by simp)) (hv v (by simp)),
      asaLoop_ascii u vs as (fun p hp => hv p (by simp [hp])) (fun p hp => ha p (by simp [hp]))]

/-- C27, on its own example: the device format "9.5(1)201" and the dotted format "9.5.1.201"
of one release are not rated equal. The first parses as major 9.5, minor 1, build 201, the
second as major 9.5, minor 1.201 and no build, and the comparison of the minor parts gives 1
in one order and -1 in the other. Without a build, "9.5(1)" against "9.5.1" is 0 in both
orders, as the comment on `reCiscoASAVersionFmt1` says of both pairs. -/
theorem C27_VersionCompareCiscoASA_build_differs (u : CaseTable) :
    parseCiscoASAVersion "9.5(1)201".toList =
        some { Major := "9.5".toList, Minor := "1".toList, Build := "201".toList } ∧
      parseCiscoASAVersion "9.5.1.201".toList =
        some { Major := "9.5".toList, Minor := "1.201".toList, Build := [] } ∧
      VersionCompareCiscoASA u "9.5(1)201".toList "9.5.1.201".toList = 1 ∧
      VersionCompareCiscoASA u "9.5.1.201".toList "9.5(1)201".toList = -1 ∧
      VersionCompareCiscoASA u "9.5(1)".toList "9.5.1".toList = 0 ∧
      VersionCompareCiscoASA u "9.5.1".toList "9.5(1)".toList = 0 := by
  have h1 : parseCiscoASAVersion "9.5(1)201".toList =
      some { Major := "9.5".toList, Minor := "1".toList, Build := "201".toList } := by decide
  have h2 : parseCiscoASAVersion "9.5.1.201".toList =
      some { Major := "9.5".toList, Minor := "1.201".toList, Build := [] } := by decide
  have h3 : parseCiscoASAVersion "9.5(1)".toList =
      some { Major := "9.5".toList, Minor := "1".toList, Build := [] } := by decide
  have h4 : parseCiscoASAVersion "9.5.1".toList =
      some { Major := "9.5".toList, Minor := "1".toList, Build := [] } := by decide
  refine ⟨h1, h2, ?_, ?_, ?_, ?_⟩ <;>
    unfold VersionCompareCiscoASA <;>
    simp only [h1, h2, h3, h4, ciscoASAVersion.Compare] <;>
    rw [asaLoop_ascii u _ _ (by decide) (by decide)] <;>
    decide

/-! ## Product items of the NVD entries -/

/-- The condition of the query, field by field: the row is of the product and system type,
and it agrees with the entry on each field that the entry has. The fields the entry lacks
are not constrained. -/
theorem productItemQuery_iff (prodID : Int) (systype : Str) (entry : cveDirEntry)
    (item : vulndbProductItem) :
    productItemQuery prodID systype entry item = true ↔
      item.ProductID = prodID ∧ item.Systype = systype ∧
      (∀ v, entry.Version = some v → v ≠ "*".toList → item.Version = some v) ∧
      (∀ b, entry.VersionStartExcluding = some b → item.VersionStartExcluding = some b) ∧
      (∀ b, entry.VersionStartIncluding = some b → item.VersionStartIncluding = some b) ∧
      (∀ b, entry.VersionEndExcluding = some b → item.VersionEndExcluding = some b) ∧
      (∀ b, entry.VersionEndIncluding = some b → item.VersionEndIncluding = some b) ∧
      (entry.Update ≠ [] → entry.Update ≠ "*".toList → item.Patch = entry.Update) := by
  unfold productItemQuery
  simp only [Bool.and_eq_true, decide_eq_true_eq]
  have hv : ((match entry.Version with
      | some v => if v ≠ "*".toList then decide (item.Version = some v) else true
      | none => true) = true) ↔
      (∀ v, entry.Version = some v → v ≠ "*".toList → item.Version = some v) := by
    cases entry.Version with
    | none =>
      constructor
      · intro _ v hv
        cases hv
      · intro _
        rfl
    | some v =>
      by_cases h : v = "*".toList
      · simp only [ne_eq, h, not_true_eq_false, if_false, true_iff]
        intro v2 hv2 hne
        injection hv2 with e
        exact absurd e.symm hne
      · simp only [ne_eq, h, not_false_eq_true, if_true, decide_eq_true_eq]
        constructor
        · intro hi v2 hv2 _
          injection hv2 with e
          rw [← e]
          exact hi
        · intro hall
          exact hall v rfl h
  have hb : ∀ (e i : Option Str), ((match e with
      | some b => decide (i = some b)
      | none => true) = true) ↔ (∀ b, e = some b → i = some b) := by
    intro e i
    cases e <;> simp
  have hp : ((if entry.Update.length > 0 ∧ entry.Update ≠ "*".toList then
      decide (item.Patch = entry.Update) else true) = true) ↔
      (entry.Update ≠ [] → entry.Update ≠ "*".toList → item.Patch = entry.Update) := by
    have hl : entry.Update.length > 0 ↔ entry.Update ≠ [] := List.length_pos
    by_cases h1 : entry.Update = []
    · have h0 : ¬ (entry.Update.length > 0 ∧ entry.Update ≠ "*".toList) :=
        fun hc => hl.mp hc.1 h1
      rw [if_neg h0]
      exact ⟨fun _ hne _ => absurd h1 hne, fun _ => rfl⟩
    · by_cases h2 : entry.Update = "*".toList
      · have h0 : ¬ (entry.Update.length > 0 ∧ entry.Update ≠ "*".toList) :=
          fun hc => hc.2 h2
        rw [if_neg h0]
        exact ⟨fun _ _ hne => absurd h2 hne, fun _ => rfl⟩
      · rw [if_pos ⟨hl.mpr h1, h2⟩, decide_eq_true_eq]
        exact ⟨fun hi _ _ => hi, fun hall => hall h1 h2⟩
  constructor
  · rintro ⟨⟨⟨⟨⟨⟨⟨a, b⟩, c⟩, d⟩, e⟩, f⟩, g⟩, h⟩
    exact ⟨a, b, hv.mp c, (hb _ _).mp d, (hb _ _).mp e, (hb _ _).mp f, (hb _ _).mp g, hp.mp h⟩
  · rintro ⟨a, b, c, d, e, f, g, h⟩
    exact ⟨⟨⟨⟨⟨⟨⟨a, b⟩, hv.mpr c⟩, (hb _ _).mpr d⟩, (hb _ _).mpr e⟩, (hb _ _).mpr f⟩,
      (hb _ _).mpr g⟩, hp.mpr h⟩

/-- The product item that `processNVDCVE` inserts for an entry satisfies the query built from
the entry. -/
theorem getOrCreateProductItem_query (db : RowChoice vulndbProductItem)
    (items : List vulndbProductItem) (prodID : Int) (systype : Str) (entry : cveDirEntry) :
    productItemQuery prodID systype entry
      (getOrCreateProductItem db items prodID systype entry).1 = true := by
  unfold getOrCreateProductItem
  split
  · rename_i prodItem h
    exact (db.get_some _ _ _ h).2
  · rw [productItemQuery_iff]
    refine ⟨rfl, rfl, ?_, ?_, ?_, ?_, ?_, ?_⟩
    · intro v hv hne
      simp only [hv, ne_eq, hne, not_false_eq_true, if_true]
    · intro b hb; exact hb
    · intro b hb; exact hb
    · intro b hb; exact hb
    · intro b hb; exact hb
    · intro h1 h2
      have h3 : entry.Update.length > 0 := List.length_pos.mpr h1
      exact if_pos ⟨h3, h2⟩

/-- C29, the claim as stated fails: with the item of version 1.0 stored for a product, an
entry of the same product for all versions (version "*", no range) is attached to that item,
which carries the version 1.0 and not the entry's absent version, and no item is inserted;
and an entry with the end bound 2.0 alone is attached to a stored item that also has the
start bound 1.0. Each table has one row, so the answer does not depend on the database's
choice among several rows. -/
theorem C29_getOrCreateProductItem_reuse_counterexample :
    (getOrCreateProductItem firstRow
        [{ ID := 1, ProductID := 1, Systype := "a".toList, Version := some "1.0".toList }]
        1 "a".toList { CVEID := "CVE-2020-0002".toList, Version := some "*".toList } =
      ({ ID := 1, ProductID := 1, Systype := "a".toList, Version := some "1.0".toList },
        [{ ID := 1, ProductID := 1, Systype := "a".toList, Version := some "1.0".toList }])) ∧
    (getOrCreateProductItem firstRow
        [{ ID := 1, ProductID := 1, Systype := "a".toList,
           VersionStartIncluding := some "1.0".toList,
           VersionEndExcluding := some "2.0".toList }]
        1 "a".toList
        { CVEID := "CVE-2020-0003".toList, VersionEndExcluding := some "2.0".toList }).1 =
      { ID := 1, ProductID := 1, Systype := "a".toList,
        VersionStartIncluding := some "1.0".toList,
        VersionEndExcluding := some "2.0".toList } := by
  decide

/-- C29, amended: whatever row the database answers when several match, the product item to
which `processNVDCVE` attaches the vulnerability row of an entry is of the entry's product
and system type and carries each field that the entry has: its version unless that is absent
or "*", each of the four range endpoints that the entry has, and its patch unless that is
empty or "*". A stored item that agrees with the entry in this way is reused whatever it
holds in the fields the entry lacks: when such an item is stored, the item attached is a
stored one and the table is unchanged. Otherwise one item is inserted, and it carries the
entry's version, endpoints and patch, the absent ones being NULL (the empty patch). -/
theorem C29_getOrCreateProductItem_agrees (db : RowChoice vulndbProductItem)
    (items : List vulndbProductItem) (prodID : Int) (systype : Str) (entry : cveDirEntry) :
    (getOrCreateProductItem db items prodID systype entry).1.ProductID = prodID ∧
    (getOrCreateProductItem db items prodID systype entry).1.Systype = systype ∧
    (∀ v, entry.Version = some v → v ≠ "*".toList →
      (getOrCreateProductItem db items prodID systype entry).1.Version = some v) ∧
    (∀ b, entry.VersionStartExcluding = some b →
      (getOrCreateProductItem db items prodID systype entry).1.VersionStartExcluding
        = some b) ∧
    (∀ b, entry.VersionStartIncluding = some b →
      (getOrCreateProductItem db items prodID systype entry).1.VersionStartIncluding
        = some b) ∧
    (∀ b, entry.VersionEndExcluding = some b →
      (getOrCreateProductItem db items prodID systype entry).1.VersionEndExcluding
        = some b) ∧
    (∀ b, entry.VersionEndIncluding = some b →
      (getOrCreateProductItem db items prodID systype entry).1.VersionEndIncluding
        = some b) ∧
    (entry.Update ≠ [] → entry.Update ≠ "*".toList →
      (getOrCreateProductItem db items prodID systype entry).1.Patch = entry.Update) ∧
    ((∃ item ∈ items, productItemQuery prodID systype entry item = true) →
      (getOrCreateProductItem db items prodID systype entry).1 ∈ items ∧
      (getOrCreateProductItem db items prodID systype entry).2 = items) ∧
    ((∀ item ∈ items, productItemQuery prodID systype entry item = false) →
      (getOrCreateProductItem db items prodID systype entry).2
        = items ++ [(getOrCreateProductItem db items prodID systype entry).1] ∧
      (getOrCreateProductItem db items prodID systype entry).1 =
        { ID := nextProductItemID items,
          ProductID := prodID,
          Systype := systype,
          Version := if entry.Version = some "*".toList then none else entry.Version,
          VersionStartExcluding := entry.VersionStartExcluding,
          VersionStartIncluding := entry.VersionStartIncluding,
          VersionEndExcluding := entry.VersionEndExcluding,
          VersionEndIncluding := entry.VersionEndIncluding,
          Patch := if entry.Update = [] ∨ entry.Update = "*".toList then [] else entry.Update,
          SWTarget :=
            if entry.SWTarget = [] ∨ entry.SWTarget = "*".toList then none
            else some entry.SWTarget }) := by
  have hq := (productItemQuery_iff prodID systype entry _).mp
    (getOrCreateProductItem_query db items prodID systype entry)
  obtain ⟨h1, h2, h3, h4, h5, h6, h7, h8⟩ := hq
  refine ⟨h1, h2, h3, h4, h5, h6, h7, h8, ?_, ?_⟩
  · rintro ⟨item, hm, hi⟩
    unfold getOrCreateProductItem
    split
    · rename_i prodItem h
      exact ⟨(db.get_some _ _ _ h).1, rfl⟩
    · rename_i h
      rw [db.get_none _ _ h item hm] at hi
      cases hi
  · intro hall
    unfold getOrCreateProductItem
    split
    · rename_i prodItem h
      have := db.get_some _ _ _ h
      rw [hall prodItem this.1] at this
      cases this.2
    · refine ⟨rfl, ?_⟩
      have e1 : (match entry.Version with
          | some v => if v ≠ "*".toList then some v else none
          | none => none)
          = if entry.Version = some "*".toList then none else entry.Version := by
        cases entry.Version with
        | none =>
          dsimp only
          rw [if_neg (fun e => by cases e)]
        | some v =>
          dsimp only
          by_cases h : v = "*".toList
          · rw [if_neg (not_not.mpr h), if_pos (by rw [h])]
          · rw [if_pos h, if_neg (fun e => h (Option.some.inj e))]
      have e2 : ∀ s : Str, (s.length > 0 ∧ s ≠ "*".toList) ↔ ¬ (s = [] ∨ s = "*".toList) := by
        intro s
        rw [not_or]
        exact and_congr_left (fun _ => List.length_pos)
      have e3 : (if entry.Update.length > 0 ∧ entry.Update ≠ "*".toList then entry.Update
          else [])
          = if entry.Update = [] ∨ entry.Update = "*".toList then [] else entry.Update := by
        by_cases h : entry.Update = [] ∨ entry.Update = "*".toList
        · rw [if_pos h, if_neg ((e2 _).not_left.mpr h)]
        · rw [if_neg h, if_pos ((e2 _).mpr h)]
      have e4 : (if entry.SWTarget.length > 0 ∧ entry.SWTarget ≠ "*".toList then
          some entry.SWTarget else none)
          = if entry.SWTarget = [] ∨ entry.SWTarget = "*".toList then none
            else some entry.SWTarget := by
        by_cases h : entry.SWTarget = [] ∨ entry.SWTarget = "*".toList
        · rw [if_pos h, if_neg ((e2 _).not_left.mpr h)]
        · rw [if_neg h, if_pos ((e2 _).mpr h)]
      rw [e3, e4]
      dsimp only
      congr 1

/-- On a table with several matching rows the item attached depends on the row the database
answers: of two stored items of version 1.0 with different patches, an entry of version 1.0
without patch is attached to the one or the other. Both satisfy the query. -/
theorem getOrCreateProductItem_choice :
    (getOrCreateProductItem firstRow
        [{ ID := 1, ProductID := 1, Systype := "a".toList, Version := some "1.0".toList,
           Patch := "sp1".toList },
         { ID := 2, ProductID := 1, Systype := "a".toList, Version := some "1.0".toList,
           Patch := "sp2".toList }]
        1 "a".toList { CVEID := "CVE-2020-0004".toList, Version := some "1.0".toList }).1.ID
      = 1 ∧
    (getOrCreateProductItem lastRow
        [{ ID := 1, ProductID := 1, Systype := "a".toList, Version := some "1.0".toList,
           Patch := "sp1".toList },
         { ID := 2, ProductID := 1, Systype := "a".toList, Version := some "1.0".toList,
           Patch := "sp2".toList }]
        1 "a".toList { CVEID := "CVE-2020-0004".toList, Version := some "1.0".toList }).1.ID
      = 2 := by
  decide

/-! ## Alternative names -/

/-- The buffer recorded by `flipLoop` at a position holding `-` or `_`: the part up to and
including the position with every `-` and `_` flipped, the part after it unchanged. -/
theorem flipLoop_mem : ∀ (rest done : Str) (i : Nat),
    (rest[i]? = some '-' ∨ rest[i]? = some '_') →
      done ++ (rest.take (i + 1)).map flipChar ++ rest.drop (i + 1) ∈ flipLoop done rest
  | [], _, i, h => by rcases h with h | h <;> simp at h
  | b :: rest, done, 0, h => by
    simp only [List.getElem?_cons_zero, Option.some.injEq] at h
    rcases h with h | h
    · subst h
      simp [flipLoop, flipChar]
    · subst h
      simp [flipLoop, flipChar]
  | b :: rest, done, i + 1, h => by
    simp only [List.getElem?_cons_succ] at h
    have ih := flipLoop_mem rest (done ++ [flipChar b]) i h
    have he : done ++ ((b :: rest).take (i + 1 + 1)).map flipChar ++ (b :: rest).drop (i + 1 + 1)
        = done ++ [flipChar b] ++ (rest.take (i + 1)).map flipChar ++ rest.drop (i + 1) := by
      simp
    rw [he]
    unfold flipLoop
    by_cases h1 : b = '-'
    · subst h1
      exact List.mem_cons_of_mem _ ih
    · by_cases h2 : b = '_'
      · subst h2
        exact List.mem_cons_of_mem _ ih
      · have hb : flipChar b = b := by simp [flipChar, h1, h2]
        rw [hb] at ih
        rw [hb, if_neg h1, if_neg h2]
        exact ih

/-- C24, the claim as stated fails: the name `a-b-c` holds `-` at position 3, and the copy in
which only that character is flipped, `a-b_c`, is not among the alternative names, which are
`a-b-c`, `a_b-c` and `a_b_c`. -/
theorem C24_alternativeNames_single_flip_counterexample :
    ("a-b-c".toList)[3]? = some '-' ∧
    "a-b-c".toList.set 3 '_' = "a-b_c".toList ∧
    "a-b_c".toList ∉ alternativeNames "a-b-c".toList ∧
    alternativeNames "a-b-c".toList = ["a-b-c".toList, "a_b-c".toList, "a_b_c".toList] := by
  decide

/-- C24, amended: for every name and every position `i` of it that holds `-` or `_`, the list
`alternativeNames name` contains the copy of the name in which the character at `i` and every
`-` and `_` before it are flipped, and the characters after `i` are unchanged. -/
theorem C24_alternativeNames_flipped_up_to (name : Str) (i : Nat)
    (h : name[i]? = some '-' ∨ name[i]? = some '_') :
    (name.take (i + 1)).map flipChar ++ name.drop (i + 1) ∈ alternativeNames name := by
  have hm := flipLoop_mem name [] i h
  simp only [List.nil_append] at hm
  unfold alternativeNames
  exact List.mem_append_left _ (List.mem_cons_of_mem _ hm)

theorem C24_alternativeNames_flipped_up_to_witness :
    ("sql-server_2012-r2".toList)[10]? = some '_' ∧
    "sql_server-2012-r2".toList ∈ alternativeNames "sql-server_2012-r2".toList :=
  ⟨by decide, C24_alternativeNames_flipped_up_to "sql-server_2012-r2".toList 10
    (Or.inr (by decide))⟩

/-! ## Replacements that leave a text as it is -/

theorem replaceAllAux_nil (r : Re) (n : Nat) (repl : Str) (h : r.matchAt n [] = none) :
    replaceAllAux r n repl false 0 [] = [] := by
  simp [replaceAllAux, h]

theorem replaceAllAux_cons_of_none (r : Re) (n : Nat) (repl : Str) (x : Char) (xs : Str)
    (h : r.matchAt n (x :: xs) = none) :
    replaceAllAux r n repl false 0 (x :: xs) = x :: replaceAllAux r n repl false 0 xs := by
  simp [replaceAllAux, h]

/-- A text none of whose final parts has a match at its start is left as it is. -/
theorem ReplaceAllString_of_no_match (r : Re) (n : Nat) (repl : Str) : ∀ s : Str,
    (∀ t v, s = t ++ v → r.matchAt n v = none) → ReplaceAllString r n s repl = s
  | [], h => replaceAllAux_nil r n repl (h [] [] rfl)
  | x :: xs, h => by
    unfold ReplaceAllString
    rw [replaceAllAux_cons_of_none r n repl x xs (h [] (x :: xs) rfl)]
    have ih := ReplaceAllString_of_no_match r n repl xs
      (fun t v ht => h (x :: t) v (by rw [ht]; rfl))
    unfold ReplaceAllString at ih
    rw [ih]

theorem exec_cls_cons {α : Type} (p : Char → Bool) (k : Str → Caps → Option α) (x : Char)
    (xs : Str) (c : Caps) : (Re.cls p).exec k (x :: xs) c = if p x then k xs c else none :=
  rfl

/-- A repetition that must take at least one character starts with a character of its
class. -/
theorem exec_rep_pos_elim {α : Type} (p : Char → Bool) (lo : Nat) (hi : Option Nat)
    (k : Str → Caps → Option α) (s : Str) (c : Caps) (x : α) (hlo : 0 < lo)
    (h : (Re.rep p lo hi).exec k s c = some x) : ∃ y ys, s = y :: ys ∧ p y = true := by
  cases s with
  | nil =>
    exfalso
    have h0 : repMax p hi [] = 0 := by
      unfold repMax
      cases hi <;> simp
    simp only [Re.exec, h0, countDown_nil lo 0 hlo, List.findSome?_nil] at h
    cases h
  | cons y ys =>
    cases hp : p y with
    | true => exact ⟨y, ys, rfl, hp⟩
    | false =>
      exfalso
      have h0 : repMax p hi (y :: ys) = 0 := by
        unfold repMax
        cases hi <;> simp [List.takeWhile, hp]
      simp only [Re.exec, h0, countDown_nil lo 0 hlo, List.findSome?_nil] at h
      cases h

theorem isReSpace_isSpace (c : Char) (h : isReSpace c = true) : isSpace c = true := by
  simp only [isReSpace, Bool.or_eq_true, beq_iff_eq] at h
  simp only [isSpace, Bool.or_eq_true, beq_iff_eq, Bool.and_eq_true, decide_eq_true_eq]
  omega

theorem noDouble_cons (a : Char) (s : Str) (h : noDouble (a :: s) = true) :
    noDouble s = true := by
  cases s with
  | nil => rfl
  | cons b v =>
    simp only [noDouble, Bool.and_eq_true] at h
    exact h.2

theorem noDouble_suffix : ∀ (t v : Str), noDouble (t ++ v) = true → noDouble v = true
  | [], _, h => h
  | a :: t, v, h => noDouble_suffix t v (noDouble_cons a (t ++ v) h)

/-- The pattern `reMultispaces` has no match in a text without two adjacent white space
characters. -/
theorem reMultispaces_matchAt_none (s : Str) (h : noDouble s = true) :
    reMultispaces.matchAt 0 s = none := by
  cases hm : reMultispaces.matchAt 0 s with
  | none => rfl
  | some x =>
    exfalso
    unfold Re.matchAt reMultispaces at hm
    rw [Re.exec, Re.exec] at hm
    cases s with
    | nil => simp [Re.exec] at hm
    | cons a rest =>
      rw [exec_cls_cons] at hm
      split at hm
      · rename_i ha
        obtain ⟨y, ys, hy, hp⟩ := exec_rep_pos_elim isReSpace 1 none _ _ _ _ (by decide) hm
        subst hy
        simp only [noDouble, Bool.and_eq_true, Bool.not_eq_true', Bool.and_eq_false_iff] at h
        have h1 := isReSpace_isSpace a ha
        have h2 := isReSpace_isSpace y hp
        rcases h.1 with h3 | h3
        · rw [h1] at h3; cases h3
        · rw [h2] at h3; cases h3
      · cases hm

theorem ReplaceAllString_reMultispaces (s : Str) (repl : Str) (h : noDouble s = true) :
    ReplaceAllString reMultispaces 0 s repl = s :=
  ReplaceAllString_of_no_match _ _ _ s (fun t v ht =>
    reMultispaces_matchAt_none v (noDouble_suffix t v (by rw [← ht]; exact h)))

/-- The pattern `reVersion` has no match at the start of a text without a digit. -/
theorem reVersion_matchAt_none (s : Str) (h : ∀ c ∈ s, isDigit c = false) :
    reVersion.matchAt 5 s = none := by
  cases hm : reVersion.matchAt 5 s with
  | none => rfl
  | some x =>
    exfalso
    unfold Re.matchAt reVersion at hm
    simp only [Re.cat] at hm
    rw [Re.exec] at hm
    obtain ⟨s1, c1, h1, t1, ht1⟩ := exec_seq_elim _ _ _ _ _ _ hm
    obtain ⟨s2, c2, h2, t2, ht2⟩ := exec_seq_elim _ _ _ _ _ _ h1
    rw [Re.exec, Re.exec, Re.exec] at h2
    obtain ⟨y, ys, hy, hp⟩ := exec_rep_pos_elim _ _ _ _ _ _ _ (by decide) h2
    have hmem : y ∈ s := by
      rw [ht1, ht2, hy]
      simp
    rw [h y hmem] at hp
    cases hp

theorem ReplaceAllString_reVersion (s : Str) (repl : Str) (h : ∀ c ∈ s, isDigit c = false) :
    ReplaceAllString reVersion 5 s repl = s :=
  ReplaceAllString_of_no_match _ _ _ s (fun t v ht =>
    reVersion_matchAt_none v (fun c hc => h c (by rw [ht]; exact List.mem_append_right t hc)))

/-- The pattern `reBracketed` has no match at the start of a text without an opening
parenthesis. -/
theorem reBracketed_matchAt_none (s : Str) (h : '(' ∉ s) :
    reBracketed.matchAt 0 s = none := by
  cases hm : reBracketed.matchAt 0 s with
  | none => rfl
  | some x =>
    exfalso
    unfold Re.matchAt reBracketed at hm
    simp only [Re.cat] at hm
    rw [Re.exec] at hm
    obtain ⟨y, ys, hy, hp⟩ := exec_seq_cls_elim _ _ _ _ _ _ hm
    simp only [lit, decide_eq_true_eq] at hp
    subst hy hp
    exact h (List.mem_cons_self _ _)

theorem ReplaceAllString_reBracketed (s : Str) (repl : Str) (h : '(' ∉ s) :
    ReplaceAllString reBracketed 0 s repl = s :=
  ReplaceAllString_of_no_match _ _ _ s (fun t v ht =>
    reBracketed_matchAt_none v (fun hc => h (by rw [ht]; exact List.mem_append_right t hc)))

/-- A text that does not start with a digit is not a numeral. -/
theorem MatchWhole_reIsNumeric_false (x : Char) (xs : Str) (h : isDigit x = false) :
    MatchWhole reIsNumeric (x :: xs) = false := by
  cases hm : MatchWhole reIsNumeric (x :: xs) with
  | false => rfl
  | true =>
    exfalso
    unfold MatchWhole reIsNumeric Re.plus at hm
    rw [Option.isSome_iff_exists] at hm
    obtain ⟨a, ha⟩ := hm
    obtain ⟨y, ys, hy, hp⟩ := exec_rep_pos_elim _ _ _ _ _ _ _ (by decide) ha
    injection hy with hy1 hy2
    subst hy1
    rw [h] at hp
    cases hp

/-! ## Occurrences of a text in another -/

theorem HasPrefix_nil (s : Str) : HasPrefix s [] = true := by
  cases s <;> rfl

theorem HasPrefix_append_self : ∀ (p v : Str), HasPrefix (p ++ v) p = true
  | [], v => HasPrefix_nil v
  | a :: p, v => by
    simp only [List.cons_append, HasPrefix, decide_True, Bool.true_and]
    exact HasPrefix_append_self p v

theorem HasPrefix_iff : ∀ (s p : Str), HasPrefix s p = true ↔ ∃ v, s = p ++ v
  | s, [] => by
    simp [HasPrefix_nil]
  | [], b :: p => by
    simp [HasPrefix]
  | a :: s, b :: p => by
    simp only [HasPrefix, Bool.and_eq_true, decide_eq_true_eq, List.cons_append,
      List.cons.injEq, HasPrefix_iff s p]
    constructor
    · rintro ⟨h1, v, h2⟩
      exact ⟨v, h1, h2⟩
    · rintro ⟨v, h1, h2⟩
      exact ⟨h1, v, h2⟩

theorem Contains_nil (s : Str) : Contains s [] = true := by
  cases s with
  | nil => rfl
  | cons x xs => simp [Contains, HasPrefix_nil]

theorem Contains_iff : ∀ (s sub : Str), Contains s sub = true ↔ ∃ t v, s = t ++ sub ++ v
  | [], sub => by
    simp only [Contains, List.isEmpty_iff]
    constructor
    · intro h
      exact ⟨[], [], by simp [h]⟩
    · rintro ⟨t, v, h⟩
      have := congrArg List.length h
      simp only [List.length_nil, List.length_append] at this
      exact List.length_eq_zero.mp (by omega)
  | x :: xs, sub => by
    simp only [Contains, Bool.or_eq_true, HasPrefix_iff, Contains_iff xs sub]
    constructor
    · rintro (⟨v, h⟩ | ⟨t, v, h⟩)
      · exact ⟨[], v, by simpa using h⟩
      · exact ⟨x :: t, v, by simp [h]⟩
    · rintro ⟨t, v, h⟩
      cases t with
      | nil => exact Or.inl ⟨v, by simpa using h⟩
      | cons y t =>
        simp only [List.cons_append, List.cons.injEq] at h
        exact Or.inr ⟨t, v, h.2⟩

/-- An occurrence of a text without `sep` in two texts joined by `sep` lies in one of
them. -/
theorem Contains_sep (sep : Char) (a b sub : Str) (hs : sep ∉ sub)
    (h : Contains (a ++ sep :: b) sub = true) :
    Contains a sub = true ∨ Contains b sub = true := by
  rw [Contains_iff] at h
  obtain ⟨t, v, h⟩ := h
  rw [List.append_assoc] at h
  rcases List.append_eq_append_iff.mp h with ⟨a1, h1, h2⟩ | ⟨c1, h1, h2⟩
  · -- t = a ++ a1, sep :: b = a1 ++ (sub ++ v)
    cases a1 with
    | nil =>
      simp only [List.nil_append] at h2
      cases sub with
      | nil => exact Or.inl (Contains_nil a)
      | cons y ys =>
        simp only [List.cons_append, List.cons.injEq] at h2
        exact absurd (h2.1 ▸ List.mem_cons_self _ _) hs
    | cons y a1 =>
      simp only [List.cons_append, List.cons.injEq] at h2
      exact Or.inr ((Contains_iff b sub).mpr ⟨a1, v, by rw [h2.2, List.append_assoc]⟩)
  · -- a = t ++ c1, sub ++ v = c1 ++ sep :: b
    rcases List.append_eq_append_iff.mp h2 with ⟨d, h3, h4⟩ | ⟨d, h3, h4⟩
    · -- c1 = sub ++ d
      exact Or.inl ((Contains_iff a sub).mpr ⟨t, d, by rw [h1, h3, List.append_assoc]⟩)
    · -- sub = c1 ++ d, sep :: b = d ++ v
      cases d with
      | nil =>
        simp only [List.append_nil] at h3
        exact Or.inl ((Contains_iff a sub).mpr ⟨t, [], by rw [h1, h3, List.append_nil]⟩)
      | cons y d =>
        simp only [List.cons_append, List.cons.injEq] at h4
        exfalso
        apply hs
        rw [h3, h4.1]
        simp

/-- An occurrence of a text without `sep` in words joined by `sep` lies in one of the
words. -/
theorem Contains_joinWith (sep : Char) (sub : Str) (hs : sep ∉ sub) (hne : sub ≠ []) :
    ∀ ws : List Str, Contains (joinWith sep ws) sub = true → ∃ w ∈ ws, Contains w sub = true
  | [], h => by
    simp only [joinWith, Contains, List.isEmpty_iff] at h
    exact absurd h hne
  | [w], h => ⟨w, List.mem_singleton.mpr rfl, h⟩
  | w :: w2 :: ws, h => by
    simp only [joinWith] at h
    rcases Contains_sep sep _ _ sub hs h with h1 | h1
    · exact ⟨w, List.mem_cons_self _ _, h1⟩
    · obtain ⟨w3, hw, hc⟩ := Contains_joinWith sep sub hs hne (w2 :: ws) h1
      exact ⟨w3, List.mem_cons_of_mem _ hw, hc⟩

/-- A part of an occurring text occurs. -/
theorem Contains_part (s p sub q : Str) (h : Contains s (p ++ sub ++ q) = true) :
    Contains s sub = true := by
  rw [Contains_iff] at h ⊢
  obtain ⟨t, v, h⟩ := h
  exact ⟨t ++ p, q ++ v, by rw [h]; simp⟩

/-! ## `strings.Replace` -/

/-- Nothing is replaced in a text in which `old` does not occur. -/
theorem replaceStrAux_of_not_Contains (old new : Str) (budget : Option Nat) : ∀ s : Str,
    Contains s old = false → replaceStrAux old new budget 0 s = s
  | [], _ => by simp [replaceStrAux]
  | x :: xs, h => by
    simp only [Contains, Bool.or_eq_false_iff] at h
    rw [replaceStrAux, if_neg (by rw [h.1]; simp),
      replaceStrAux_of_not_Contains old new budget xs h.2]

theorem replaceStrAux_zero (old new : Str) : ∀ s : Str,
    replaceStrAux old new (some 0) 0 s = s
  | [] => by simp [replaceStrAux]
  | x :: xs => by
    rw [replaceStrAux, if_neg (by simp), replaceStrAux_zero old new xs]

theorem replaceStrAux_skip (old new : Str) (budget : Option Nat) : ∀ (a rest : Str),
    replaceStrAux old new budget a.length (a ++ rest) = replaceStrAux old new budget 0 rest
  | [], rest => rfl
  | x :: a, rest => by
    simp only [List.length_cons, List.cons_append, replaceStrAux]
    exact replaceStrAux_skip old new budget a rest

/-- With one replacement allowed, a text that starts with `old` loses this occurrence. -/
theorem ReplaceStr_one_at_start (old rest : Str) (h : old ≠ []) :
    ReplaceStr (old ++ rest) old [] 1 = rest := by
  cases old with
  | nil => exact absurd rfl h
  | cons o os =>
    unfold ReplaceStr
    have hp := HasPrefix_append_self (o :: os) rest
    simp only [List.cons_append] at hp
    simp only [List.cons_append]
    rw [replaceStrAux, if_pos ⟨by decide, hp⟩]
    simp only [List.nil_append, List.length_cons, Nat.add_sub_cancel]
    have h1 : (Option.map (fun b => b - 1) (if (1 : Int) < 0 then none else some (1 : Int).toNat))
        = some 0 := by decide
    rw [h1, replaceStrAux_skip, replaceStrAux_zero]

theorem ReplaceStr_of_not_Contains (s old new : Str) (n : Int) (h : Contains s old = false) :
    ReplaceStr s old new n = s :=
  replaceStrAux_of_not_Contains old new _ s h

/-- All occurrences of a one-character text replaced by another one. -/
theorem ReplaceStr_char (a b : Char) : ∀ s : Str,
    ReplaceStr s [a] [b] (-1) = s.map (fun c => if c = a then b else c)
  | [] => by simp [ReplaceStr, replaceStrAux]
  | x :: xs => by
    have ih := ReplaceStr_char a b xs
    unfold ReplaceStr at ih ⊢
    have hn : (if (-1 : Int) < 0 then (none : Option Nat) else some (-1 : Int).toNat) = none := by
      decide
    rw [hn] at ih ⊢
    rw [replaceStrAux]
    by_cases hx : x = a
    · subst hx
      rw [if_pos ⟨by simp, by simp [HasPrefix, HasPrefix_nil]⟩]
      simp only [Option.map_none', List.length_singleton, Nat.sub_self, List.singleton_append,
        List.map_cons, if_true]
      rw [ih]
    · rw [if_neg (by simp [HasPrefix, hx])]
      simp only [List.map_cons, if_neg hx]
      rw [ih]

theorem ReplaceStr_char_of_not_mem (a b : Char) (s : Str) (h : a ∉ s) :
    ReplaceStr s [a] [b] (-1) = s := by
  rw [ReplaceStr_char]
  conv_rhs => rw [← List.map_id s]
  apply List.map_congr_left
  intro c hc
  have : c ≠ a := fun e => h (e ▸ hc)
  simp [this]

/-! ## Product names -/

theorem wordChar_elim (c : Char) (h : wordChar c = true) :
    isSpace c = false ∧ isDigit c = false ∧ c ≠ '-' ∧ c ≠ '–' ∧ c ≠ '(' ∧ c ≠ ' ' := by
  simp only [wordChar, Bool.and_eq_true, Bool.not_eq_true', decide_eq_false_iff_not] at h
  refine ⟨h.1.1.1.1, h.1.1.1.2, h.1.1.2, h.1.2, h.2, ?_⟩
  intro e
  subst e
  exact absurd h.1.1.1.1 (by decide)

/-- The lower case of an ASCII letter is a character of a plain word. -/
theorem wordChar_toLower_alpha (u : CaseTable) (c : Char) (h : isAlpha c = true) :
    wordChar (u.toLower c) = true := by
  have hlt : c.toNat < 128 := by
    simp only [isAlpha, Bool.or_eq_true, Bool.and_eq_true, decide_eq_true_eq] at h
    omega
  rw [u.toLower_ascii c hlt]
  have key : ∀ n : Fin 128, ∀ hv : n.val.isValidChar,
      isAlpha (Char.ofNatAux n.val hv) = true →
        wordChar (Char.ofNatAux n.val hv).toLower = true := by
    decide
  have hv : c.toNat.isValidChar := c.valid
  have hc : c = Char.ofNatAux c.toNat hv := rfl
  rw [hc] at h ⊢
  exact key ⟨c.toNat, hlt⟩ hv h
theorem noDouble_cons_of_not_space (x : Char) (s : Str) (hx : isSpace x = false)
    (h : noDouble s = true) : noDouble (x :: s) = true := by
  cases s with
  | nil => rfl
  | cons b v => simp [noDouble, hx, h]

theorem noDouble_of_no_space : ∀ s : Str, (∀ c ∈ s, isSpace c = false) → noDouble s = true
  | [], _ => rfl
  | x :: xs, h =>
    noDouble_cons_of_not_space x xs (h x (List.mem_cons_self _ _))
      (noDouble_of_no_space xs (fun c hc => h c (List.mem_cons_of_mem _ hc)))

theorem noDouble_append_sep (sep : Char) : ∀ (a : Str) (y : Char) (ys : Str),
    (∀ c ∈ a, isSpace c = false) → isSpace y = false → noDouble (y :: ys) = true →
      noDouble (a ++ sep :: y :: ys) = true
  | [], y, ys, _, hy, h => by
    simp [noDouble, hy, h]
  | x :: a, y, ys, ha, hy, h =>
    noDouble_cons_of_not_space x _ (ha x (List.mem_cons_self _ _))
      (noDouble_append_sep sep a y ys (fun c hc => ha c (List.mem_cons_of_mem _ hc)) hy h)

/-- Non-empty plain words joined by a separator: the text starts and ends with a character
of a word. -/
theorem joinWith_ends (sep : Char) : ∀ ws : List Str, ws ≠ [] →
    (∀ w ∈ ws, w ≠ [] ∧ ∀ c ∈ w, wordChar c = true) →
      (∃ x xs, joinWith sep ws = x :: xs ∧ wordChar x = true) ∧
      (∃ front c, joinWith sep ws = front ++ [c] ∧ wordChar c = true)
  | [], h, _ => absurd rfl h
  | [w], _, hw => by
    obtain ⟨hne, hc⟩ := hw w (List.mem_singleton.mpr rfl)
    constructor
    · cases w with
      | nil => exact absurd rfl hne
      | cons x xs => exact ⟨x, xs, rfl, hc x (List.mem_cons_self _ _)⟩
    · refine ⟨w.dropLast, w.getLast hne, ?_, hc _ (List.getLast_mem hne)⟩
      simp only [joinWith]
      exact (List.dropLast_append_getLast hne).symm
  | w :: w2 :: ws, _, hw => by
    obtain ⟨hne, hc⟩ := hw w (List.mem_cons_self _ _)
    obtain ⟨_, front, c, hf, hcc⟩ := joinWith_ends sep (w2 :: ws) (List.cons_ne_nil _ _)
      (fun w3 h3 => hw w3 (List.mem_cons_of_mem _ h3))
    constructor
    · cases w with
      | nil => exact absurd rfl hne
      | cons x xs => exact ⟨x, _, rfl, hc x (List.mem_cons_self _ _)⟩
    · refine ⟨w ++ sep :: front, c, ?_, hcc⟩
      simp only [joinWith, hf, List.append_assoc, List.cons_append]

theorem noDouble_joinWith : ∀ ws : List Str,
    (∀ w ∈ ws, w ≠ [] ∧ ∀ c ∈ w, wordChar c = true) → noDouble (joinWith ' ' ws) = true
  | [], _ => rfl
  | [w], hw =>
    noDouble_of_no_space w (fun c hc =>
      (wordChar_elim c ((hw w (List.mem_singleton.mpr rfl)).2 c hc)).1)
  | w :: w2 :: ws, hw => by
    have hrest : ∀ w3 ∈ w2 :: ws, w3 ≠ [] ∧ ∀ c ∈ w3, wordChar c = true :=
      fun w3 h3 => hw w3 (List.mem_cons_of_mem _ h3)
    have ih := noDouble_joinWith (w2 :: ws) hrest
    obtain ⟨⟨y, ys, hy, hyc⟩, _⟩ := joinWith_ends ' ' (w2 :: ws) (List.cons_ne_nil _ _) hrest
    simp only [joinWith] at hy ih ⊢
    rw [hy] at ih ⊢
    exact noDouble_append_sep ' ' w y ys
      (fun c hc => (wordChar_elim c ((hw w (List.mem_cons_self _ _)).2 c hc)).1)
      (wordChar_elim y hyc).1 ih

theorem mem_joinWith_words (ws : List Str)
    (hw : ∀ w ∈ ws, w ≠ [] ∧ ∀ c ∈ w, wordChar c = true) (c : Char)
    (hc : c ∈ joinWith ' ' ws) : c = ' ' ∨ wordChar c = true := by
  rcases mem_joinWith ' ' c ws hc with h | ⟨d, hd, hcd⟩
  · exact Or.inl h
  · exact Or.inr ((hw d hd).2 c hcd)

theorem TrimSpace_of_ends (x c : Char) (xs front : Str) (hx : isSpace x = false)
    (hc : isSpace c = false) (h : x :: xs = front ++ [c]) : TrimSpace (x :: xs) = x :: xs := by
  unfold TrimSpace
  have h1 : (x :: xs).dropWhile isSpace = x :: xs := by
    simp [List.dropWhile, hx]
  rw [h1, h, List.reverse_append]
  simp [List.dropWhile, hc]

theorem map_joinWith (f : Char → Char) (sep : Char) : ∀ ws : List Str,
    (joinWith sep ws).map f = joinWith (f sep) (ws.map (fun w => w.map f))
  | [] => rfl
  | [w] => rfl
  | w :: w2 :: ws => by
    have ih := map_joinWith f sep (w2 :: ws)
    simp only [List.map_cons] at ih
    simp only [joinWith, List.map_append, List.map_cons, ih]

theorem ToLower_joinWith_space (u : CaseTable) (ws : List Str) :
    ToLower u (joinWith ' ' ws) = joinWith ' ' (ws.map (ToLower u)) := by
  unfold ToLower
  rw [map_joinWith, u.toLower_ascii ' ' (by decide)]
  rfl

/-- The final replacement of `prepProductName` on plain words joined by spaces. -/
theorem underscore_joinWith (ws : List Str)
    (hw : ∀ w ∈ ws, w ≠ [] ∧ ∀ c ∈ w, wordChar c = true) :
    (joinWith ' ' ws).map (fun c => if c = ' ' then '_' else c) = joinWith '_' ws := by
  rw [map_joinWith]
  simp only [if_true]
  congr 1
  conv_rhs => rw [← List.map_id ws]
  apply List.map_congr_left
  intro w hwm
  conv_rhs => rw [id, ← List.map_id w]
  apply List.map_congr_left
  intro c hc
  have := (wordChar_elim c ((hw w hwm).2 c hc)).2.2.2.2.2
  simp [this]

/-- The steps of `prepProductName` on a lower-cased title made of the vendor name, a space
and plain words joined by single spaces, none of which contains the vendor name. -/
theorem prepProductName_words (u : CaseTable) (title vendor V : Str) (W : List Str)
    (hvendor : ToLower u vendor = V)
    (htitle : ToLower u title = V ++ ' ' :: joinWith ' ' W)
    (hV : ∀ c ∈ V, wordChar c = true)
    (hW : W ≠ [])
    (hw : ∀ w ∈ W, w ≠ [] ∧ ∀ c ∈ w, wordChar c = true)
    (hno : ∀ w ∈ W, Contains w V = false) :
    prepProductName u title vendor = joinWith '_' W := by
  -- the vendor name is not empty and has no space
  obtain ⟨w0, W0, hW0⟩ := List.exists_cons_of_ne_nil hW
  have hVne : V ≠ [] := by
    intro e
    have := hno w0 (by rw [hW0]; exact List.mem_cons_self _ _)
    rw [e, Contains_nil] at this
    cases this
  have hVsp : ' ' ∉ V := fun h => (wordChar_elim ' ' (hV ' ' h)).2.2.2.2.2 rfl
  -- the title is a text of plain words
  have hall : ∀ w ∈ V :: W, w ≠ [] ∧ ∀ c ∈ w, wordChar c = true := by
    intro w hm
    rcases List.mem_cons.mp hm with h | h
    · rw [h]; exact ⟨hVne, hV⟩
    · exact hw w h
  have hT : V ++ ' ' :: joinWith ' ' W = joinWith ' ' (V :: W) := by
    rw [hW0]
    rfl
  have hTd : noDouble (V ++ ' ' :: joinWith ' ' W) = true := by
    rw [hT]
    exact noDouble_joinWith _ hall
  have hTc : ∀ c ∈ V ++ ' ' :: joinWith ' ' W, c = ' ' ∨ wordChar c = true := by
    rw [hT]
    exact mem_joinWith_words _ hall
  have hJc : ∀ c ∈ joinWith ' ' W, c = ' ' ∨ wordChar c = true := mem_joinWith_words _ hw
  have hJV : Contains (joinWith ' ' W) V = false := by
    cases hc : Contains (joinWith ' ' W) V with
    | false => rfl
    | true =>
      obtain ⟨w, hm, hcw⟩ := Contains_joinWith ' ' V hVsp hVne W hc
      rw [hno w hm] at hcw
      cases hcw
  obtain ⟨⟨x, xs, hx, hxc⟩, ⟨front, cl, hfront, hcl⟩⟩ := joinWith_ends ' ' W hW hw
  -- the steps
  have e1 : ReplaceAllString reMultispaces 0 (V ++ ' ' :: joinWith ' ' W) " ".toList
      = V ++ ' ' :: joinWith ' ' W := ReplaceAllString_reMultispaces _ _ hTd
  have e2 : ReplaceAllString reVersion 5 (V ++ ' ' :: joinWith ' ' W) []
      = V ++ ' ' :: joinWith ' ' W :=
    ReplaceAllString_reVersion _ _ (fun c hc => by
      rcases hTc c hc with h | h
      · rw [h]; rfl
      · exact (wordChar_elim c h).2.1)
  have e3 : ReplaceStr (V ++ ' ' :: joinWith ' ' W) "-".toList " ".toList (-1)
      = V ++ ' ' :: joinWith ' ' W :=
    ReplaceStr_char_of_not_mem '-' ' ' _ (fun hc => by
      rcases hTc _ hc with h | h
      · cases h
      · exact (wordChar_elim _ h).2.2.1 rfl)
  have e4 : ReplaceStr (V ++ ' ' :: joinWith ' ' W) "–".toList " ".toList (-1)
      = V ++ ' ' :: joinWith ' ' W :=
    ReplaceStr_char_of_not_mem '–' ' ' _ (fun hc => by
      rcases hTc _ hc with h | h
      · cases h
      · exact (wordChar_elim _ h).2.2.2.1 rfl)
  have e5 : Contains (V ++ ' ' :: joinWith ' ' W) V = true :=
    (Contains_iff _ _).mpr ⟨[], ' ' :: joinWith ' ' W, rfl⟩
  have e6 : ReplaceStr (V ++ ' ' :: joinWith ' ' W) (' ' :: V ++ [' ']) [] 1
      = V ++ ' ' :: joinWith ' ' W := by
    apply ReplaceStr_of_not_Contains
    cases hc : Contains (V ++ ' ' :: joinWith ' ' W) (' ' :: V ++ [' ']) with
    | false => rfl
    | true =>
      exfalso
      have h1 : Contains (V ++ ' ' :: joinWith ' ' W) ([' '] ++ V ++ [' ']) = true := hc
      obtain ⟨t, v, h2⟩ := (Contains_iff _ _).mp h1
      -- the occurrence starts in the part after the vendor name
      rw [show t ++ ([' '] ++ V ++ [' ']) ++ v = t ++ (' ' :: (V ++ ' ' :: v)) by simp] at h2
      rcases List.append_eq_append_iff.mp h2 with ⟨a1, h3, h4⟩ | ⟨c1, h3, h4⟩
      · -- t = V ++ a1
        cases a1 with
        | nil =>
          simp only [List.nil_append, List.cons.injEq, true_and] at h4
          have : Contains (joinWith ' ' W) V = true :=
            (Contains_iff _ _).mpr ⟨[], ' ' :: v, by rw [h4]; simp⟩
          rw [hJV] at this
          cases this
        | cons y a1 =>
          simp only [List.cons_append, List.cons.injEq] at h4
          have : Contains (joinWith ' ' W) V = true :=
            (Contains_iff _ _).mpr ⟨a1 ++ [' '], ' ' :: v, by rw [h4.2]; simp⟩
          rw [hJV] at this
          cases this
      · -- V = t ++ c1 and the space of the occurrence lies in V or follows it
        cases c1 with
        | nil =>
          simp only [List.nil_append, List.cons.injEq, true_and] at h4
          have : Contains (joinWith ' ' W) V = true :=
            (Contains_iff _ _).mpr ⟨[], ' ' :: v, by rw [← h4]; simp⟩
          rw [hJV] at this
          cases this
        | cons y c1 =>
          simp only [List.cons_append, List.cons.injEq] at h4
          apply hVsp
          rw [h3, ← h4.1]
          simp
  have e7 : ReplaceStr (V ++ ' ' :: joinWith ' ' W) (V ++ [' ']) [] 1 = joinWith ' ' W := by
    have h := ReplaceStr_one_at_start (V ++ [' ']) (joinWith ' ' W) (by simp)
    rw [List.append_assoc] at h
    exact h
  have e8 : (if (utf8 V).length > 3 then ReplaceStr (joinWith ' ' W) V [] 1
      else joinWith ' ' W) = joinWith ' ' W := by
    split
    · exact ReplaceStr_of_not_Contains _ _ _ _ hJV
    · rfl
  have e9 : TrimSpace (joinWith ' ' W) = joinWith ' ' W := by
    rw [hx]
    exact TrimSpace_of_ends x cl xs front (wordChar_elim x hxc).1 (wordChar_elim cl hcl).1
      (by rw [← hx, hfront])
  have e10 : ¬ ((joinWith ' ' W).length = 0 ∨ MatchWhole reIsNumeric (joinWith ' ' W) = true) := by
    rw [hx]
    rintro (h | h)
    · simp at h
    · rw [MatchWhole_reIsNumeric_false x xs (wordChar_elim x hxc).2.1] at h
      cases h
  have e11 : ReplaceAllString reBracketed 0 (joinWith ' ' W) [] = joinWith ' ' W :=
    ReplaceAllString_reBracketed _ _ (fun hc => by
      rcases hJc _ hc with h | h
      · cases h
      · exact (wordChar_elim _ h).2.2.2.2.1 rfl)
  have e12 : ReplaceStr (joinWith ' ' W) "  ".toList " ".toList (-1) = joinWith ' ' W := by
    apply ReplaceStr_of_not_Contains
    cases hc : Contains (joinWith ' ' W) "  ".toList with
    | false => rfl
    | true =>
      exfalso
      obtain ⟨t, v, h⟩ := (Contains_iff _ _).mp hc
      have hd := noDouble_joinWith W hw
      rw [h, List.append_assoc] at hd
      have hd2 := noDouble_suffix t _ hd
      revert hd2
      show ¬ (noDouble (' ' :: ' ' :: v) = true)
      simp [noDouble]
      intro h
      exact absurd h (by decide)
  have e13 : ReplaceStr (joinWith ' ' W) " ".toList "_".toList (-1) = joinWith '_' W := by
    have h := ReplaceStr_char ' ' '_' (joinWith ' ' W)
    rw [underscore_joinWith W hw] at h
    exact h
  unfold prepProductName
  dsimp only
  rw [hvendor, htitle, e1, e2, e3, e4, if_pos e5, e6, e7, e8, e9, if_neg e10, e11, e12, e9, e13]

/-- The vendor name is looked for in the lower-cased title: a word that contains it in
another letter case loses it. -/
theorem prepProductName_folded_occurrence :
    prepProductName asciiCase "Google GOOGLEplex".toList "google".toList = "plex".toList ∧
    prepProductName asciiCase "Google Apps GOOGLE Sync".toList "google".toList
      = "appssync".toList := by
  decide

/-- C23: `prepProductName` strips a leading vendor name. The title is made of `name`, which
is the vendor name in any letter case (the two are equal once lower-cased), one space, and
one or more non-empty words separated by single spaces. The lower case of every character of
the vendor name and of the words is a character of a plain word, as is the lower case of
every ASCII letter (`wordChar_toLower_alpha`), and no word contains the vendor name, both
taken in lower case. Then the result is the words lower-cased and joined by `_`. -/
theorem C23_prepProductName_strips_leading_vendor (u : CaseTable) (name vendor : Str)
    (words : List Str)
    (hname : ToLower u name = ToLower u vendor)
    (hvendor : ∀ c ∈ vendor, wordChar (u.toLower c) = true)
    (hwords : words ≠ [])
    (hword : ∀ w ∈ words, w ≠ [] ∧ (∀ c ∈ w, wordChar (u.toLower c) = true) ∧
      Contains (ToLower u w) (ToLower u vendor) = false) :
    prepProductName u (name ++ ' ' :: joinWith ' ' words) vendor
      = joinWith '_' (words.map (ToLower u)) := by
  apply prepProductName_words u _ vendor (ToLower u vendor) (words.map (ToLower u)) rfl
  · have h : ToLower u (name ++ ' ' :: joinWith ' ' words)
        = ToLower u name ++ u.toLower ' ' :: ToLower u (joinWith ' ' words) := by
      simp [ToLower]
    rw [h, hname, ToLower_joinWith_space, u.toLower_ascii ' ' (by decide)]
    rfl
  · intro c hc
    obtain ⟨d, hd, hcd⟩ := List.mem_map.mp hc
    rw [← hcd]
    exact hvendor d hd
  · intro e
    exact hwords (List.map_eq_nil_iff.mp e)
  · intro w hwm
    obtain ⟨w1, hw1, he⟩ := List.mem_map.mp hwm
    subst he
    obtain ⟨hne, hc, _⟩ := hword w1 hw1
    refine ⟨?_, ?_⟩
    · intro e
      exact hne (List.map_eq_nil_iff.mp e)
    · intro c hcm
      obtain ⟨d, hd, hcd⟩ := List.mem_map.mp hcm
      rw [← hcd]
      exact hc d hd
  · intro w hwm
    obtain ⟨w1, hw1, he⟩ := List.mem_map.mp hwm
    subst he
    exact (hword w1 hw1).2.2

theorem C23_prepProductName_strips_leading_vendor_witness :
    prepProductName asciiCase "Google Chrome".toList "google".toList = "chrome".toList ∧
    prepProductName asciiCase "Adobe Acrobat Reader DC".toList "adobe".toList
      = "acrobat_reader_dc".toList :=
  ⟨C23_prepProductName_strips_leading_vendor asciiCase "Google".toList "google".toList
      ["Chrome".toList] (by decide) (by decide) (by decide) (by decide),
   C23_prepProductName_strips_leading_vendor asciiCase "Adobe".toList "adobe".toList
      ["Acrobat".toList, "Reader".toList, "DC".toList] (by decide) (by decide) (by decide)
      (by decide)⟩

/-! ## Automatic commits of the session -/

theorem wrapInt_succ_small (x : Int) (h0 : 0 ≤ x) (h1 : x ≤ 50000) :
    wrapInt (x + 1) = x + 1 := by
  unfold wrapInt
  omega

theorem SessionTx.session_inv (o : Outcomes) (sw : SessionTx) (ho : o.commitOk = true)
    (h : sw.inv) : (sw.session o).2.inv ∧
      ((sw.session o).1 = true → (sw.session o).2.curSession = true ∧
        (sw.session o).2.insertCount < 50000) := by
  obtain ⟨h1, h2, h3, h4, h5⟩ := h
  unfold SessionTx.session SessionTx.CommitAndRestart
  rcases sw with ⟨cur, cnt, thr, pend, rows⟩
  simp only at h1 h2 h3 h4 h5
  subst h1
  simp only [ho, Bool.not_true, Bool.false_eq_true, if_false]
  cases cur with
  | false =>
    have hc : cnt = 0 := h5 rfl
    subst hc
    have hp : pend = 0 := by omega
    subst hp
    cases hb : o.beginOk <;> simp [SessionTx.inv]
  | true =>
    by_cases hc : cnt = 50000
    · subst hc
      cases hb : o.beginOk <;> simp [SessionTx.inv]
    · cases hb : o.beginOk <;> simp [SessionTx.inv, hc] <;> omega

theorem SessionTx.step_inv (sw : SessionTx) (x : SessionOp × Outcomes)
    (ho : x.2.commitOk = true) (h : sw.inv) : (sw.step x).inv := by
  have hs := SessionTx.session_inv x.2 sw ho h
  obtain ⟨op, o⟩ := x
  simp only at ho hs
  have hcall : (sw.call o).2.inv := by
    unfold SessionTx.call
    simp only
    split <;> exact hs.1
  have hchain : (sw.chain o).2.inv := hs.1
  have hexec : (sw.Exec o).2.inv := by
    unfold SessionTx.Exec
    simp only
    split
    · exact hs.1
    · split
      · exact hs.1
      · exact hs.1
  have hins : (sw.Insert o).2.inv := by
    unfold SessionTx.Insert
    simp only
    split
    · exact hs.1
    · split
      · exact hs.1
      · rename_i hok _
        have hok2 : (sw.session o).1 = true := by simpa using hok
        obtain ⟨⟨h1, h2, h3, h4, h5⟩, h6⟩ := hs
        have h7 := (h6 hok2).2
        refine ⟨h1, ?_, ?_, ?_, ?_⟩
        · simp only
          rw [wrapInt_succ_small _ h2 h3]
          omega
        · simp only
          rw [wrapInt_succ_small _ h2 h3]
          omega
        · simp only
          rw [wrapInt_succ_small _ h2 h3]
          omega
        · intro hcur
          simp only at hcur
          rw [(h6 hok2).1] at hcur
          cases hcur
  cases op <;> simp only [SessionTx.step] <;> assumption

theorem SessionTx.run_inv : ∀ (steps : List (SessionOp × Outcomes)) (sw : SessionTx),
    (∀ x ∈ steps, x.2.commitOk = true) → sw.inv → (sw.run steps).inv
  | [], _, _, h => h
  | x :: steps, sw, ho, h =>
    SessionTx.run_inv steps (sw.step x) (fun y hy => ho y (List.mem_cons_of_mem _ hy))
      (SessionTx.step_inv sw x (ho x (List.mem_cons_self _ _)) h)

theorem SessionTx.run_append (sw : SessionTx) (a b : List (SessionOp × Outcomes)) :
    sw.run (a ++ b) = (sw.run a).run b := by
  unfold SessionTx.run
  rw [List.foldl_append]

theorem SessionTx.run_cons (sw : SessionTx) (x : SessionOp × Outcomes)
    (l : List (SessionOp × Outcomes)) : sw.run (x :: l) = (sw.step x).run l :=
  rfl

/-- The state after `n` successful insertions of one row in an open session, while the
threshold is not passed. -/
theorem SessionTx.run_inserts_from : ∀ (n c p q : Nat), c + n ≤ 50000 →
    SessionTx.run (⟨true, (c : Int), 50000, p, q⟩ : SessionTx) (List.replicate n insertOne)
      = ⟨true, (c : Int) + n, 50000, p + n, q + n⟩
  | 0, c, p, q, _ => by simp [SessionTx.run]
  | n + 1, c, p, q, h => by
    have hne : ¬ ((c : Int) = 50000) := by omega
    have hstep : SessionTx.step (⟨true, (c : Int), 50000, p, q⟩ : SessionTx) insertOne
        = ⟨true, ((c + 1 : Nat) : Int), 50000, p + 1, q + 1⟩ := by
      simp only [SessionTx.step, insertOne, SessionTx.Insert, SessionTx.session,
        Bool.true_eq_false, hne, or_self, if_false]
      rw [wrapInt_succ_small _ (by omega) (by omega)]
      simp
    rw [List.replicate_succ, SessionTx.run_cons, hstep,
      SessionTx.run_inserts_from n (c + 1) (p + 1) (q + 1) (by omega)]
    simp only [SessionTx.mk.injEq, true_and]
    refine ⟨?_, ?_, ?_⟩ <;> push_cast <;> omega

/-- The state after `n + 1` successful insertions of one row in a new session, while the
threshold is not passed. -/
theorem SessionTx.run_inserts : ∀ n : Nat, n < 50000 →
    newSessionTx.run (List.replicate (n + 1) insertOne)
      = { curSession := true, insertCount := (n : Int) + 1, insertCommitThreshold := 50000,
          pending := n + 1, pendingRows := n + 1 } := by
  intro n h
  have hstep : newSessionTx.step insertOne = ⟨true, ((1 : Nat) : Int), 50000, 1, 1⟩ := by
    decide
  rw [List.replicate_succ, SessionTx.run_cons, hstep,
    SessionTx.run_inserts_from n 1 1 1 (by omega)]
  simp only [SessionTx.mk.injEq, true_and]
  refine ⟨?_, ?_, ?_⟩ <;> push_cast <;> omega

/-- C26, the claim as stated fails in two ways. When a commit fails: after 50,000 successful
insertions the next operation resets the count although its commit fails, and the insertion
after it is made without a commit, so that 50,001 successful calls of `Insert` have been
made since the last commit while the count of the session is 1. And without any failure: the
rows that the statements of an `Exec` insert are not counted, so that after an `Exec` that
inserts 21 rows (as the schema script does) and 50,000 insertions, 50,021 rows have been
inserted and no commit has been made. -/
theorem C26_session_failed_commit_counterexample :
    newSessionTx.run (List.replicate 50000 insertOne ++
        [(SessionOp.Insert, ⟨false, true, true, 1⟩), insertOne])
      = { curSession := true, insertCount := 1, insertCommitThreshold := 50000,
          pending := 50001, pendingRows := 50001 } ∧
    newSessionTx.run ((SessionOp.Exec, ⟨true, true, true, 21⟩) :: List.replicate 50000 insertOne)
      = { curSession := true, insertCount := 50000, insertCommitThreshold := 50000,
          pending := 50000, pendingRows := 50021 } := by
  constructor
  · rw [SessionTx.run_append, SessionTx.run_inserts 49999 (by decide)]
    decide
  · have hstep : newSessionTx.step (SessionOp.Exec, ⟨true, true, true, 21⟩)
        = ⟨true, ((0 : Nat) : Int), 50000, 0, 21⟩ := by
      decide
    rw [SessionTx.run_cons, hstep, SessionTx.run_inserts_from 50000 0 0 21 (by decide)]
    decide

/-- C26, amended: in every state that a new session reaches through its operations (`Insert`,
`Exec`, `Where`, `Sql`, `OrderBy`, `Get`, `Find`) in a run in which no commit fails, the
number of successful calls of `Insert` since the last commit is the count of the session and
is at most 50,000. When it is 50,000, the next operation, if its `Begin` succeeds, commits,
begins a new transaction and resets the count to 0 before its own work: after it the session
is open, the number of calls and the count are 1 for a successful `Insert` and 0 otherwise,
and the rows inserted since the commit are those of the operation itself. -/
theorem C26_session_pending_bounded (steps : List (SessionOp × Outcomes))
    (h : ∀ x ∈ steps, x.2.commitOk = true) :
    (newSessionTx.run steps).pending ≤ 50000 ∧
    ((newSessionTx.run steps).pending : Int) = (newSessionTx.run steps).insertCount ∧
    ((newSessionTx.run steps).pending = 50000 →
      ∀ (op : SessionOp) (callOk : Bool) (rows : Nat),
      ((newSessionTx.run steps).step (op, ⟨true, true, callOk, rows⟩)).curSession = true ∧
      ((newSessionTx.run steps).step (op, ⟨true, true, callOk, rows⟩)).pending
        = (if op = SessionOp.Insert ∧ callOk = true then 1 else 0) ∧
      (((newSessionTx.run steps).step (op, ⟨true, true, callOk, rows⟩)).insertCount : Int)
        = (if op = SessionOp.Insert ∧ callOk = true then 1 else 0) ∧
      ((newSessionTx.run steps).step (op, ⟨true, true, callOk, rows⟩)).pendingRows
        = (if (op = SessionOp.Insert ∨ op = SessionOp.Exec) ∧ callOk = true then rows
           else 0)) := by
  have hinv := SessionTx.run_inv steps newSessionTx h
    ⟨rfl, by decide, by decide, rfl, fun _ => rfl⟩
  generalize newSessionTx.run steps = sw at hinv
  obtain ⟨h1, h2, h3, h4, h5⟩ := hinv
  refine ⟨by omega, h4, ?_⟩
  intro hp op callOk rows
  rcases sw with ⟨cur, cnt, thr, pend, prows⟩
  simp only at h1 h2 h3 h4 h5 hp
  subst h1 hp
  have hc : cnt = 50000 := by omega
  subst hc
  have hcur : cur = true := by
    cases cur
    · exact absurd (h5 rfl) (by decide)
    · rfl
  subst hcur
  have hw : wrapInt 1 = 1 := by decide
  cases op <;> cases callOk <;>
    simp [SessionTx.step, SessionTx.Insert, SessionTx.Exec, SessionTx.call, SessionTx.chain,
      SessionTx.session, SessionTx.CommitAndRestart, hw]

/-- C26 at the threshold: after 50,000 successful insertions in a new session the number of
calls is 50,000 and a further `Insert`, whose commit succeeds, leaves it at 1; and the run
that goes on with an `Insert`, an `Exec` of 21 rows and an `Insert` passes one commit and
ends with a count of 2 and 23 rows. -/
theorem C26_session_pending_bounded_witness :
    (newSessionTx.run (List.replicate 50000 insertOne)).pending = 50000 ∧
    ((newSessionTx.run (List.replicate 50000 insertOne)).step insertOne).pending = 1 ∧
    (newSessionTx.run (List.replicate 50000 insertOne ++
      [insertOne, (SessionOp.Exec, ⟨true, true, true, 21⟩), insertOne])).pending ≤ 50000 ∧
    newSessionTx.run (List.replicate 50000 insertOne ++
      [insertOne, (SessionOp.Exec, ⟨true, true, true, 21⟩), insertOne])
      = { curSession := true, insertCount := 2, insertCommitThreshold := 50000,
          pending := 2, pendingRows := 23 } :=
  ⟨by rw [SessionTx.run_inserts 49999 (by decide)],
   ((C26_session_pending_bounded (List.replicate 50000 insertOne)
      (fun x hx => by rw [List.eq_of_mem_replicate hx]; rfl)).2.2
      (by rw [SessionTx.run_inserts 49999 (by decide)]) SessionOp.Insert true 1).2.1,
   (C26_session_pending_bounded (List.replicate 50000 insertOne ++
      [insertOne, (SessionOp.Exec, ⟨true, true, true, 21⟩), insertOne])
      (fun x hx => by
        rcases List.mem_append.mp hx with h | h
        · rw [List.eq_of_mem_replicate h]; rfl
        · simp only [List.mem_cons, List.mem_singleton, List.not_mem_nil, or_false] at h
          rcases h with h | h | h <;> rw [h] <;> rfl)).1,
   by rw [SessionTx.run_append, SessionTx.run_inserts 49999 (by decide)]; decide⟩

/-! ## The advisories returned by `MatchCVEs` -/

/-- C21, evaluation of the code: in `chunkedDatabase` the matched product item is linked to
five distinct advisories, by 901 rows of which the last names the first advisory again. The
identifiers are fetched in two chunks, the advisory of highest score comes back in both, and
after the cut to five the list holds it twice and lacks the advisory `CVE-2020-0005`, linked
as well. -/
theorem C21_MatchCVEs_duplicate_across_chunks :
    chunkedRows.length = 901 ∧
    (∀ v ∈ chunkedRows, v.ProductItemID = 1 ∧ v.AdvisoryID ∈ [1, 2, 3, 4, 5]) ∧
    (∀ a ∈ rankedAdvisories, ∃ v ∈ chunkedRows, v.AdvisoryID = a.Id) ∧
    (MatchCVEs asciiCase (goNames asciiCase) insertionStable chunkedDatabase NewSessionWrapper
        "a".toList "Microsoft".toList "Office".toList "1.5".toList [] []).1
      = .ok [{ Advisory := { Id := 1, CVEID := "CVE-2020-0001".toList, CVSS3BaseScore := some 9 } },
             { Advisory := { Id := 1, CVEID := "CVE-2020-0001".toList, CVSS3BaseScore := some 9 } },
             { Advisory := { Id := 2, CVEID := "CVE-2020-0002".toList, CVSS3BaseScore := some 8 } },
             { Advisory := { Id := 3, CVEID := "CVE-2020-0003".toList, CVSS3BaseScore := some 7 } },
             { Advisory := { Id := 4, CVEID := "CVE-2020-0004".toList, CVSS3BaseScore := some 6 } }] := by
  decide!

/-- C22, evaluation of the code: the key of the cache is the six arguments written one after
the other, so the calls for the title `office` in version `1.5` and for the title `office1`
in version `.5` have the same key. In `aliasDatabase` a new session answers the second call
with no advisory, and a session that has answered the first call answers it with the two
advisories of the first. -/
theorem C22_MatchCVEs_cache_key_collision :
    runMatchCVEs asciiCase (goNames asciiCase) insertionStable
        [(aliasDatabase,
          { systype := "a".toList, publisher := "Microsoft".toList,
            title := "office1".toList, version := ".5".toList })] NewSessionWrapper
      = [.ok []] ∧
    runMatchCVEs asciiCase (goNames asciiCase) insertionStable
        [(aliasDatabase,
          { systype := "a".toList, publisher := "Microsoft".toList,
            title := "office".toList, version := "1.5".toList }),
         (aliasDatabase,
          { systype := "a".toList, publisher := "Microsoft".toList,
            title := "office1".toList, version := ".5".toList })] NewSessionWrapper
      = [.ok exampleResult, .ok exampleResult] := by
  decide!

/-! ## Platform vulnerabilities -/

/-- C25, evaluation of the code: an advisory of the NVD feed with an entry for Windows Server
2016, named as well by the MSRC data for the product `Windows Server 2016`. The NVD step
inserts the row of platform 11 and the advisory, the MSRC step starts with an empty map and
inserts a second row for the same pair, and the Red Hat step, which loads the rows present,
adds nothing: the table ends with two rows for the pair (11, 1). -/
theorem C25_CreateDB_duplicate_platform_vulnerability :
    (CreateDB
      [{ Advisories := [{ CVEID := "CVE-2020-0001".toList }],
         Map := [("o".toList,
           { CVEID := "CVE-2020-0001".toList,
             RawCPE23 := "cpe:2.3:o:microsoft:windows_server_2016:-:*:*:*:*:*:*:*".toList })] }]
      [("CVE-2020-0001".toList, ["Windows Server 2016".toList])]
      (fun _ => [])).map (fun t => t.platformVulns)
    = .ok [{ PlatformID := 11, VulnerabilityId := 1, Source := SourceCPE },
           { PlatformID := 11, VulnerabilityId := 1, Source := SourceMSRC }] := by
  decide!

/-! ## The cache of `MatchCVEs` -/

/-- A call of `MatchCVEs` whose key is in the cache of the session returns the cached list
and leaves the session as it is, whatever the database holds. -/
theorem MatchCVEs_cached (u : CaseTable) (names : NameRules) (sorts : StableSort)
    (db : Database) (session : VulnDBSession)
    (systype publisher title version patch target_sw : Str) (l : List CVEMatch)
    (h : session.cached (systype ++ publisher ++ title ++ version ++ patch ++ target_sw)
      = some l) :
    MatchCVEs u names sorts db session systype publisher title version patch target_sw
      = (.ok l, session) := by
  unfold MatchCVEs
  simp only [h]

end Vulndb
